import Mathlib

/-!
# Adjacency-matrix graph with breadth-first path search

A shallow embedding of `MatrixGraph_Chaurasia.cpp`, `Queue_Chaurasia.hpp` and the
weight loops of `Chaurasia_TestGraph.cpp`, followed by the properties proved of it.

Conventions of the embedding.

* A C++ `float` is modelled by the value it denotes (`Float32`): a finite number, an
  infinity or NaN.  The two signed zeros denote the same number and are one value, so
  the tests `x == 0.0f` and `x != 0.0f` of the source are equality and disequality with
  `Float32.zero` (NaN is different from zero, as in C++).  No float arithmetic is
  modelled: where the source adds weights the addition is a parameter.  The only
  conversions modelled are those of the edge-list text: a weight written with six
  decimals (`writeWeight`) and a weight field read by `inFile >> weight` (`readWeight`,
  which stores the nearest `float`, `nearestFloat`, unless the extraction fails).
* `int` vertex arguments are `Int`, so that negative indices can be passed.  Once the
  range guard has passed, an index is used as a `Nat`.  `vertexCount` is a `Nat`: with a
  negative argument the constructor throws from `new` before any object exists.  Where
  the driver counts in an `int` or reads one from the text, the value is kept within 32
  bits (`wrapInt32`, `readInt`).
* The matrix is the list of its rows.  Every access of the source is behind the range
  guard or inside a loop over `[0, vertexCount)`, so the default of `List.getD` and the
  no-op of `List.set` past the end are never exercised on a graph that the constructor
  and the mutating methods can produce (`Reachable`, `Reachable.wellFormed`).
* A throwing method returns `Except Exn _`; a mutating method returns the outcome of the
  call together with the graph after the call, so that a throw after a write would be
  visible.
* The two loops of `getBFSPath` take a step budget and return `none` when it runs out.
-/

namespace MatrixBFS

/-! ## Weights and exceptions -/

/-- Value denoted by a C++ `float`. -/
inductive Float32 where
  | finite (q : ℚ)
  | posInf
  | negInf
  | nan
deriving DecidableEq

/-- The literal `0.0f`. -/
def Float32.zero : Float32 := Float32.finite 0

/-- The literal `1.0f`, default weight of `addEdge`. -/
def Float32.one : Float32 := Float32.finite 1

/-- The exceptions thrown by the sources, one constructor per `throw` message. -/
inductive Exn where
  /-- `std::out_of_range("Vertex index out of range.")` -/
  | vertexIndexOutOfRange
  /-- `std::invalid_argument("Edge does not exist.")` -/
  | edgeDoesNotExist
  /-- `std::out_of_range("Queue is empty")` -/
  | queueIsEmpty
deriving DecidableEq, Repr

deriving instance DecidableEq for Except

/-! ## Queue_Chaurasia.hpp -/

/-- The linked list from `frontNode` to `rearNode`, with the `currentSize` counter. -/
structure Queue (α : Type) where
  nodes : List α
  currentSize : Nat
deriving DecidableEq, Repr

/-- `Queue()`: no node, size zero. -/
def Queue.empty {α : Type} : Queue α := ⟨[], 0⟩

/-- `isEmpty`: `frontNode == nullptr`. -/
def Queue.isEmpty {α : Type} (q : Queue α) : Bool := q.nodes.isEmpty

/-- `size`: the counter. -/
def Queue.size {α : Type} (q : Queue α) : Nat := q.currentSize

/-- `enqueue`: link a new node behind `rearNode`, increment the counter. -/
def Queue.enqueue {α : Type} (q : Queue α) (item : α) : Queue α :=
  ⟨q.nodes ++ [item], q.currentSize + 1⟩

/-- `dequeue`: throw on an empty queue, otherwise unlink and return the front node. -/
def Queue.dequeue {α : Type} (q : Queue α) : Except Exn (α × Queue α) :=
  match q.nodes with
  | [] => Except.error Exn.queueIsEmpty
  | data :: rest => Except.ok (data, ⟨rest, q.currentSize - 1⟩)

/-- `front`: throw on an empty queue, otherwise the data of the front node. -/
def Queue.front {α : Type} (q : Queue α) : Except Exn α :=
  match q.nodes with
  | [] => Except.error Exn.queueIsEmpty
  | data :: _ => Except.ok data

/-! ## MatrixGraph_Chaurasia.cpp: storage, mutation and query -/

/-- The fields of `class MatrixGraph`; `adjacencyMatrix` is the array of rows. -/
structure MatrixGraph where
  adjacencyMatrix : List (List Float32)
  vertexCount : Nat
  isDirected : Bool
deriving DecidableEq

/-- Read `m[i][j]`. -/
def readCell (m : List (List Float32)) (i j : Nat) : Float32 :=
  (m.getD i []).getD j Float32.zero

/-- Write `m[i][j] = w`. -/
def writeCell (m : List (List Float32)) (i j : Nat) (w : Float32) : List (List Float32) :=
  m.set i ((m.getD i []).set j w)

/-- The cell `adjacencyMatrix[i][j]` of a graph. -/
def MatrixGraph.cell (g : MatrixGraph) (i j : Nat) : Float32 :=
  readCell g.adjacencyMatrix i j

/-- The guard `start < 0 || start >= vertexCount || end < 0 || end >= vertexCount`. -/
def MatrixGraph.badIndex (g : MatrixGraph) (a b : Int) : Bool :=
  decide (a < 0) || decide (a ≥ (g.vertexCount : Int)) ||
    decide (b < 0) || decide (b ≥ (g.vertexCount : Int))

/-- `getVertexCount`. -/
def MatrixGraph.getVertexCount (g : MatrixGraph) : Nat := g.vertexCount

/-- `MatrixGraph(vertices, directed)`: every cell is set to `0.0f`. -/
def MatrixGraph.construct (vertices : Nat) (directed : Bool) : MatrixGraph :=
  ⟨List.replicate vertices (List.replicate vertices Float32.zero), vertices, directed⟩

/-- The two writes shared by `addEdge`, `removeEdge` and `setEdgeWeight`:
`m[start][end] = w; if (!isDirected) m[end][start] = w;`. -/
def MatrixGraph.store (g : MatrixGraph) (start stop : Nat) (w : Float32) : MatrixGraph :=
  let m := writeCell g.adjacencyMatrix start stop w
  { g with adjacencyMatrix := if g.isDirected then m else writeCell m stop start w }

/-- `addEdge(start, end, weight)`. -/
def MatrixGraph.addEdge (g : MatrixGraph) (start stop : Int) (weight : Float32) :
    Except Exn Unit × MatrixGraph :=
  if g.badIndex start stop then (Except.error Exn.vertexIndexOutOfRange, g)
  else (Except.ok (), g.store start.toNat stop.toNat weight)

/-- `removeEdge(start, end)`. -/
def MatrixGraph.removeEdge (g : MatrixGraph) (start stop : Int) :
    Except Exn Unit × MatrixGraph :=
  if g.badIndex start stop then (Except.error Exn.vertexIndexOutOfRange, g)
  else (Except.ok (), g.store start.toNat stop.toNat Float32.zero)

/-- `adjacent(v1, v2)`. -/
def MatrixGraph.adjacent (g : MatrixGraph) (v1 v2 : Int) : Except Exn Bool :=
  if g.badIndex v1 v2 then Except.error Exn.vertexIndexOutOfRange
  else Except.ok (decide (g.cell v1.toNat v2.toNat ≠ Float32.zero))

/-- `getEdgeWeight(start, end)`. -/
def MatrixGraph.getEdgeWeight (g : MatrixGraph) (start stop : Int) : Except Exn Float32 :=
  if g.badIndex start stop then Except.error Exn.vertexIndexOutOfRange
  else if g.cell start.toNat stop.toNat = Float32.zero then Except.error Exn.edgeDoesNotExist
  else Except.ok (g.cell start.toNat stop.toNat)

/-- `setEdgeWeight(start, end, weight)`. -/
def MatrixGraph.setEdgeWeight (g : MatrixGraph) (start stop : Int) (weight : Float32) :
    Except Exn Unit × MatrixGraph :=
  if g.badIndex start stop then (Except.error Exn.vertexIndexOutOfRange, g)
  else if g.cell start.toNat stop.toNat = Float32.zero then
    (Except.error Exn.edgeDoesNotExist, g)
  else (Except.ok (), g.store start.toNat stop.toNat weight)

/-! ## MatrixGraph_Chaurasia.cpp: breadth-first search -/

/-- The locals `visited`, `prev` and `queue` of `getBFSPath`. -/
structure BFSState where
  visited : List Bool
  prev : List Int
  queue : Queue Nat
deriving DecidableEq

/-- Body of the neighbour loop for one column `i`:
`if (m[current][i] != 0.0f && !visited[i]) { visited[i] = true; prev[i] = current;
queue.enqueue(i); }`. -/
def visitNeighbor (g : MatrixGraph) (current : Nat) (st : BFSState) (i : Nat) : BFSState :=
  if g.cell current i ≠ Float32.zero ∧ st.visited.getD i false = false then
    { visited := st.visited.set i true
      prev := st.prev.set i (current : Int)
      queue := st.queue.enqueue i }
  else st

/-- The neighbour loop `for (int i = 0; i < vertexCount; i++)`. -/
def scanRow (g : MatrixGraph) (current : Nat) (st : BFSState) : BFSState :=
  (List.range g.vertexCount).foldl (visitNeighbor g current) st

/-- The traversal loop `while (!queue.isEmpty())`, at most `fuel` evaluations of its
condition; `none` when the budget runs out before the loop is left. -/
def bfsLoop (g : MatrixGraph) (goal : Nat) : Nat → BFSState → Option (Except Exn BFSState)
  | 0, _ => none
  | fuel + 1, st =>
    if st.queue.isEmpty then some (Except.ok st)
    else
      match st.queue.dequeue with
      | Except.error e => some (Except.error e)
      | Except.ok (current, q) =>
        if current = goal then some (Except.ok { st with queue := q })
        else bfsLoop g goal fuel (scanRow g current { st with queue := q })

/-- The reconstruction loop `for (int at = goal; at != -1; at = prev[at])
path.push_back(at);`, at most `fuel` evaluations of its condition. -/
def walkBack (prev : List Int) : Nat → Int → List Int → Option (List Int)
  | 0, _, _ => none
  | fuel + 1, v, path =>
    if v = -1 then some path
    else walkBack prev fuel (prev.getD v.toNat (-1)) (path ++ [v])

/-- The state before the traversal loop: `visited[start] = true; queue.enqueue(start)`. -/
def bfsInit (g : MatrixGraph) (start : Nat) : BFSState :=
  { visited := (List.replicate g.vertexCount false).set start true
    prev := List.replicate g.vertexCount (-1)
    queue := Queue.empty.enqueue start }

/-- `getBFSPath(start, goal)` with both loops bounded by `fuel`. -/
def MatrixGraph.getBFSPathWithin (fuel : Nat) (g : MatrixGraph) (start goal : Int) :
    Option (Except Exn (List Int)) :=
  if g.badIndex start goal then some (Except.error Exn.vertexIndexOutOfRange)
  else
    match bfsLoop g goal.toNat fuel (bfsInit g start.toNat) with
    | none => none
    | some (Except.error e) => some (Except.error e)
    | some (Except.ok st) =>
      match walkBack st.prev fuel goal [] with
      | none => none
      | some pushed =>
        let path := pushed.reverse
        if !path.isEmpty ∧ path.head? = some start then some (Except.ok path)
        else some (Except.ok [])

/-- `getBFSPath(start, goal)`.  Each loop tests its condition at most `vertexCount + 1`
times (theorem `getBFSPathWithin_stable` below), which is the budget given here. -/
def MatrixGraph.getBFSPath (g : MatrixGraph) (start goal : Int) :
    Option (Except Exn (List Int)) :=
  g.getBFSPathWithin (g.vertexCount + 1) start goal

/-- `pathExists(start, goal)`. -/
def MatrixGraph.pathExists (g : MatrixGraph) (start goal : Int) :
    Option (Except Exn Bool) :=
  match g.getBFSPath start goal with
  | none => none
  | some (Except.error e) => some (Except.error e)
  | some (Except.ok path) => some (Except.ok (!path.isEmpty))

/-- The loop of `calculatePathWeight`: `weight += getEdgeWeight(path[i-1], path[i])` for
`i` from 1 to `path.size() - 1`; `add` stands for the float addition. -/
def pathWeightLoop (add : Float32 → Float32 → Float32) (g : MatrixGraph) :
    List Int → Float32 → Except Exn Float32
  | a :: b :: rest, weight =>
    match g.getEdgeWeight a b with
    | Except.error e => Except.error e
    | Except.ok w => pathWeightLoop add g (b :: rest) (add weight w)
  | _, weight => Except.ok weight

/-- `calculatePathWeight(graph, path)`: the loop started at `weight = 0.0f`. -/
def calculatePathWeight (add : Float32 → Float32 → Float32) (g : MatrixGraph)
    (path : List Int) : Except Exn Float32 :=
  pathWeightLoop add g path Float32.zero

/-- The cumulative-weight loop of the driver (menu cases 2 and 4): the running sums
printed next to the vertices `path[1]`, `path[2]`, ... -/
def cumulativeLoop (add : Float32 → Float32 → Float32) (g : MatrixGraph) :
    List Int → Float32 → Except Exn (List Float32)
  | a :: b :: rest, cumulativeWeight =>
    match g.getEdgeWeight a b with
    | Except.error e => Except.error e
    | Except.ok w =>
      match cumulativeLoop add g (b :: rest) (add cumulativeWeight w) with
      | Except.error e => Except.error e
      | Except.ok sums => Except.ok (add cumulativeWeight w :: sums)
  | _, _ => Except.ok []

/-- The driver loop started at `cumulativeWeight = 0.0`. -/
def cumulativeWeights (add : Float32 → Float32 → Float32) (g : MatrixGraph)
    (path : List Int) : Except Exn (List Float32) :=
  cumulativeLoop add g path Float32.zero

/-! ## Reachable states and the representation invariant -/

/-- Both vertex arguments lie in `[0, vertexCount)`. -/
def MatrixGraph.InRange (g : MatrixGraph) (a b : Int) : Prop :=
  0 ≤ a ∧ a < (g.vertexCount : Int) ∧ 0 ≤ b ∧ b < (g.vertexCount : Int)

instance (g : MatrixGraph) (a b : Int) : Decidable (g.InRange a b) := by
  unfold MatrixGraph.InRange
  infer_instance

/-- The directed chain `0 → 1 → 2 → 3` with default weights, built as the loader does. -/
def chain4 : MatrixGraph :=
  ((((MatrixGraph.construct 4 true).addEdge 0 1 Float32.one).2.addEdge 1 2 Float32.one).2.addEdge
    2 3 Float32.one).2

/-- The matrix has `vertexCount` rows of `vertexCount` cells. -/
def MatrixGraph.Sized (g : MatrixGraph) : Prop :=
  g.adjacencyMatrix.length = g.vertexCount ∧
    ∀ row ∈ g.adjacencyMatrix, row.length = g.vertexCount

/-- The matrix equals its transpose on `[0, vertexCount)`. -/
def MatrixGraph.Symmetric (g : MatrixGraph) : Prop :=
  ∀ i, i < g.vertexCount → ∀ j, j < g.vertexCount → g.cell i j = g.cell j i

/-- The states a `MatrixGraph` object can be in: the constructor, followed by any calls
of the three mutating methods, whether they return or throw. -/
inductive Reachable : MatrixGraph → Prop
  | construct (vertices : Nat) (directed : Bool) :
      Reachable (MatrixGraph.construct vertices directed)
  | addEdge {g : MatrixGraph} (start stop : Int) (weight : Float32) :
      Reachable g → Reachable (g.addEdge start stop weight).2
  | removeEdge {g : MatrixGraph} (start stop : Int) :
      Reachable g → Reachable (g.removeEdge start stop).2
  | setEdgeWeight {g : MatrixGraph} (start stop : Int) (weight : Float32) :
      Reachable g → Reachable (g.setEdgeWeight start stop weight).2

/-- The representation invariant: an `n × n` matrix, symmetric when undirected. -/
def MatrixGraph.WellFormed (g : MatrixGraph) : Prop :=
  g.Sized ∧ (g.isDirected = false → g.Symmetric)

/-! ## Predicates used to state and prove the properties of the search -/

/-- Vertex `v` is marked in `visited`. -/
def BFSState.vis (st : BFSState) (v : Nat) : Prop := st.visited.getD v false = true

instance (st : BFSState) (v : Nat) : Decidable (st.vis v) := by
  unfold BFSState.vis
  infer_instance

/-- The entry `prev[v]`. -/
def BFSState.prv (st : BFSState) (v : Nat) : Int := st.prev.getD v (-1)

/-- Number of vertices not yet marked. -/
def BFSState.unvisitedCount (st : BFSState) : Nat := st.visited.count false

/-- There is an edge from `u` to `v`: both in range and the cell is non-zero. -/
def MatrixGraph.Edge (g : MatrixGraph) (u v : Nat) : Prop :=
  u < g.vertexCount ∧ v < g.vertexCount ∧ g.cell u v ≠ Float32.zero

/-- The columns the neighbour loop of `current` marks when started in state `st`. -/
def discovered (g : MatrixGraph) (current : Nat) (st : BFSState) (cols : List Nat) :
    List Nat :=
  cols.filter (fun v => decide (g.cell current v ≠ Float32.zero ∧ ¬ st.vis v))

/-- What the neighbour loop over the columns `cols` does to a state. -/
structure ScanFacts (g : MatrixGraph) (c : Nat) (cols : List Nat) (st st' : BFSState) :
    Prop where
  vlen : st'.visited.length = st.visited.length
  plen : st'.prev.length = st.prev.length
  vis_iff : ∀ v, st'.vis v ↔ st.vis v ∨ v ∈ discovered g c st cols
  prv_eq : ∀ v, st'.prv v = if v ∈ discovered g c st cols then (c : Int) else st.prv v
  queue_eq : st'.queue.nodes = st.queue.nodes ++ discovered g c st cols
  measure : st'.queue.nodes.length + st'.unvisitedCount =
    st.queue.nodes.length + st.unvisitedCount

/-- Loop invariant of the traversal, at the test of the `while` condition; `d` is the
number of hops at which each marked vertex was discovered. -/
structure BFSInv (g : MatrixGraph) (s : Nat) (st : BFSState) (d : Nat → Nat) : Prop where
  vlen : st.visited.length = g.vertexCount
  plen : st.prev.length = g.vertexCount
  start_vis : st.vis s
  start_dist : d s = 0
  start_prv : st.prv s = -1
  pred : ∀ v, st.vis v → v ≠ s →
    ∃ u : Nat, st.prv v = (u : Int) ∧ st.vis u ∧ g.Edge u v ∧ d v = d u + 1
  unvis_prv : ∀ v, ¬ st.vis v → st.prv v = -1
  queue_vis : ∀ v ∈ st.queue.nodes, st.vis v
  queue_nodup : st.queue.nodes.Nodup
  queue_sorted : st.queue.nodes.Pairwise (fun a b => d a ≤ d b)
  near : ∀ v, st.vis v → ∀ h ∈ st.queue.nodes.head?, d v ≤ d h + 1
  closed : ∀ x, st.vis x → x ∉ st.queue.nodes →
    ∀ w, g.Edge x w → st.vis w ∧ d w ≤ d x + 1
  bound : ∀ v, st.vis v → d v + st.unvisitedCount < g.vertexCount

/-- A walk of `k` edges from `s`, following edges in their stored direction. -/
inductive MatrixGraph.Walk (g : MatrixGraph) (s : Nat) : Nat → Nat → Prop
  | nil : MatrixGraph.Walk g s s 0
  | snoc {x w k : Nat} : MatrixGraph.Walk g s x k → g.Edge x w →
      MatrixGraph.Walk g s w (k + 1)

/-- A list of vertices from `s` to `t` whose consecutive pairs are edges. -/
def MatrixGraph.IsPath (g : MatrixGraph) (s t : Nat) (p : List Nat) : Prop :=
  p.head? = some s ∧ p.getLast? = some t ∧ List.Chain' g.Edge p ∧
    ∀ v ∈ p, v < g.vertexCount

/-- The relation `adjacent(a, b)` returns true. -/
def MatrixGraph.Adj (g : MatrixGraph) (a b : Int) : Prop := g.adjacent a b = Except.ok true

instance (g : MatrixGraph) (a b : Int) : Decidable (g.Adj a b) := by
  unfold MatrixGraph.Adj
  infer_instance

/-- Vertex `b` is reachable from `a` by following zero or more edges in their stored
direction. -/
def MatrixGraph.Reaches (g : MatrixGraph) (a b : Int) : Prop :=
  Relation.ReflTransGen g.Adj a b

/-! ## Calls on a graph object -/

/-- A call of a public method of `MatrixGraph` (the two printing methods apart). -/
inductive Call where
  | addEdge (start stop : Int) (weight : Float32)
  | removeEdge (start stop : Int)
  | setEdgeWeight (start stop : Int) (weight : Float32)
  | adjacent (v1 v2 : Int)
  | getEdgeWeight (start stop : Int)
  | getVertexCount
  | pathExists (start goal : Int)
  | getBFSPath (start goal : Int)

/-- The graph after a call, whether it returns or throws.  The bodies of the five query
methods assign to no member and to no cell of the matrix (they only write their locals),
so the object after such a call is the object before it. -/
def MatrixGraph.afterCall (g : MatrixGraph) : Call → MatrixGraph
  | Call.addEdge start stop weight => (g.addEdge start stop weight).2
  | Call.removeEdge start stop => (g.removeEdge start stop).2
  | Call.setEdgeWeight start stop weight => (g.setEdgeWeight start stop weight).2
  | Call.adjacent _ _ => g
  | Call.getEdgeWeight _ _ => g
  | Call.getVertexCount => g
  | Call.pathExists _ _ => g
  | Call.getBFSPath _ _ => g

/-- The graph after a sequence of calls. -/
def MatrixGraph.afterCalls (g : MatrixGraph) (calls : List Call) : MatrixGraph :=
  calls.foldl MatrixGraph.afterCall g

/-! ## Sequences of calls on a queue -/

/-- A call of `enqueue` or of `dequeue`. -/
inductive QueueOp (α : Type) where
  | enqueue (item : α)
  | dequeue

/-- Run a sequence of calls.  The state is the queue together with the values returned
so far by the dequeues that returned; a `dequeue` that throws has assigned nothing and
leaves the queue as it was. -/
def Queue.run {α : Type} : Queue α × List α → List (QueueOp α) → Queue α × List α
  | state, [] => state
  | (q, returned), QueueOp.enqueue item :: ops => Queue.run (q.enqueue item, returned) ops
  | (q, returned), QueueOp.dequeue :: ops =>
    match q.dequeue with
    | Except.ok (data, q') => Queue.run (q', returned ++ [data]) ops
    | Except.error _ => Queue.run (q, returned) ops

/-- The items passed to `enqueue`, in call order. -/
def enqueuedItems {α : Type} : List (QueueOp α) → List α
  | [] => []
  | QueueOp.enqueue item :: ops => item :: enqueuedItems ops
  | QueueOp.dequeue :: ops => enqueuedItems ops

/-! ## The directed chain -/

/-- The directed graph on `n` vertices built by `addEdge(i, i + 1)` for `i` from 0 to
`n - 2`, with the default weight. -/
def chainGraph (n : Nat) : MatrixGraph :=
  (List.range (n - 1)).foldl
    (fun (g : MatrixGraph) (i : Nat) => (g.addEdge (i : Int) ((i : Int) + 1) Float32.one).2)
    (MatrixGraph.construct n true)

/-- The sequence `[i, i + 1, ..., j]`, empty when `j < i`. -/
def interval (i j : Int) : List Int :=
  (List.range (j + 1 - i).toNat).map (fun k : Nat => i + (k : Int))

/-! ## The traversal loop with a record of its dequeues -/

/-- The traversal loop `bfsLoop` with a record of the vertices that `dequeue` returned, in
order (`bfsLoopLog_fst`: dropping the record gives `bfsLoop`).  As the queue is
first-in-first-out, the vertices that were ever enqueued are the recorded ones followed
by those still in the queue. -/
def bfsLoopLog (g : MatrixGraph) (goal : Nat) :
    Nat → BFSState → List Nat → Option (Except Exn (BFSState × List Nat))
  | 0, _, _ => none
  | fuel + 1, st, dequeued =>
    if st.queue.isEmpty then some (Except.ok (st, dequeued))
    else
      match st.queue.dequeue with
      | Except.error e => some (Except.error e)
      | Except.ok (current, q) =>
        if current = goal then some (Except.ok ({ st with queue := q }, dequeued ++ [current]))
        else
          bfsLoopLog g goal fuel (scanRow g current { st with queue := q })
            (dequeued ++ [current])

/-! ## Lexicographic order and the tie-breaking invariant -/

/-- Sequence `p` is before or equal to `q` when compared position by position. -/
def lexLE {α : Type} [LT α] : List α → List α → Prop
  | [], _ => True
  | _ :: _, [] => False
  | a :: p, b :: q => a < b ∨ (a = b ∧ lexLE p q)

/-- The directed graph with the edges `0 → 1`, `0 → 2`, `1 → 3` and `2 → 3`. -/
def diamond : MatrixGraph :=
  (((((MatrixGraph.construct 4 true).addEdge 0 1 Float32.one).2.addEdge 0 2 Float32.one).2.addEdge
    1 3 Float32.one).2.addEdge 2 3 Float32.one).2

/-- Invariant of the traversal loop for the order of discovery; `P v` is the path of
the search tree from the start to the marked vertex `v`. -/
structure LexInv (g : MatrixGraph) (s : Nat) (st : BFSState) (P : Nat → List Nat) :
    Prop where
  inv : BFSInv g s st (fun v => (P v).length - 1)
  start_path : P s = [s]
  pred_path : ∀ v, st.vis v → v ≠ s →
    ∃ u : Nat, st.prv v = (u : Int) ∧ st.vis u ∧ u ∉ st.queue.nodes ∧ P v = P u ++ [v]
  queue_lex : st.queue.nodes.Pairwise
    (fun a b => (P a).length = (P b).length → lexLE (P a) (P b))
  done_lex : ∀ a, st.vis a → a ∉ st.queue.nodes → ∀ b ∈ st.queue.nodes,
    (P a).length ≤ (P b).length ∧ ((P a).length = (P b).length → lexLE (P a) (P b))
  minimal : ∀ v, st.vis v → ∀ Q : List Nat, Q.head? = some s → Q.getLast? = some v →
    List.Chain' g.Edge Q → Q.length = (P v).length → lexLE (P v) Q

/-! ## Chaurasia_TestGraph.cpp: writing and loading the edge-list text

The text is the header `vertices edges` followed by lines `u v weight`.  A weight is
written by `std::fixed << std::setprecision(6)`, that is as the decimal numeral with six
fractional digits nearest to it; for an infinity or a NaN a word is written that is not
a numeral.  The text is read by the extractions `inFile >> x` as the GNU C++ library
performs them: a numeral within the range of the variable is stored (for a `float`, the
nearest `float`); a numeral beyond the range stores the extreme value of the type and
sets `failbit`; a weight that is not a numeral stores `0.0f` and sets `failbit`; and
once `failbit` is set, or when the text is exhausted, an extraction leaves its variable
as it is.  The counter `numEdges` of the export is an `int`: it is kept within 32 bits
after every increment. -/

/-- The value of an `int` expression whose exact result is `x`: the number congruent to
`x` modulo `2 ^ 32` in the range from `INT_MIN` to `INT_MAX`. -/
def wrapInt32 (x : Int) : Int := (x + 2147483648) % 4294967296 - 2147483648

/-- Round to the nearest integer, a tie to the even one. -/
def roundHalfEven (q : ℚ) : Int :=
  if q - ⌊q⌋ < 1 / 2 then ⌊q⌋
  else if 1 / 2 < q - ⌊q⌋ then ⌊q⌋ + 1
  else if ⌊q⌋ % 2 = 0 then ⌊q⌋ else ⌊q⌋ + 1

/-- The number denoted by the text `outFile << std::fixed << std::setprecision(6) <<
weight` writes: the weight rounded to a whole number of millionths; `none` for an
infinity or a NaN, where a word is written. -/
def writeWeight : Float32 → Option ℚ
  | Float32.finite q => some ((roundHalfEven (q * 1000000) : ℚ) / 1000000)
  | _ => none

/-- The `float` nearest to the rational `q` (binary32, round to nearest, ties to even):
24 significant bits, least exponent `2 ^ (-149)`, infinity from `2 ^ 128` on.  It is the
result of the conversion `strtof` on a numeral that denotes `q`. -/
def nearestFloat (q : ℚ) : Float32 :=
  if q = 0 then Float32.zero
  else
    let e : Int := max (Int.log 2 |q|) (-126) - 23
    let r : ℚ := (roundHalfEven (q / 2 ^ e) : ℚ) * 2 ^ e
    if 2 ^ 128 ≤ r then Float32.posInf
    else if r ≤ -(2 ^ 128) then Float32.negInf
    else Float32.finite r

/-- `FLT_MAX`. -/
def fltMax : ℚ := (2 ^ 24 - 1) * 2 ^ 104

/-- `inFile >> x` for an `int x` on a numeral that denotes `n`: the value stored, and
whether `failbit` is set. -/
def readInt (n : Int) : Int × Bool :=
  if 2147483647 < n then (2147483647, true)
  else if n < -2147483648 then (-2147483648, true)
  else (n, false)

/-- `inFile >> weight` on the weight field of a line: the value stored, and whether
`failbit` is set.  A numeral is converted to the nearest `float`; when that is an
infinity, `FLT_MAX` with its sign is stored instead and the extraction fails.  A word
that is not a numeral (`none`) stores `0.0f` and fails. -/
def readWeight : Option ℚ → Float32 × Bool
  | none => (Float32.zero, true)
  | some q =>
    match nearestFloat q with
    | Float32.posInf => (Float32.finite fltMax, true)
    | Float32.negInf => (Float32.finite (-fltMax), true)
    | weight => (weight, false)

/-- The weight read back from the text written for `w`; `none` when the extraction
fails. -/
def readBack (w : Float32) : Option Float32 :=
  match readWeight (writeWeight w) with
  | (weight, false) => some weight
  | (_, true) => none

/-- A line `u v weight` of the text: two integer numerals and the weight field, which is
a numeral or (`none`) a word that is not one. -/
structure EdgeLine where
  u : Int
  v : Int
  weight : Option ℚ

/-- The text: the two numbers of the header and the lines. -/
structure EdgeListText where
  vertices : Nat
  edges : Int
  lines : List EdgeLine

/-- The pairs `(i, j)` in the order of the nested loops `for i ... for j ...`. -/
def allPairs (n : Nat) : List (Nat × Nat) :=
  (List.range n).flatMap (fun i : Nat => (List.range n).map (fun j : Nat => (i, j)))

/-- The first pair of loops of menu case 3: `if (graph->adjacent(i, j)) ++numEdges;`
with `int numEdges`. -/
def countEdges (g : MatrixGraph) : List (Nat × Nat) → Int → Except Exn Int
  | [], numEdges => Except.ok numEdges
  | (i, j) :: rest, numEdges =>
    match g.adjacent (i : Int) (j : Int) with
    | Except.error e => Except.error e
    | Except.ok true => countEdges g rest (wrapInt32 (numEdges + 1))
    | Except.ok false => countEdges g rest numEdges

/-- The second pair of loops of menu case 3: for every pair with `adjacent(i, j)` the
line `i + 1`, `j + 1`, `getEdgeWeight(i, j)`. -/
def writeLines (g : MatrixGraph) : List (Nat × Nat) → Except Exn (List EdgeLine)
  | [] => Except.ok []
  | (i, j) :: rest =>
    match g.adjacent (i : Int) (j : Int) with
    | Except.error e => Except.error e
    | Except.ok false => writeLines g rest
    | Except.ok true =>
      match g.getEdgeWeight (i : Int) (j : Int) with
      | Except.error e => Except.error e
      | Except.ok weight =>
        match writeLines g rest with
        | Except.error e => Except.error e
        | Except.ok lines =>
          Except.ok (⟨(i : Int) + 1, (j : Int) + 1, writeWeight weight⟩ :: lines)

/-- Menu case 3 of the driver: the text written for the graph. -/
def exportGraph (g : MatrixGraph) : Except Exn EdgeListText :=
  match countEdges g (allPairs g.getVertexCount) 0 with
  | Except.error e => Except.error e
  | Except.ok numEdges =>
    match writeLines g (allPairs g.getVertexCount) with
    | Except.error e => Except.error e
    | Except.ok lines => Except.ok ⟨g.getVertexCount, numEdges, lines⟩

/-- The stream and the variables `u`, `v`, `weight` of `loadGraphFromFile` inside its
loop: the lines not yet read, whether `failbit` is set, and the values of the variables,
`none` as long as nothing has been stored in them. -/
structure LoaderState where
  lines : List EdgeLine
  failed : Bool
  u : Option Int
  v : Option Int
  weight : Option Float32

/-- The extractions of one iteration in weighted mode: `inFile >> u >> v; inFile >>
weight;`.  On a stream that has failed, or at the end of the text, nothing is stored;
an extraction that fails stops the ones after it. -/
def readEdge (st : LoaderState) : LoaderState :=
  if st.failed then st
  else
    match st.lines with
    | [] => ⟨[], true, st.u, st.v, st.weight⟩
    | line :: rest =>
      if (readInt line.u).2 then ⟨rest, true, some (readInt line.u).1, st.v, st.weight⟩
      else if (readInt line.v).2 then
        ⟨rest, true, some (readInt line.u).1, some (readInt line.v).1, st.weight⟩
      else
        ⟨rest, (readWeight line.weight).2, some (readInt line.u).1, some (readInt line.v).1,
          some (readWeight line.weight).1⟩

/-- The loop of `loadGraphFromFile` in weighted mode with `remaining` iterations to go:
`inFile >> u >> v; inFile >> weight; graph->addEdge(u - 1, v - 1, weight);`.  The result
is `none` when a variable is used in which nothing has been stored, which C++ leaves
undefined. -/
def loadEdges : Nat → LoaderState → MatrixGraph → Option (Except Exn MatrixGraph)
  | 0, _, g => some (Except.ok g)
  | remaining + 1, st, g =>
    match (readEdge st).u, (readEdge st).v, (readEdge st).weight with
    | some u, some v, some weight =>
      match g.addEdge (wrapInt32 (u - 1)) (wrapInt32 (v - 1)) weight with
      | (Except.error e, _) => some (Except.error e)
      | (Except.ok (), g') => loadEdges remaining (readEdge st) g'
    | _, _, _ => none

/-- `loadGraphFromFile(path, isDirected, true)` on the text of the file: `inFile >>
vertices >> edges`, the graph constructed with `vertices`, and the loop `for (int i = 0;
i < edges; i++)`.  The result is `none` when the first number of the header is beyond
`INT_MAX`: the matrix for `INT_MAX` vertices cannot be allocated. -/
def loadGraphFromFile (text : EdgeListText) (isDirected : Bool) :
    Option (Except Exn MatrixGraph) :=
  if 2147483647 < text.vertices then none
  else
    loadEdges (readInt text.edges).1.toNat ⟨text.lines, (readInt text.edges).2, none, none, none⟩
      (MatrixGraph.construct text.vertices isDirected)

/-- Write the graph as menu case 3 does and load the text with the same directedness. -/
def reload (g : MatrixGraph) : Option (Except Exn MatrixGraph) :=
  match exportGraph g with
  | Except.error e => some (Except.error e)
  | Except.ok text => loadGraphFromFile text g.isDirected

/-- The number of ordered pairs `(i, j)` of vertices with `adjacent(i, j)`. -/
def MatrixGraph.edgeCount (g : MatrixGraph) : Nat :=
  (allPairs g.vertexCount).countP (fun p : Nat × Nat => decide (g.Adj (p.1 : Int) (p.2 : Int)))

/-- The line written for the pair `(i, j)`, if any. -/
def lineOf (g : MatrixGraph) (ij : Nat × Nat) : Option EdgeLine :=
  if g.cell ij.1 ij.2 ≠ Float32.zero then
    some ⟨(ij.1 : Int) + 1, (ij.2 : Int) + 1, writeWeight (g.cell ij.1 ij.2)⟩
  else none

/-- The weight `2 ^ (-24)`, a `float`. -/
def tinyWeight : Float32 := Float32.finite (1 / 16777216)

/-- The directed graph on two vertices with the edge `0 → 1` of weight `2 ^ (-24)`. -/
def tinyGraph : MatrixGraph :=
  ((MatrixGraph.construct 2 true).addEdge 0 1 tinyWeight).2

/-- Invariant of the loading loop, `g` being the graph that was written and `h` the graph
loaded so far: same size and directedness, and every cell of `h` is the cell of `g` or
still zero. -/
structure LoadInv (g h : MatrixGraph) : Prop where
  sized : h.Sized
  count : h.vertexCount = g.vertexCount
  directed : h.isDirected = g.isDirected
  cells : ∀ a b, h.cell a b = g.cell a b ∨ h.cell a b = Float32.zero

/-! ## Two graphs with the same edges -/

/-- The chain `0 → 1 → 2 → 3` with the weights -3, 7 and NaN. -/
def chain4Reweighted : MatrixGraph :=
  ((((MatrixGraph.construct 4 true).addEdge 0 1 (Float32.finite (-3))).2.addEdge 1 2
    (Float32.finite 7)).2.addEdge 2 3 Float32.nan).2

/-! ## Lemmas on the matrix and on the reachable states -/

theorem getD_set_eq {α : Type} (l : List α) (i j : Nat) (x d : α) :
    (l.set i x).getD j d = if j = i ∧ i < l.length then x else l.getD j d := by
  induction l generalizing i j with
  | nil => simp
  | cons a l ih =>
    cases i with
    | zero => cases j <;> simp
    | succ i =>
      cases j with
      | zero => simp
      | succ j => simpa using ih i j

theorem set_getD_self {α : Type} (l : List α) (i : Nat) (d : α) :
    l.set i (l.getD i d) = l := by
  induction l generalizing i with
  | nil => simp
  | cons a l ih =>
    cases i with
    | zero => simp
    | succ i => simpa using ih i

theorem set_self_of_getD {α : Type} (l : List α) (i : Nat) (x : α) (h : l.getD i x = x) :
    l.set i x = l := by
  have := set_getD_self l i x
  rw [h] at this
  exact this

theorem readCell_writeCell (m : List (List Float32)) (i j a b : Nat) (w : Float32) :
    readCell (writeCell m i j w) a b =
      if a = i ∧ b = j ∧ i < m.length ∧ j < (m.getD i []).length then w
      else readCell m a b := by
  unfold readCell writeCell
  rw [getD_set_eq]
  by_cases hai : a = i
  · subst hai
    by_cases hlen : a < m.length
    · simp only [hlen, and_self, if_true, true_and, and_true]
      rw [getD_set_eq]
    · have hge : m.length ≤ a := Nat.le_of_not_lt hlen
      simp [hlen, List.getD_eq_default _ _ hge]
  · simp [hai]

theorem writeCell_length (m : List (List Float32)) (i j : Nat) (w : Float32) :
    (writeCell m i j w).length = m.length := by
  simp [writeCell]

theorem writeCell_rows (m : List (List Float32)) (i j n : Nat) (w : Float32)
    (h : ∀ row ∈ m, row.length = n) : ∀ row ∈ writeCell m i j w, row.length = n := by
  intro row hrow
  unfold writeCell at hrow
  by_cases hi : i < m.length
  · rcases List.mem_or_eq_of_mem_set hrow with hmem | heq
    · exact h row hmem
    · subst heq
      rw [List.length_set]
      have : m.getD i [] ∈ m := by
        rw [List.getD_eq_getElem _ _ hi]
        exact List.getElem_mem hi
      exact h _ this
  · have hge : m.length ≤ i := Nat.le_of_not_lt hi
    rw [List.set_eq_of_length_le hge] at hrow
    exact h row hrow

theorem badIndex_eq_false_iff (g : MatrixGraph) (a b : Int) :
    g.badIndex a b = false ↔ g.InRange a b := by
  unfold MatrixGraph.badIndex MatrixGraph.InRange
  simp only [Bool.or_eq_false_iff, decide_eq_false_iff_not]
  constructor
  · rintro ⟨⟨⟨h1, h2⟩, h3⟩, h4⟩
    omega
  · rintro ⟨h1, h2, h3, h4⟩
    omega

theorem badIndex_eq_true_iff (g : MatrixGraph) (a b : Int) :
    g.badIndex a b = true ↔ ¬ g.InRange a b := by
  rw [← badIndex_eq_false_iff]
  cases g.badIndex a b <;> simp

theorem MatrixGraph.InRange.toNat_lt {g : MatrixGraph} {a b : Int} (h : g.InRange a b) :
    a.toNat < g.vertexCount ∧ b.toNat < g.vertexCount := by
  unfold MatrixGraph.InRange at h
  omega

theorem store_vertexCount (g : MatrixGraph) (s t : Nat) (w : Float32) :
    (g.store s t w).vertexCount = g.vertexCount := rfl

theorem store_isDirected (g : MatrixGraph) (s t : Nat) (w : Float32) :
    (g.store s t w).isDirected = g.isDirected := rfl

theorem MatrixGraph.Sized.row_length {g : MatrixGraph} (hg : g.Sized) {i : Nat} (hi : i < g.vertexCount) :
    (g.adjacencyMatrix.getD i []).length = g.vertexCount := by
  have hlen : i < g.adjacencyMatrix.length := by rw [hg.1]; exact hi
  apply hg.2
  rw [List.getD_eq_getElem _ _ hlen]
  exact List.getElem_mem hlen

theorem store_sized {g : MatrixGraph} (hg : g.Sized) (s t : Nat) (w : Float32) :
    (g.store s t w).Sized := by
  unfold MatrixGraph.store MatrixGraph.Sized
  cases hd : g.isDirected
  · simp only [Bool.false_eq_true, if_false, writeCell_length]
    exact ⟨hg.1, writeCell_rows _ _ _ _ _ (writeCell_rows _ _ _ _ _ hg.2)⟩
  · simp only [if_true, writeCell_length]
    exact ⟨hg.1, writeCell_rows _ _ _ _ _ hg.2⟩

theorem store_cell {g : MatrixGraph} (hg : g.Sized) {s t : Nat} (hs : s < g.vertexCount)
    (ht : t < g.vertexCount) (w : Float32) (a b : Nat) :
    (g.store s t w).cell a b =
      if (a = s ∧ b = t) ∨ (g.isDirected = false ∧ a = t ∧ b = s) then w
      else g.cell a b := by
  have hs1 : s < g.adjacencyMatrix.length := by rw [hg.1]; exact hs
  have ht1 : t < g.adjacencyMatrix.length := by rw [hg.1]; exact ht
  have hs2 : t < (g.adjacencyMatrix.getD s []).length := by rw [hg.row_length hs]; exact ht
  have hm : (writeCell g.adjacencyMatrix s t w).length = g.adjacencyMatrix.length :=
    writeCell_length _ _ _ _
  have hrows := writeCell_rows g.adjacencyMatrix s t g.vertexCount w hg.2
  have ht2 : s < ((writeCell g.adjacencyMatrix s t w).getD t []).length := by
    have hlt : t < (writeCell g.adjacencyMatrix s t w).length := by rw [hm]; exact ht1
    have hmem : (writeCell g.adjacencyMatrix s t w).getD t [] ∈
        writeCell g.adjacencyMatrix s t w := by
      rw [List.getD_eq_getElem _ _ hlt]
      exact List.getElem_mem hlt
    rw [hrows _ hmem]
    exact hs
  unfold MatrixGraph.store MatrixGraph.cell
  cases hd : g.isDirected
  · simp only [Bool.false_eq_true, if_false, readCell_writeCell, hm, ht1, ht2, hs1, hs2,
      and_true, true_and]
    by_cases h1 : a = t ∧ b = s
    · simp [h1]
    · by_cases h2 : a = s ∧ b = t
      · simp [h2]
      · simp [h1, h2]
  · simp only [if_true, readCell_writeCell, hs1, hs2, and_true, Bool.true_eq_false,
      false_and, or_false]

theorem construct_sized (n : Nat) (d : Bool) : (MatrixGraph.construct n d).Sized := by
  unfold MatrixGraph.construct MatrixGraph.Sized
  simp only [List.length_replicate, true_and]
  intro row hrow
  rw [List.eq_of_mem_replicate hrow]
  simp

theorem getD_replicate_eq {α : Type} (n i : Nat) (x d : α) :
    (List.replicate n x).getD i d = if i < n then x else d := by
  by_cases hi : i < n
  · simp [List.getD_eq_getElem?_getD, List.getElem?_replicate, hi]
  · simp [List.getD_eq_getElem?_getD, List.getElem?_replicate, hi]

theorem construct_cell (n : Nat) (d : Bool) (i j : Nat) :
    (MatrixGraph.construct n d).cell i j = Float32.zero := by
  unfold MatrixGraph.construct MatrixGraph.cell readCell
  simp only [getD_replicate_eq]
  by_cases hi : i < n
  · by_cases hj : j < n
    · simp [hi, hj]
    · simp [hi, hj]
  · simp [hi]

theorem store_symmetric {g : MatrixGraph} (hg : g.Sized) (hsym : g.Symmetric)
    (hu : g.isDirected = false) {s t : Nat} (hs : s < g.vertexCount)
    (ht : t < g.vertexCount) (w : Float32) : (g.store s t w).Symmetric := by
  intro i hi j hj
  rw [store_cell hg hs ht, store_cell hg hs ht, hsym i hi j hj]
  by_cases h1 : i = s ∧ j = t
  · have h2 : j = t ∧ i = s := ⟨h1.2, h1.1⟩
    simp [h1, h2, hu]
  · by_cases h2 : i = t ∧ j = s
    · have h3 : j = s ∧ i = t := ⟨h2.2, h2.1⟩
      simp [h2, h3, hu]
    · have h3 : ¬ (j = t ∧ i = s) := fun h => h1 ⟨h.2, h.1⟩
      have h4 : ¬ (j = s ∧ i = t) := fun h => h2 ⟨h.2, h.1⟩
      simp [h1, h2, h3, h4]

theorem store_wellFormed {g : MatrixGraph} (hg : g.WellFormed) {s t : Nat}
    (hs : s < g.vertexCount) (ht : t < g.vertexCount) (w : Float32) :
    (g.store s t w).WellFormed :=
  ⟨store_sized hg.1 s t w, fun hu => store_symmetric hg.1 (hg.2 hu) hu hs ht w⟩

theorem construct_wellFormed (n : Nat) (d : Bool) : (MatrixGraph.construct n d).WellFormed :=
  ⟨construct_sized n d, fun _ i _ j _ => by rw [construct_cell, construct_cell]⟩

theorem addEdge_wellFormed {g : MatrixGraph} (hg : g.WellFormed) (u v : Int) (w : Float32) :
    (g.addEdge u v w).2.WellFormed := by
  unfold MatrixGraph.addEdge
  cases hb : g.badIndex u v
  · have hr := MatrixGraph.InRange.toNat_lt ((badIndex_eq_false_iff g u v).1 hb)
    simpa using store_wellFormed hg hr.1 hr.2 w
  · simpa using hg

theorem removeEdge_wellFormed {g : MatrixGraph} (hg : g.WellFormed) (u v : Int) :
    (g.removeEdge u v).2.WellFormed := by
  unfold MatrixGraph.removeEdge
  cases hb : g.badIndex u v
  · have hr := MatrixGraph.InRange.toNat_lt ((badIndex_eq_false_iff g u v).1 hb)
    simpa using store_wellFormed hg hr.1 hr.2 Float32.zero
  · simpa using hg

theorem setEdgeWeight_wellFormed {g : MatrixGraph} (hg : g.WellFormed) (u v : Int)
    (w : Float32) : (g.setEdgeWeight u v w).2.WellFormed := by
  unfold MatrixGraph.setEdgeWeight
  cases hb : g.badIndex u v
  · have hr := MatrixGraph.InRange.toNat_lt ((badIndex_eq_false_iff g u v).1 hb)
    by_cases hz : g.cell u.toNat v.toNat = Float32.zero
    · simpa [hz] using hg
    · simpa [hz] using store_wellFormed hg hr.1 hr.2 w
  · simpa using hg

theorem Reachable.wellFormed {g : MatrixGraph} (h : Reachable g) : g.WellFormed := by
  induction h with
  | construct n d => exact construct_wellFormed n d
  | addEdge u v w _ ih => exact addEdge_wellFormed ih u v w
  | removeEdge u v _ ih => exact removeEdge_wellFormed ih u v
  | setEdgeWeight u v w _ ih => exact setEdgeWeight_wellFormed ih u v w

/-! ## Lemmas on the breadth-first search -/

theorem count_false_set_true (l : List Bool) (i : Nat) (hi : i < l.length)
    (h : l.getD i false = false) : (l.set i true).count false + 1 = l.count false := by
  induction l generalizing i with
  | nil => simp at hi
  | cons a l ih =>
    cases i with
    | zero =>
      simp at h
      subst h
      simp
    | succ i =>
      have hi2 : i < l.length := by simpa using hi
      have h2 : l.getD i false = false := by simpa using h
      have := ih i hi2 h2
      cases a <;> simp [List.count_cons] <;> omega

theorem vis_lt_length {st : BFSState} {v : Nat} (h : st.vis v) : v < st.visited.length := by
  unfold BFSState.vis at h
  by_contra hlt
  rw [List.getD_eq_default _ _ (Nat.le_of_not_lt hlt)] at h
  exact absurd h (by decide)

theorem visitNeighbor_skip (g : MatrixGraph) (c : Nat) (st : BFSState) (i : Nat)
    (h : ¬ (g.cell c i ≠ Float32.zero ∧ ¬ st.vis i)) : visitNeighbor g c st i = st := by
  unfold visitNeighbor
  have : ¬ (g.cell c i ≠ Float32.zero ∧ st.visited.getD i false = false) := by
    intro hc
    apply h
    refine ⟨hc.1, ?_⟩
    unfold BFSState.vis
    rw [hc.2]
    decide
  rw [if_neg this]

theorem visitNeighbor_fire (g : MatrixGraph) (c : Nat) (st : BFSState) (i : Nat)
    (h : g.cell c i ≠ Float32.zero ∧ ¬ st.vis i) :
    visitNeighbor g c st i =
      { visited := st.visited.set i true
        prev := st.prev.set i (c : Int)
        queue := st.queue.enqueue i } := by
  unfold visitNeighbor
  have : g.cell c i ≠ Float32.zero ∧ st.visited.getD i false = false := by
    refine ⟨h.1, ?_⟩
    have h2 := h.2
    unfold BFSState.vis at h2
    cases hv : st.visited.getD i false
    · rfl
    · exact absurd hv h2
  rw [if_pos this]

theorem vis_set_iff (st : BFSState) (i : Nat) (p : List Int) (q : Queue Nat)
    (hi : i < st.visited.length) (v : Nat) :
    BFSState.vis { visited := st.visited.set i true, prev := p, queue := q } v ↔
      st.vis v ∨ v = i := by
  unfold BFSState.vis
  simp only [getD_set_eq, hi, and_true]
  by_cases h : v = i
  · simp [h]
  · simp [h]

theorem scan_facts (g : MatrixGraph) (c : Nat) (cols : List Nat) :
    ∀ st : BFSState, (∀ i ∈ cols, i < st.visited.length) →
      (∀ i ∈ cols, i < st.prev.length) → cols.Nodup →
      ScanFacts g c cols st (cols.foldl (visitNeighbor g c) st) := by
  induction cols with
  | nil =>
    intro st _ _ _
    exact ⟨rfl, rfl, fun v => by simp [discovered], fun v => by simp [discovered],
      by simp [discovered], rfl⟩
  | cons i cols ih =>
    intro st hv hp hnd
    have hi : i < st.visited.length := hv i (List.mem_cons_self _ _)
    have hip : i < st.prev.length := hp i (List.mem_cons_self _ _)
    have hnd2 : cols.Nodup := (List.nodup_cons.1 hnd).2
    have hni : i ∉ cols := (List.nodup_cons.1 hnd).1
    rw [List.foldl_cons]
    by_cases hfire : g.cell c i ≠ Float32.zero ∧ ¬ st.vis i
    · rw [visitNeighbor_fire g c st i hfire]
      set st1 : BFSState :=
        { visited := st.visited.set i true
          prev := st.prev.set i (c : Int)
          queue := st.queue.enqueue i } with hst1
      have h1 := ih st1
        (fun k hk => by rw [hst1]; simpa using hv k (List.mem_cons_of_mem _ hk))
        (fun k hk => by rw [hst1]; simpa using hp k (List.mem_cons_of_mem _ hk)) hnd2
      have hvis1 : ∀ v, st1.vis v ↔ st.vis v ∨ v = i := vis_set_iff st i _ _ hi
      have hdisc1 : discovered g c st1 cols = discovered g c st cols := by
        unfold discovered
        apply List.filter_congr
        intro v hvm
        have hne : v ≠ i := fun h => hni (h ▸ hvm)
        have : st1.vis v ↔ st.vis v := by rw [hvis1]; simp [hne]
        simp [this]
      have hdisc : discovered g c st (i :: cols) = i :: discovered g c st cols := by
        unfold discovered
        rw [List.filter_cons_of_pos]
        simpa using hfire
      refine ⟨?_, ?_, ?_, ?_, ?_, ?_⟩
      · rw [h1.vlen, hst1]; simp
      · rw [h1.plen, hst1]; simp
      · intro v
        rw [h1.vis_iff, hdisc1, hvis1, hdisc, List.mem_cons]
        tauto
      · intro v
        rw [h1.prv_eq, hdisc1, hdisc]
        have hprv1 : st1.prv v = if v = i then (c : Int) else st.prv v := by
          unfold BFSState.prv
          rw [hst1]
          simp only [getD_set_eq, hip, and_true]
        by_cases hm : v ∈ discovered g c st cols
        · simp [hm]
        · by_cases hvi : v = i
          · rw [hprv1]
            simp [hvi]
          · rw [hprv1]
            simp [hm, hvi]
      · rw [h1.queue_eq, hdisc1, hdisc, hst1]
        simp [Queue.enqueue]
      · rw [h1.measure, hst1]
        simp only [Queue.enqueue, BFSState.unvisitedCount, List.length_append,
          List.length_singleton]
        have hvf : st.visited.getD i false = false := by
          have h2 := hfire.2
          unfold BFSState.vis at h2
          cases hx : st.visited.getD i false
          · rfl
          · exact absurd hx h2
        have := count_false_set_true st.visited i hi hvf
        omega
    · rw [visitNeighbor_skip g c st i hfire]
      have h1 := ih st (fun k hk => hv k (List.mem_cons_of_mem _ hk))
        (fun k hk => hp k (List.mem_cons_of_mem _ hk)) hnd2
      have hdisc : discovered g c st (i :: cols) = discovered g c st cols := by
        unfold discovered
        rw [List.filter_cons_of_neg]
        simpa using hfire
      exact ⟨h1.vlen, h1.plen, fun v => by rw [hdisc]; exact h1.vis_iff v,
        fun v => by rw [hdisc]; exact h1.prv_eq v, by rw [hdisc]; exact h1.queue_eq,
        h1.measure⟩

theorem scanRow_facts (g : MatrixGraph) (c : Nat) (st : BFSState)
    (hv : st.visited.length = g.vertexCount) (hp : st.prev.length = g.vertexCount) :
    ScanFacts g c (List.range g.vertexCount) st (scanRow g c st) := by
  unfold scanRow
  apply scan_facts
  · intro i hi
    rw [hv]
    exact List.mem_range.1 hi
  · intro i hi
    rw [hp]
    exact List.mem_range.1 hi
  · exact List.nodup_range _

theorem mem_discovered_range (g : MatrixGraph) (c : Nat) (st : BFSState) (v : Nat) :
    v ∈ discovered g c st (List.range g.vertexCount) ↔
      v < g.vertexCount ∧ g.cell c v ≠ Float32.zero ∧ ¬ st.vis v := by
  unfold discovered
  simp [List.mem_filter]

theorem count_false_replicate (n : Nat) : (List.replicate n false).count false = n := by
  simp

theorem bfsInit_inv (g : MatrixGraph) (s : Nat) (hs : s < g.vertexCount) :
    BFSInv g s (bfsInit g s) (fun _ => 0) := by
  have hvis : ∀ v, (bfsInit g s).vis v ↔ v = s := by
    intro v
    unfold BFSState.vis bfsInit
    simp only [getD_set_eq, List.length_replicate, hs, and_true, getD_replicate_eq]
    by_cases h : v = s
    · simp [h]
    · simp [h]
  have hprv : ∀ v, (bfsInit g s).prv v = -1 := by
    intro v
    unfold BFSState.prv bfsInit
    simp only [getD_replicate_eq]
    split <;> rfl
  have hq : (bfsInit g s).queue.nodes = [s] := rfl
  refine ⟨by simp [bfsInit], by simp [bfsInit], (hvis s).2 rfl, rfl, hprv s, ?_, ?_, ?_, ?_, ?_,
    ?_, ?_, ?_⟩
  · intro v hv hne
    exact absurd ((hvis v).1 hv) hne
  · intro v _
    exact hprv v
  · intro v hv
    rw [hq] at hv
    rw [hvis]
    simpa using hv
  · rw [hq]; simp
  · rw [hq]; simp
  · intro v _ h _
    omega
  · intro x hx hnq
    rw [hq] at hnq
    exact absurd (by simpa using (hvis x).1 hx) hnq
  · intro v _
    have hc := count_false_set_true (List.replicate g.vertexCount false) s
      (by simpa using hs) (by simp [getD_replicate_eq])
    rw [count_false_replicate] at hc
    show 0 + ((List.replicate g.vertexCount false).set s true).count false < g.vertexCount
    omega

theorem bfsInv_step (g : MatrixGraph) (s c : Nat) (rest : List Nat) (sz : Nat)
    (st : BFSState) (d : Nat → Nat) (hinv : BFSInv g s st d)
    (hq : st.queue.nodes = c :: rest) :
    ∃ d', BFSInv g s (scanRow g c { st with queue := ⟨rest, sz⟩ }) d' ∧
      (scanRow g c { st with queue := ⟨rest, sz⟩ }).queue.nodes.length +
        (scanRow g c { st with queue := ⟨rest, sz⟩ }).unvisitedCount + 1 =
        st.queue.nodes.length + st.unvisitedCount := by
  set stp : BFSState := { st with queue := ⟨rest, sz⟩ } with hstp
  have F := scanRow_facts g c stp hinv.vlen hinv.plen
  set st2 := scanRow g c stp with hst2
  set news := discovered g c stp (List.range g.vertexCount) with hnewsdef
  have hnews : ∀ v, v ∈ news ↔ v < g.vertexCount ∧ g.cell c v ≠ Float32.zero ∧ ¬ st.vis v :=
    fun v => mem_discovered_range g c stp v
  have hvis2 : ∀ v, st2.vis v ↔ st.vis v ∨ v ∈ news := F.vis_iff
  have hprv2 : ∀ v, st2.prv v = if v ∈ news then (c : Int) else st.prv v := F.prv_eq
  have hq2 : st2.queue.nodes = rest ++ news := F.queue_eq
  have hlt : ∀ v, st.vis v → v < g.vertexCount := fun v hv => by
    have := vis_lt_length hv
    rw [hinv.vlen] at this
    exact this
  have hcq : c ∈ st.queue.nodes := by rw [hq]; exact List.mem_cons_self _ _
  have hcvis : st.vis c := hinv.queue_vis c hcq
  have hclt : c < g.vertexCount := hlt c hcvis
  have hold : ∀ v, st.vis v → v ∉ news := fun v hv hm => ((hnews v).1 hm).2.2 hv
  have hrestvis : ∀ v ∈ rest, st.vis v := fun v hv =>
    hinv.queue_vis v (by rw [hq]; exact List.mem_cons_of_mem _ hv)
  have hnearc : ∀ v, st.vis v → d v ≤ d c + 1 := fun v hv =>
    hinv.near v hv c (by rw [hq]; simp)
  have hsorted := hinv.queue_sorted
  rw [hq, List.pairwise_cons] at hsorted
  have hnd := hinv.queue_nodup
  rw [hq, List.nodup_cons] at hnd
  have hU : st2.unvisitedCount + news.length = st.unvisitedCount := by
    have hm := F.measure
    rw [hq2] at hm
    simp only [List.length_append] at hm
    have : stp.queue.nodes.length = rest.length := rfl
    have hu : stp.unvisitedCount = st.unvisitedCount := rfl
    rw [this, hu] at hm
    omega
  refine ⟨fun v => if v ∈ news then d c + 1 else d v, ?_, ?_⟩
  · have hdold : ∀ v, st.vis v → (if v ∈ news then d c + 1 else d v) = d v := fun v hv => by
      rw [if_neg (hold v hv)]
    have hdnew : ∀ v, v ∈ news → (if v ∈ news then d c + 1 else d v) = d c + 1 :=
      fun v hv => by rw [if_pos hv]
    refine ⟨F.vlen.trans hinv.vlen, F.plen.trans hinv.plen, (hvis2 s).2 (Or.inl hinv.start_vis),
      ?_, ?_, ?_, ?_, ?_, ?_, ?_, ?_, ?_, ?_⟩
    · show (if s ∈ news then d c + 1 else d s) = 0
      rw [hdold s hinv.start_vis]
      exact hinv.start_dist
    · rw [hprv2, if_neg (hold s hinv.start_vis)]
      exact hinv.start_prv
    · intro v hv hne
      show ∃ u : Nat, st2.prv v = (u : Int) ∧ st2.vis u ∧ g.Edge u v ∧
        (if v ∈ news then d c + 1 else d v) = (if u ∈ news then d c + 1 else d u) + 1
      by_cases hm : v ∈ news
      · refine ⟨c, ?_, (hvis2 c).2 (Or.inl hcvis), ⟨hclt, ((hnews v).1 hm).1,
          ((hnews v).1 hm).2.1⟩, ?_⟩
        · rw [hprv2, if_pos hm]
        · rw [hdnew v hm, hdold c hcvis]
      · have hvo : st.vis v := ((hvis2 v).1 hv).resolve_right hm
        obtain ⟨u, hu1, hu2, hu3, hu4⟩ := hinv.pred v hvo hne
        refine ⟨u, ?_, (hvis2 u).2 (Or.inl hu2), hu3, ?_⟩
        · rw [hprv2, if_neg hm]
          exact hu1
        · rw [hdold v hvo, hdold u hu2]
          exact hu4
    · intro v hv
      have h1 : ¬ st.vis v := fun h => hv ((hvis2 v).2 (Or.inl h))
      have h2 : v ∉ news := fun h => hv ((hvis2 v).2 (Or.inr h))
      rw [hprv2, if_neg h2]
      exact hinv.unvis_prv v h1
    · intro v hv
      rw [hq2, List.mem_append] at hv
      rcases hv with h | h
      · exact (hvis2 v).2 (Or.inl (hrestvis v h))
      · exact (hvis2 v).2 (Or.inr h)
    · rw [hq2]
      apply List.Nodup.append hnd.2
      · exact (List.nodup_range _).filter _
      · intro v hv1 hv2
        exact hold v (hrestvis v hv1) hv2
    · rw [hq2, List.pairwise_append]
      refine ⟨?_, ?_, ?_⟩
      · apply List.Pairwise.imp_of_mem _ hsorted.2
        intro a b ha hb hab
        show (if a ∈ news then d c + 1 else d a) ≤ (if b ∈ news then d c + 1 else d b)
        rw [hdold a (hrestvis a ha), hdold b (hrestvis b hb)]
        exact hab
      · apply List.Pairwise.imp_of_mem _ (List.pairwise_of_forall (fun _ _ => trivial))
        · intro a b ha hb _
          show (if a ∈ news then d c + 1 else d a) ≤ (if b ∈ news then d c + 1 else d b)
          rw [hdnew a ha, hdnew b hb]
      · intro a ha b hb
        show (if a ∈ news then d c + 1 else d a) ≤ (if b ∈ news then d c + 1 else d b)
        rw [hdold a (hrestvis a ha), hdnew b hb]
        exact hnearc a (hrestvis a ha)
    · intro v hv h hh
      show (if v ∈ news then d c + 1 else d v) ≤ (if h ∈ news then d c + 1 else d h) + 1
      have hv1 : (if v ∈ news then d c + 1 else d v) ≤ d c + 1 := by
        by_cases hm : v ∈ news
        · rw [if_pos hm]
        · rw [if_neg hm]
          exact hnearc v (((hvis2 v).1 hv).resolve_right hm)
      have hhm : h ∈ rest ++ news := by
        rw [← hq2]
        exact List.mem_of_mem_head? hh
      have hh1 : d c ≤ (if h ∈ news then d c + 1 else d h) := by
        rcases List.mem_append.1 hhm with hr | hn
        · rw [hdold h (hrestvis h hr)]
          exact hsorted.1 h hr
        · rw [hdnew h hn]
          omega
      omega
    · intro x hx hxq w hw
      show st2.vis w ∧ (if w ∈ news then d c + 1 else d w) ≤
        (if x ∈ news then d c + 1 else d x) + 1
      rw [hq2, List.mem_append] at hxq
      have hxn : x ∉ news := fun h => hxq (Or.inr h)
      have hxr : x ∉ rest := fun h => hxq (Or.inl h)
      have hxo : st.vis x := ((hvis2 x).1 hx).resolve_right hxn
      rw [hdold x hxo]
      by_cases hxc : x = c
      · subst hxc
        by_cases hwv : st.vis w
        · exact ⟨(hvis2 w).2 (Or.inl hwv), by rw [hdold w hwv]; exact hnearc w hwv⟩
        · have hwn : w ∈ news := (hnews w).2 ⟨hw.2.1, hw.2.2, hwv⟩
          exact ⟨(hvis2 w).2 (Or.inr hwn), by rw [hdnew w hwn]⟩
      · have hxq0 : x ∉ st.queue.nodes := by
          rw [hq, List.mem_cons]
          exact fun h => h.elim hxc hxr
        obtain ⟨h1, h2⟩ := hinv.closed x hxo hxq0 w hw
        exact ⟨(hvis2 w).2 (Or.inl h1), by rw [hdold w h1]; exact h2⟩
    · intro v hv
      show (if v ∈ news then d c + 1 else d v) + st2.unvisitedCount < g.vertexCount
      by_cases hm : v ∈ news
      · rw [hdnew v hm]
        have hpos : 0 < news.length := List.length_pos_of_mem hm
        have := hinv.bound c hcvis
        omega
      · rw [if_neg hm]
        have := hinv.bound v (((hvis2 v).1 hv).resolve_right hm)
        omega
  · rw [hq2, hq]
    simp only [List.length_append, List.length_cons]
    omega

theorem bfsLoop_exit (g : MatrixGraph) (s t : Nat) :
    ∀ (fuel : Nat) (st : BFSState) (d : Nat → Nat), BFSInv g s st d →
      st.queue.nodes.length + st.unvisitedCount < fuel →
      ∃ st0 d0 st', bfsLoop g t fuel st = some (Except.ok st') ∧ BFSInv g s st0 d0 ∧
        st'.visited = st0.visited ∧ st'.prev = st0.prev ∧
        (st0.queue.nodes = [] ∨ st0.queue.nodes.head? = some t) := by
  intro fuel
  induction fuel with
  | zero =>
    intro st d _ h
    omega
  | succ fuel ih =>
    intro st d hinv hm
    cases hq : st.queue.nodes with
    | nil =>
      refine ⟨st, d, st, ?_, hinv, rfl, rfl, Or.inl hq⟩
      simp [bfsLoop, Queue.isEmpty, hq]
    | cons c rest =>
      by_cases hc : c = t
      · refine ⟨st, d, { st with queue := ⟨rest, st.queue.currentSize - 1⟩ }, ?_, hinv, rfl,
          rfl, Or.inr (by rw [hq, hc]; rfl)⟩
        simp [bfsLoop, Queue.isEmpty, Queue.dequeue, hq, hc]
      · obtain ⟨d', hinv', hm'⟩ :=
          bfsInv_step g s c rest (st.queue.currentSize - 1) st d hinv hq
        obtain ⟨st0, d0, st', h1, h2, h3, h4, h5⟩ := ih _ d' hinv' (by omega)
        refine ⟨st0, d0, st', ?_, h2, h3, h4, h5⟩
        rw [← h1]
        simp [bfsLoop, Queue.isEmpty, Queue.dequeue, hq, hc]

theorem bfsLoop_mono (g : MatrixGraph) (t : Nat) :
    ∀ (fuel : Nat) (st : BFSState) (r : Except Exn BFSState),
      bfsLoop g t fuel st = some r → ∀ k, bfsLoop g t (fuel + k) st = some r := by
  intro fuel
  induction fuel with
  | zero =>
    intro st r h
    simp [bfsLoop] at h
  | succ fuel ih =>
    intro st r h k
    have hk : fuel + 1 + k = (fuel + k) + 1 := by omega
    rw [hk]
    unfold bfsLoop at h ⊢
    split
    · simpa [*] using h
    · rename_i hne
      simp only [hne] at h
      split
      · rename_i e he
        simpa [he] using h
      · rename_i c q hd
        simp only [hd] at h
        split
        · rename_i hc
          simpa [hc] using h
        · rename_i hc
          simp only [hc, if_false] at h
          exact ih _ _ h k

theorem walk_bound {g : MatrixGraph} {s : Nat} {st : BFSState} {d : Nat → Nat}
    (hinv : BFSInv g s st d) (D : Nat)
    (hD : ∀ x, st.vis x → x ∈ st.queue.nodes → D ≤ d x) :
    ∀ v k, g.Walk s v k → (st.vis v ∧ d v ≤ k) ∨ D ≤ k := by
  intro v k hw
  induction hw with
  | nil => exact Or.inl ⟨hinv.start_vis, by rw [hinv.start_dist]⟩
  | @snoc x w k _ he ih =>
    rcases ih with ⟨hx, hdx⟩ | hDk
    · by_cases hxq : x ∈ st.queue.nodes
      · right
        have := hD x hx hxq
        omega
      · left
        obtain ⟨h1, h2⟩ := hinv.closed x hx hxq w he
        exact ⟨h1, by omega⟩
    · right
      omega

theorem bfs_final {g : MatrixGraph} {s t : Nat} {st : BFSState} {d : Nat → Nat}
    (hinv : BFSInv g s st d)
    (hexit : st.queue.nodes = [] ∨ st.queue.nodes.head? = some t) :
    ∀ k, g.Walk s t k → st.vis t ∧ d t ≤ k := by
  intro k hw
  rcases hexit with he | hh
  · have := walk_bound hinv (k + 1) (fun x _ hx => by rw [he] at hx; simp at hx) t k hw
    rcases this with h | h
    · exact h
    · omega
  · have htq : t ∈ st.queue.nodes := List.mem_of_mem_head? hh
    have htv : st.vis t := hinv.queue_vis t htq
    have hD : ∀ x, st.vis x → x ∈ st.queue.nodes → d t ≤ d x := by
      intro x _ hx
      cases hq : st.queue.nodes with
      | nil => rw [hq] at hx; simp at hx
      | cons c rest =>
        rw [hq] at hh hx
        simp only [List.head?_cons, Option.some.injEq] at hh
        subst hh
        have hs := hinv.queue_sorted
        rw [hq, List.pairwise_cons] at hs
        rcases List.mem_cons.1 hx with h | h
        · rw [h]
        · exact hs.1 x h
    rcases walk_bound hinv (d t) hD t k hw with h | h
    · exact h
    · exact ⟨htv, h⟩

theorem walk_of_vis {g : MatrixGraph} {s : Nat} {st : BFSState} {d : Nat → Nat}
    (hinv : BFSInv g s st d) : ∀ k v, st.vis v → d v = k → g.Walk s v k := by
  intro k
  induction k with
  | zero =>
    intro v hv hd
    by_cases hvs : v = s
    · rw [hvs]
      exact MatrixGraph.Walk.nil
    · obtain ⟨u, _, _, _, h4⟩ := hinv.pred v hv hvs
      omega
  | succ k ih =>
    intro v hv hd
    have hvs : v ≠ s := by
      intro h
      rw [h, hinv.start_dist] at hd
      omega
    obtain ⟨u, _, h2, h3, h4⟩ := hinv.pred v hv hvs
    exact MatrixGraph.Walk.snoc (ih u h2 (by omega)) h3

theorem walkBack_done (prev : List Int) (fuel : Nat) (acc : List Int) :
    walkBack prev (fuel + 1) (-1) acc = some acc := by
  simp [walkBack]

theorem walkBack_push (prev : List Int) (fuel : Nat) (v : Nat) (acc : List Int) :
    walkBack prev (fuel + 1) (v : Int) acc =
      walkBack prev fuel (prev.getD v (-1)) (acc ++ [(v : Int)]) := by
  have hne : (v : Int) ≠ -1 := by omega
  simp [walkBack, hne]

theorem walkBack_visited {g : MatrixGraph} {s : Nat} {st : BFSState} {d : Nat → Nat}
    (hinv : BFSInv g s st d) :
    ∀ k v, st.vis v → d v = k → ∀ fuel acc, k + 2 ≤ fuel →
      ∃ p : List Nat, walkBack st.prev fuel (v : Int) acc =
          some (acc ++ (p.map Int.ofNat).reverse) ∧
        g.IsPath s v p ∧ p.length = k + 1 := by
  have hlt : ∀ v, st.vis v → v < g.vertexCount := fun v hv => by
    have := vis_lt_length hv
    rw [hinv.vlen] at this
    exact this
  intro k
  induction k with
  | zero =>
    intro v hv hd fuel acc hf
    have hvs : v = s := by
      by_contra hvs
      obtain ⟨u, _, _, _, h4⟩ := hinv.pred v hv hvs
      omega
    subst hvs
    obtain ⟨f, rfl⟩ : ∃ f, fuel = f + 2 := ⟨fuel - 2, by omega⟩
    refine ⟨[v], ?_, ⟨rfl, rfl, List.chain'_singleton _, ?_⟩, rfl⟩
    · rw [walkBack_push]
      have : st.prev.getD v (-1) = -1 := hinv.start_prv
      rw [this, walkBack_done]
      simp
    · intro x hx
      rw [List.mem_singleton] at hx
      rw [hx]
      exact hlt v hv
  | succ k ih =>
    intro v hv hd fuel acc hf
    have hvs : v ≠ s := by
      intro h
      rw [h, hinv.start_dist] at hd
      omega
    obtain ⟨u, h1, h2, h3, h4⟩ := hinv.pred v hv hvs
    obtain ⟨f, rfl⟩ : ∃ f, fuel = f + 1 := ⟨fuel - 1, by omega⟩
    obtain ⟨pu, hw, hpath, hlen⟩ := ih u h2 (by omega) f (acc ++ [(v : Int)]) (by omega)
    refine ⟨pu ++ [v], ?_, ?_, by simp [hlen]⟩
    · rw [walkBack_push]
      have : st.prev.getD v (-1) = (u : Int) := h1
      rw [this, hw]
      simp
    · obtain ⟨p1, p2, p3, p4⟩ := hpath
      have hne : pu ≠ [] := by
        intro h
        rw [h] at hlen
        simp at hlen
      refine ⟨?_, by simp, ?_, ?_⟩
      · cases pu with
        | nil => exact absurd rfl hne
        | cons a l => simpa using p1
      · rw [List.chain'_append]
        refine ⟨p3, List.chain'_singleton _, ?_⟩
        intro x hx y hy
        rw [p2] at hx
        simp only [Option.mem_def, Option.some.injEq] at hx
        simp only [List.head?_cons, Option.mem_def, Option.some.injEq] at hy
        rw [← hx, ← hy]
        exact h3
      · intro x hx
        rcases List.mem_append.1 hx with h | h
        · exact p4 x h
        · rw [List.mem_singleton] at h
          rw [h]
          exact hlt v hv

theorem walkBack_mono (prev : List Int) :
    ∀ (fuel : Nat) (v : Int) (acc r : List Int),
      walkBack prev fuel v acc = some r → ∀ k, walkBack prev (fuel + k) v acc = some r := by
  intro fuel
  induction fuel with
  | zero =>
    intro v acc r h
    simp [walkBack] at h
  | succ fuel ih =>
    intro v acc r h k
    have hk : fuel + 1 + k = (fuel + k) + 1 := by omega
    rw [hk]
    unfold walkBack at h ⊢
    by_cases hv : v = -1
    · simpa [hv] using h
    · simp only [hv, if_false] at h ⊢
      exact ih _ _ _ h k

theorem getBFSPathWithin_spec (g : MatrixGraph) (start goal : Int)
    (hr : g.InRange start goal) (fuel : Nat) (hf : g.vertexCount + 1 ≤ fuel) :
    (∃ p : List Nat,
        g.getBFSPathWithin fuel start goal = some (Except.ok (p.map Int.ofNat)) ∧
        g.IsPath start.toNat goal.toNat p ∧
        ∀ k, g.Walk start.toNat goal.toNat k → p.length ≤ k + 1) ∨
    (g.getBFSPathWithin fuel start goal = some (Except.ok []) ∧
        ∀ k, ¬ g.Walk start.toNat goal.toNat k) := by
  have hbad : g.badIndex start goal = false := (badIndex_eq_false_iff g start goal).2 hr
  obtain ⟨hs, ht⟩ := MatrixGraph.InRange.toNat_lt hr
  have hsc : ((start.toNat : Nat) : Int) = start := Int.toNat_of_nonneg hr.1
  have htc : ((goal.toNat : Nat) : Int) = goal := Int.toNat_of_nonneg hr.2.2.1
  have hinit := bfsInit_inv g start.toNat hs
  have hmeasure : (bfsInit g start.toNat).queue.nodes.length +
      (bfsInit g start.toNat).unvisitedCount < fuel := by
    have h1 := hinit.bound start.toNat hinit.start_vis
    have h2 : (bfsInit g start.toNat).queue.nodes.length = 1 := rfl
    omega
  obtain ⟨st0, d0, st', hloop, hinv, _, hprev, hexit⟩ :=
    bfsLoop_exit g start.toNat goal.toNat fuel _ _ hinit hmeasure
  have hfinal := bfs_final hinv hexit
  by_cases hv : st0.vis goal.toNat
  · left
    have hb := hinv.bound goal.toNat hv
    obtain ⟨p, hw, hpath, hlen⟩ :=
      walkBack_visited hinv (d0 goal.toNat) goal.toNat hv rfl fuel [] (by omega)
    rw [htc] at hw
    refine ⟨p, ?_, hpath, ?_⟩
    · unfold MatrixGraph.getBFSPathWithin
      rw [hbad]
      simp only [Bool.false_eq_true, if_false, hloop, hprev, hw, List.nil_append,
        List.reverse_reverse]
      have hhead : (p.map Int.ofNat).head? = some start := by
        rw [List.head?_map, hpath.1]
        simp [hsc]
      have hne : (p.map Int.ofNat).isEmpty = false := by
        cases p with
        | nil => simp at hlen
        | cons a l => rfl
      simp [hhead, hne]
    · intro k hk
      have := (hfinal k hk).2
      omega
  · right
    have hts : goal ≠ start := by
      intro h
      apply hv
      rw [h]
      exact hinv.start_vis
    refine ⟨?_, fun k hk => hv (hfinal k hk).1⟩
    obtain ⟨f, rfl⟩ : ∃ f, fuel = f + 2 := ⟨fuel - 2, by omega⟩
    have hw : walkBack st0.prev (f + 2) goal [] = some [goal] := by
      rw [← htc, walkBack_push]
      have : st0.prev.getD goal.toNat (-1) = -1 := hinv.unvis_prv goal.toNat hv
      rw [this, walkBack_done]
      rfl
    unfold MatrixGraph.getBFSPathWithin
    rw [hbad]
    simp only [Bool.false_eq_true, if_false, hloop, hprev, hw]
    simp [hts]

theorem getBFSPathWithin_stable (g : MatrixGraph) (start goal : Int) (fuel : Nat)
    (hf : g.vertexCount + 1 ≤ fuel) :
    g.getBFSPathWithin fuel start goal = g.getBFSPath start goal := by
  unfold MatrixGraph.getBFSPath
  by_cases hr : g.InRange start goal
  · obtain ⟨k, rfl⟩ : ∃ k, fuel = g.vertexCount + 1 + k := ⟨fuel - (g.vertexCount + 1), by omega⟩
    have hbad : g.badIndex start goal = false := (badIndex_eq_false_iff g start goal).2 hr
    obtain ⟨hs, _⟩ := MatrixGraph.InRange.toNat_lt hr
    have hinit := bfsInit_inv g start.toNat hs
    have hmeasure : (bfsInit g start.toNat).queue.nodes.length +
        (bfsInit g start.toNat).unvisitedCount < g.vertexCount + 1 := by
      have h1 := hinit.bound start.toNat hinit.start_vis
      have h2 : (bfsInit g start.toNat).queue.nodes.length = 1 := rfl
      omega
    obtain ⟨st0, d0, st', hloop, hinv, _, hprev, hexit⟩ :=
      bfsLoop_exit g start.toNat goal.toNat (g.vertexCount + 1) _ _ hinit hmeasure
    have hloop2 := bfsLoop_mono g goal.toNat _ _ _ hloop k
    have hwalk : ∃ r, walkBack st'.prev (g.vertexCount + 1) goal [] = some r := by
      rcases getBFSPathWithin_spec g start goal hr (g.vertexCount + 1) (le_refl _) with
        ⟨p, h, _⟩ | ⟨h, _⟩
      all_goals
        unfold MatrixGraph.getBFSPathWithin at h
        rw [hbad] at h
        simp only [Bool.false_eq_true, if_false, hloop] at h
        cases hwb : walkBack st'.prev (g.vertexCount + 1) goal [] with
        | none => rw [hwb] at h; simp at h
        | some r => exact ⟨r, rfl⟩
    obtain ⟨r, hr1⟩ := hwalk
    have hr2 := walkBack_mono st'.prev _ _ _ _ hr1 k
    unfold MatrixGraph.getBFSPathWithin
    rw [hbad]
    simp only [Bool.false_eq_true, if_false, hloop, hloop2, hr1, hr2]
  · have hbad : g.badIndex start goal = true := (badIndex_eq_true_iff g start goal).2 hr
    unfold MatrixGraph.getBFSPathWithin
    rw [hbad]
    simp

theorem adj_iff (g : MatrixGraph) (a b : Int) :
    g.Adj a b ↔ g.InRange a b ∧ g.cell a.toNat b.toNat ≠ Float32.zero := by
  unfold MatrixGraph.Adj MatrixGraph.adjacent
  cases hb : g.badIndex a b
  · have hr := (badIndex_eq_false_iff g a b).1 hb
    simp [hr]
  · have hr := (badIndex_eq_true_iff g a b).1 hb
    simp [hr]

theorem adj_of_edge {g : MatrixGraph} {x w : Nat} (h : g.Edge x w) :
    g.Adj (x : Int) (w : Int) := by
  rw [adj_iff]
  obtain ⟨h1, h2, h3⟩ := h
  refine ⟨⟨by omega, by omega, by omega, by omega⟩, ?_⟩
  simpa using h3

theorem edge_of_adj {g : MatrixGraph} {a b : Int} (h : g.Adj a b) :
    g.Edge a.toNat b.toNat := by
  rw [adj_iff] at h
  obtain ⟨h1, h2⟩ := MatrixGraph.InRange.toNat_lt h.1
  exact ⟨h1, h2, h.2⟩

theorem walk_of_reaches {g : MatrixGraph} {a b : Int} (h : g.Reaches a b) :
    ∃ k, g.Walk a.toNat b.toNat k := by
  induction h with
  | refl => exact ⟨0, MatrixGraph.Walk.nil⟩
  | tail _ hadj ih =>
    obtain ⟨k, hk⟩ := ih
    exact ⟨k + 1, MatrixGraph.Walk.snoc hk (edge_of_adj hadj)⟩

theorem reaches_of_walk {g : MatrixGraph} {s t k : Nat} (h : g.Walk s t k) :
    g.Reaches (s : Int) (t : Int) := by
  induction h with
  | nil => exact Relation.ReflTransGen.refl
  | snoc _ he ih => exact Relation.ReflTransGen.tail ih (adj_of_edge he)

theorem walk_cons {g : MatrixGraph} {s x t k : Nat} (he : g.Edge s x) (h : g.Walk x t k) :
    g.Walk s t (k + 1) := by
  induction h with
  | nil => exact MatrixGraph.Walk.snoc MatrixGraph.Walk.nil he
  | snoc _ he2 ih => exact MatrixGraph.Walk.snoc ih he2

theorem walk_of_chain (g : MatrixGraph) (t : Int) :
    ∀ (q : List Int) (s : Int), q.head? = some s → q.getLast? = some t →
      List.Chain' g.Adj q → g.Walk s.toNat t.toNat (q.length - 1) := by
  intro q
  induction q with
  | nil =>
    intro s h
    simp at h
  | cons a q ih =>
    intro s hh hl hc
    simp only [List.head?_cons, Option.some.injEq] at hh
    subst hh
    cases q with
    | nil =>
      simp only [List.getLast?_singleton, Option.some.injEq] at hl
      subst hl
      exact MatrixGraph.Walk.nil
    | cons b q =>
      rw [List.chain'_cons] at hc
      have hl2 : (b :: q).getLast? = some t := by
        rw [List.getLast?_cons_cons] at hl
        exact hl
      have := ih b rfl hl2 hc.2
      exact walk_cons (edge_of_adj hc.1) this

theorem walk_of_isPath {g : MatrixGraph} {s t : Nat} {p : List Nat} (h : g.IsPath s t p) :
    g.Walk s t (p.length - 1) := by
  obtain ⟨h1, h2, h3, _⟩ := h
  have hc : List.Chain' g.Adj (p.map Int.ofNat) := by
    rw [List.chain'_map]
    exact List.Chain'.imp (fun _ _ he => adj_of_edge he) h3
  have := walk_of_chain g (t : Int) (p.map Int.ofNat) (s : Int)
    (by rw [List.head?_map, h1]; rfl) (by rw [List.getLast?_map, h2]; rfl) hc
  simpa using this

theorem getBFSPath_spec (g : MatrixGraph) (start goal : Int) (hr : g.InRange start goal) :
    ∃ path, g.getBFSPath start goal = some (Except.ok path) ∧
      ((g.Reaches start goal ∧ path.head? = some start ∧ path.getLast? = some goal ∧
          (∀ v ∈ path, 0 ≤ v ∧ v < (g.vertexCount : Int)) ∧ List.Chain' g.Adj path ∧
          ∀ q : List Int, q.head? = some start → q.getLast? = some goal →
            List.Chain' g.Adj q → path.length ≤ q.length) ∨
        (¬ g.Reaches start goal ∧ path = [])) := by
  have hsc : ((start.toNat : Nat) : Int) = start := Int.toNat_of_nonneg hr.1
  have htc : ((goal.toNat : Nat) : Int) = goal := Int.toNat_of_nonneg hr.2.2.1
  unfold MatrixGraph.getBFSPath
  rcases getBFSPathWithin_spec g start goal hr (g.vertexCount + 1) (le_refl _) with
    ⟨p, h1, h2, h3⟩ | ⟨h1, h2⟩
  · refine ⟨p.map Int.ofNat, h1, Or.inl ⟨?_, ?_, ?_, ?_, ?_, ?_⟩⟩
    · have := reaches_of_walk (walk_of_isPath h2)
      rw [hsc, htc] at this
      exact this
    · rw [List.head?_map, h2.1]
      simp [hsc]
    · rw [List.getLast?_map, h2.2.1]
      simp [htc]
    · intro v hv
      obtain ⟨x, hx, rfl⟩ := List.mem_map.1 hv
      have := h2.2.2.2 x hx
      constructor
      · exact Int.ofNat_nonneg x
      · exact Int.ofNat_lt.2 this
    · rw [List.chain'_map]
      exact List.Chain'.imp (fun _ _ he => adj_of_edge he) h2.2.2.1
    · intro q hq1 hq2 hq3
      have hw := walk_of_chain g goal q start hq1 hq2 hq3
      have := h3 _ hw
      have hqpos : 0 < q.length := by
        cases q with
        | nil => simp at hq1
        | cons a l => simp
      rw [List.length_map]
      omega
  · refine ⟨[], h1, Or.inr ⟨?_, rfl⟩⟩
    intro hreach
    obtain ⟨k, hk⟩ := walk_of_reaches hreach
    exact h2 k hk

/-! ## Properties of the specification -/

/-- C1: for valid `start` and `goal`, `getBFSPath` returns a sequence that is non-empty
exactly when `goal` is reachable from `start` along edges in their stored direction
(and empty otherwise); `pathExists` returns true exactly in that case; and in a graph
without edges the path between two different vertices is empty. -/
theorem getBFSPath_nonempty_iff_reaches (g : MatrixGraph) (start goal : Int)
    (hr : g.InRange start goal) :
    ∃ path, g.getBFSPath start goal = some (Except.ok path) ∧
      (path ≠ [] ↔ g.Reaches start goal) ∧
      (¬ g.Reaches start goal → path = []) ∧
      (∃ b, g.pathExists start goal = some (Except.ok b) ∧
        (b = true ↔ g.Reaches start goal)) ∧
      ((∀ a b : Int, g.adjacent a b ≠ Except.ok true) → start ≠ goal → path = []) := by
  obtain ⟨path, h1, h2⟩ := getBFSPath_spec g start goal hr
  have hiff : path ≠ [] ↔ g.Reaches start goal := by
    rcases h2 with ⟨hreach, hhead, _⟩ | ⟨hn, hp⟩
    · constructor
      · intro _
        exact hreach
      · intro _ hnil
        rw [hnil] at hhead
        simp at hhead
    · constructor
      · intro h
        exact absurd hp h
      · intro h
        exact absurd h hn
  have hempty : ¬ g.Reaches start goal → path = [] := by
    intro hn
    by_contra hne
    exact hn (hiff.1 hne)
  refine ⟨path, h1, hiff, hempty, ?_, ?_⟩
  · refine ⟨!path.isEmpty, ?_, ?_⟩
    · unfold MatrixGraph.pathExists
      rw [h1]
    · rw [← hiff]
      cases path <;> simp
  · intro hno hne
    apply hempty
    intro hreach
    rcases Relation.ReflTransGen.cases_head hreach with h | ⟨c, hc, _⟩
    · exact hne h
    · exact hno start c hc

/-- C1 (instance): on the directed chain `0 → 1 → 2 → 3`, from vertex 0 to vertex 3. -/
theorem getBFSPath_nonempty_iff_reaches_witness :
    chain4.InRange 0 3 ∧
    ∃ path, chain4.getBFSPath 0 3 = some (Except.ok path) ∧
      (path ≠ [] ↔ chain4.Reaches 0 3) ∧
      (¬ chain4.Reaches 0 3 → path = []) ∧
      (∃ b, chain4.pathExists 0 3 = some (Except.ok b) ∧ (b = true ↔ chain4.Reaches 0 3)) ∧
      ((∀ a b : Int, chain4.adjacent a b ≠ Except.ok true) → (0 : Int) ≠ 3 → path = []) :=
  ⟨by decide, getBFSPath_nonempty_iff_reaches chain4 0 3 (by decide)⟩

theorem getEdgeWeight_of_adj {g : MatrixGraph} {a b : Int} (h : g.Adj a b) :
    g.getEdgeWeight a b = Except.ok (g.cell a.toNat b.toNat) := by
  rw [adj_iff] at h
  unfold MatrixGraph.getEdgeWeight
  rw [(badIndex_eq_false_iff g a b).2 h.1]
  simp [h.2]

theorem pathWeightLoop_ok (add : Float32 → Float32 → Float32) (g : MatrixGraph) :
    ∀ (path : List Int) (weight : Float32), List.Chain' g.Adj path →
      ∃ w, pathWeightLoop add g path weight = Except.ok w := by
  intro path
  induction path with
  | nil =>
    intro weight _
    exact ⟨weight, by simp [pathWeightLoop]⟩
  | cons a path ih =>
    intro weight hc
    cases path with
    | nil => exact ⟨weight, by simp [pathWeightLoop]⟩
    | cons b rest =>
      rw [List.chain'_cons] at hc
      obtain ⟨w, hw⟩ := ih (add weight (g.cell a.toNat b.toNat)) hc.2
      refine ⟨w, ?_⟩
      rw [pathWeightLoop, getEdgeWeight_of_adj hc.1]
      exact hw

theorem cumulativeLoop_ok (add : Float32 → Float32 → Float32) (g : MatrixGraph) :
    ∀ (path : List Int) (weight : Float32), List.Chain' g.Adj path →
      ∃ sums, cumulativeLoop add g path weight = Except.ok sums := by
  intro path
  induction path with
  | nil =>
    intro weight _
    exact ⟨[], by simp [cumulativeLoop]⟩
  | cons a path ih =>
    intro weight hc
    cases path with
    | nil => exact ⟨[], by simp [cumulativeLoop]⟩
    | cons b rest =>
      rw [List.chain'_cons] at hc
      obtain ⟨sums, hs⟩ := ih (add weight (g.cell a.toNat b.toNat)) hc.2
      refine ⟨add weight (g.cell a.toNat b.toNat) :: sums, ?_⟩
      rw [cumulativeLoop, getEdgeWeight_of_adj hc.1]
      simp only [hs]

/-- C2: for valid `start` and `goal`, a non-empty result of `getBFSPath` begins with
`start`, ends with `goal`, has all its elements in `[0, vertexCount)` and every
consecutive pair adjacent; `getEdgeWeight` returns on each hop, and
`calculatePathWeight` and the cumulative-weight loop of the driver return without
throwing on the result, whatever the float addition is. -/
theorem getBFSPath_is_path (g : MatrixGraph) (start goal : Int) (hr : g.InRange start goal)
    (add : Float32 → Float32 → Float32) :
    ∃ path, g.getBFSPath start goal = some (Except.ok path) ∧
      (path ≠ [] →
        path.head? = some start ∧ path.getLast? = some goal ∧
        (∀ v ∈ path, 0 ≤ v ∧ v < (g.vertexCount : Int)) ∧
        List.Chain' (fun a b => g.adjacent a b = Except.ok true) path) ∧
      List.Chain' (fun a b => ∃ w, g.getEdgeWeight a b = Except.ok w) path ∧
      (∃ w, calculatePathWeight add g path = Except.ok w) ∧
      (∃ sums, cumulativeWeights add g path = Except.ok sums) := by
  obtain ⟨path, h1, h2⟩ := getBFSPath_spec g start goal hr
  have hchain : List.Chain' g.Adj path := by
    rcases h2 with ⟨_, _, _, _, hc, _⟩ | ⟨_, hp⟩
    · exact hc
    · rw [hp]
      exact List.chain'_nil
  refine ⟨path, h1, ?_, ?_, pathWeightLoop_ok add g path _ hchain,
    cumulativeLoop_ok add g path _ hchain⟩
  · intro hne
    rcases h2 with ⟨_, hh, hl, hv, hc, _⟩ | ⟨_, hp⟩
    · exact ⟨hh, hl, hv, hc⟩
    · exact absurd hp hne
  · exact List.Chain'.imp (fun _ _ h => ⟨_, getEdgeWeight_of_adj h⟩) hchain

/-- C2 (instance): the path from 0 to 3 on the directed chain `0 → 1 → 2 → 3`. -/
theorem getBFSPath_is_path_witness :
    chain4.InRange 0 3 ∧
    ∃ path, chain4.getBFSPath 0 3 = some (Except.ok path) ∧
      (path ≠ [] →
        path.head? = some 0 ∧ path.getLast? = some 3 ∧
        (∀ v ∈ path, 0 ≤ v ∧ v < (chain4.vertexCount : Int)) ∧
        List.Chain' (fun a b => chain4.adjacent a b = Except.ok true) path) ∧
      List.Chain' (fun a b => ∃ w, chain4.getEdgeWeight a b = Except.ok w) path ∧
      (∃ w, calculatePathWeight (fun x _ => x) chain4 path = Except.ok w) ∧
      (∃ sums, cumulativeWeights (fun x _ => x) chain4 path = Except.ok sums) :=
  ⟨by decide, getBFSPath_is_path chain4 0 3 (by decide) (fun x _ => x)⟩

/-- C3: for valid `start` and `goal` with `goal` reachable from `start`, the sequence
returned by `getBFSPath` is a sequence from `start` to `goal` with consecutive vertices
adjacent, and no such sequence has fewer edges. -/
theorem getBFSPath_fewest_hops (g : MatrixGraph) (start goal : Int)
    (hr : g.InRange start goal) (hreach : g.Reaches start goal) :
    ∃ path, g.getBFSPath start goal = some (Except.ok path) ∧
      path.head? = some start ∧ path.getLast? = some goal ∧
      List.Chain' (fun a b => g.adjacent a b = Except.ok true) path ∧
      ∀ q : List Int, q.head? = some start → q.getLast? = some goal →
        List.Chain' (fun a b => g.adjacent a b = Except.ok true) q →
        path.length - 1 ≤ q.length - 1 := by
  obtain ⟨path, h1, h2⟩ := getBFSPath_spec g start goal hr
  rcases h2 with ⟨_, hh, hl, _, hc, hmin⟩ | ⟨hn, _⟩
  · refine ⟨path, h1, hh, hl, hc, ?_⟩
    intro q hq1 hq2 hq3
    have := hmin q hq1 hq2 hq3
    omega
  · exact absurd hreach hn

/-- C3 (instance): from 0 to 3 on the directed chain `0 → 1 → 2 → 3`. -/
theorem getBFSPath_fewest_hops_witness :
    chain4.InRange 0 3 ∧ chain4.Reaches 0 3 ∧
    ∃ path, chain4.getBFSPath 0 3 = some (Except.ok path) ∧
      path.head? = some 0 ∧ path.getLast? = some 3 ∧
      List.Chain' (fun a b => chain4.adjacent a b = Except.ok true) path ∧
      ∀ q : List Int, q.head? = some 0 → q.getLast? = some 3 →
        List.Chain' (fun a b => chain4.adjacent a b = Except.ok true) q →
        path.length - 1 ≤ q.length - 1 :=
  have hreach : chain4.Reaches 0 3 :=
    Relation.ReflTransGen.tail
      (Relation.ReflTransGen.tail
        (Relation.ReflTransGen.tail Relation.ReflTransGen.refl
          (show chain4.Adj 0 1 by decide))
        (show chain4.Adj 1 2 by decide))
      (show chain4.Adj 2 3 by decide)
  ⟨by decide, hreach, getBFSPath_fewest_hops chain4 0 3 (by decide) hreach⟩

theorem badIndex_store (g : MatrixGraph) (s t : Nat) (w : Float32) (a b : Int) :
    (g.store s t w).badIndex a b = g.badIndex a b := rfl

theorem writeCell_zero_of_readCell (m : List (List Float32)) (i j : Nat)
    (h : readCell m i j = Float32.zero) : writeCell m i j Float32.zero = m := by
  unfold writeCell
  unfold readCell at h
  rw [set_self_of_getD _ _ _ h]
  exact set_getD_self m i []

theorem store_zero_of_absent {g : MatrixGraph} (s t : Nat)
    (h1 : g.cell s t = Float32.zero) (h2 : g.isDirected = false → g.cell t s = Float32.zero) :
    g.store s t Float32.zero = g := by
  obtain ⟨m, n, d⟩ := g
  have hw : writeCell m s t Float32.zero = m := writeCell_zero_of_readCell _ _ _ h1
  unfold MatrixGraph.store
  cases d
  · have hw2 : writeCell m t s Float32.zero = m := writeCell_zero_of_readCell _ _ _ (h2 rfl)
    simp [hw, hw2]
  · simp [hw]

theorem addEdge_ok {g : MatrixGraph} {u v : Int} (hr : g.InRange u v) (w : Float32) :
    g.addEdge u v w = (Except.ok (), g.store u.toNat v.toNat w) := by
  unfold MatrixGraph.addEdge
  rw [(badIndex_eq_false_iff g u v).2 hr]
  rfl

theorem removeEdge_ok {g : MatrixGraph} {u v : Int} (hr : g.InRange u v) :
    g.removeEdge u v = (Except.ok (), g.store u.toNat v.toNat Float32.zero) := by
  unfold MatrixGraph.removeEdge
  rw [(badIndex_eq_false_iff g u v).2 hr]
  rfl

theorem adjacent_ok {g : MatrixGraph} {u v : Int} (hr : g.InRange u v) :
    g.adjacent u v = Except.ok (decide (g.cell u.toNat v.toNat ≠ Float32.zero)) := by
  unfold MatrixGraph.adjacent
  rw [(badIndex_eq_false_iff g u v).2 hr]
  rfl

theorem getEdgeWeight_ok {g : MatrixGraph} {u v : Int} (hr : g.InRange u v) :
    g.getEdgeWeight u v =
      if g.cell u.toNat v.toNat = Float32.zero then Except.error Exn.edgeDoesNotExist
      else Except.ok (g.cell u.toNat v.toNat) := by
  unfold MatrixGraph.getEdgeWeight
  rw [(badIndex_eq_false_iff g u v).2 hr]
  rfl

theorem inRange_store {g : MatrixGraph} {a b : Int} (h : g.InRange a b) (s t : Nat)
    (w : Float32) : (g.store s t w).InRange a b := h

theorem inRange_swap {g : MatrixGraph} {a b : Int} (h : g.InRange a b) : g.InRange b a :=
  ⟨h.2.2.1, h.2.2.2, h.1, h.2.1⟩

/-- C4: on any reachable graph state and for valid `(u, v)`, `addEdge(u, v, w)` returns,
and afterwards, when `w` is not zero, `adjacent(u, v)` is true and `getEdgeWeight(u, v)`
returns `w`; when `w` is zero, `adjacent(u, v)` is false. -/
theorem addEdge_then_query (g : MatrixGraph) (hg : Reachable g) (u v : Int) (w : Float32)
    (hr : g.InRange u v) :
    (g.addEdge u v w).1 = Except.ok () ∧
    (w ≠ Float32.zero →
      (g.addEdge u v w).2.adjacent u v = Except.ok true ∧
      (g.addEdge u v w).2.getEdgeWeight u v = Except.ok w) ∧
    (w = Float32.zero → (g.addEdge u v w).2.adjacent u v = Except.ok false) := by
  obtain ⟨hu, hv⟩ := MatrixGraph.InRange.toNat_lt hr
  have hcell : (g.store u.toNat v.toNat w).cell u.toNat v.toNat = w := by
    rw [store_cell hg.wellFormed.1 hu hv]
    simp
  rw [addEdge_ok hr]
  refine ⟨rfl, ?_, ?_⟩
  · intro hw
    constructor
    · rw [adjacent_ok (inRange_store hr _ _ _), hcell]
      simp [hw]
    · rw [getEdgeWeight_ok (inRange_store hr _ _ _), hcell]
      simp [hw]
  · intro hw
    rw [adjacent_ok (inRange_store hr _ _ _), hcell]
    simp [hw]

/-- C4 (instance): overwriting the edge `0 → 1` of the chain with weight 5. -/
theorem addEdge_then_query_witness :
    Reachable chain4 ∧ chain4.InRange 0 1 ∧
    (chain4.addEdge 0 1 (Float32.finite 5)).1 = Except.ok () ∧
    (Float32.finite 5 ≠ Float32.zero →
      (chain4.addEdge 0 1 (Float32.finite 5)).2.adjacent 0 1 = Except.ok true ∧
      (chain4.addEdge 0 1 (Float32.finite 5)).2.getEdgeWeight 0 1 =
        Except.ok (Float32.finite 5)) ∧
    (Float32.finite 5 = Float32.zero →
      (chain4.addEdge 0 1 (Float32.finite 5)).2.adjacent 0 1 = Except.ok false) :=
  have hreach : Reachable chain4 :=
    Reachable.addEdge 2 3 Float32.one
      (Reachable.addEdge 1 2 Float32.one
        (Reachable.addEdge 0 1 Float32.one (Reachable.construct 4 true)))
  ⟨hreach, by decide, addEdge_then_query chain4 hreach 0 1 (Float32.finite 5) (by decide)⟩

/-- C5: in every reachable state of an undirected graph (after the constructor and any
calls of `addEdge`, `removeEdge` and `setEdgeWeight`, returning or throwing), the cells
`(i, j)` and `(j, i)` hold the same value for all `i`, `j` in `[0, vertexCount)`. -/
theorem undirected_symmetric (g : MatrixGraph) (hg : Reachable g)
    (hu : g.isDirected = false) (i j : Nat) (hi : i < g.vertexCount)
    (hj : j < g.vertexCount) : g.cell i j = g.cell j i :=
  hg.wellFormed.2 hu i hi j hj

/-- C5 (instance): an undirected graph after an `addEdge`, a throwing `setEdgeWeight`,
a `setEdgeWeight` and a `removeEdge`. -/
theorem undirected_symmetric_witness :
    Reachable ((((((MatrixGraph.construct 3 false).addEdge 0 1 Float32.one).2.setEdgeWeight
        1 2 Float32.one).2.setEdgeWeight 1 0 (Float32.finite 7)).2.removeEdge 2 0).2) ∧
    ((((((MatrixGraph.construct 3 false).addEdge 0 1 Float32.one).2.setEdgeWeight
        1 2 Float32.one).2.setEdgeWeight 1 0 (Float32.finite 7)).2.removeEdge 2 0).2).cell 0 1 =
    ((((((MatrixGraph.construct 3 false).addEdge 0 1 Float32.one).2.setEdgeWeight
        1 2 Float32.one).2.setEdgeWeight 1 0 (Float32.finite 7)).2.removeEdge 2 0).2).cell 1 0 :=
  have hreach : Reachable ((((((MatrixGraph.construct 3 false).addEdge 0 1
      Float32.one).2.setEdgeWeight 1 2 Float32.one).2.setEdgeWeight 1 0
      (Float32.finite 7)).2.removeEdge 2 0).2) :=
    Reachable.removeEdge 2 0
      (Reachable.setEdgeWeight 1 0 (Float32.finite 7)
        (Reachable.setEdgeWeight 1 2 Float32.one
          (Reachable.addEdge 0 1 Float32.one (Reachable.construct 3 false))))
  ⟨hreach, undirected_symmetric _ hreach rfl 0 1 (by decide) (by decide)⟩

/-- C6 (counterexample): on the undirected two-vertex graph, after `addEdge(0, 1, 0.0f)`
the call `getEdgeWeight(1, 0)` throws "Edge does not exist." instead of returning the
weight. -/
theorem addEdge_zero_reverse_weight_throws :
    Reachable (MatrixGraph.construct 2 false) ∧
    (MatrixGraph.construct 2 false).isDirected = false ∧
    (MatrixGraph.construct 2 false).InRange 0 1 ∧
    ((MatrixGraph.construct 2 false).addEdge 0 1 Float32.zero).2.getEdgeWeight 1 0 =
      Except.error Exn.edgeDoesNotExist ∧
    ((MatrixGraph.construct 2 false).addEdge 0 1 Float32.zero).2.getEdgeWeight 1 0 ≠
      Except.ok Float32.zero :=
  ⟨Reachable.construct 2 false, rfl, by decide, by decide, by decide⟩

/-- C6 (amended): on a reachable undirected graph and for valid `(u, v)`, after
`addEdge(u, v, w)` the call `getEdgeWeight(v, u)` returns `w` when `w` is not zero, and
throws "Edge does not exist." when `w` is zero. -/
theorem addEdge_reverse_weight (g : MatrixGraph) (hg : Reachable g)
    (hu : g.isDirected = false) (u v : Int) (w : Float32) (hr : g.InRange u v) :
    (w ≠ Float32.zero → (g.addEdge u v w).2.getEdgeWeight v u = Except.ok w) ∧
    (w = Float32.zero →
      (g.addEdge u v w).2.getEdgeWeight v u = Except.error Exn.edgeDoesNotExist) := by
  obtain ⟨hu1, hv1⟩ := MatrixGraph.InRange.toNat_lt hr
  have hcell : (g.store u.toNat v.toNat w).cell v.toNat u.toNat = w := by
    rw [store_cell hg.wellFormed.1 hu1 hv1]
    simp [hu]
  rw [addEdge_ok hr, getEdgeWeight_ok (inRange_store (inRange_swap hr) _ _ _), hcell]
  constructor
  · intro hw
    simp [hw]
  · intro hw
    simp [hw]

/-- C6 (instance): the undirected three-vertex graph, edge `0 - 2` of weight 5. -/
theorem addEdge_reverse_weight_witness :
    Reachable (MatrixGraph.construct 3 false) ∧
    (MatrixGraph.construct 3 false).isDirected = false ∧
    (MatrixGraph.construct 3 false).InRange 0 2 ∧
    (Float32.finite 5 ≠ Float32.zero →
      ((MatrixGraph.construct 3 false).addEdge 0 2 (Float32.finite 5)).2.getEdgeWeight 2 0 =
        Except.ok (Float32.finite 5)) ∧
    (Float32.finite 5 = Float32.zero →
      ((MatrixGraph.construct 3 false).addEdge 0 2 (Float32.finite 5)).2.getEdgeWeight 2 0 =
        Except.error Exn.edgeDoesNotExist) :=
  ⟨Reachable.construct 3 false, rfl, by decide,
    addEdge_reverse_weight (MatrixGraph.construct 3 false) (Reachable.construct 3 false) rfl
      0 2 (Float32.finite 5) (by decide)⟩

/-- C7: on any reachable graph and for valid `(u, v)`, `removeEdge(u, v)` returns without
throwing, whether or not an edge was present; afterwards `adjacent(u, v)` is false, and
so is `adjacent(v, u)` when the graph is undirected; and removing an absent edge leaves
the whole graph, matrix included, as it was. -/
theorem removeEdge_spec (g : MatrixGraph) (hg : Reachable g) (u v : Int)
    (hr : g.InRange u v) :
    (g.removeEdge u v).1 = Except.ok () ∧
    (g.removeEdge u v).2.adjacent u v = Except.ok false ∧
    (g.isDirected = false → (g.removeEdge u v).2.adjacent v u = Except.ok false) ∧
    (g.adjacent u v = Except.ok false → (g.removeEdge u v).2 = g) := by
  obtain ⟨hu1, hv1⟩ := MatrixGraph.InRange.toNat_lt hr
  rw [removeEdge_ok hr]
  refine ⟨rfl, ?_, ?_, ?_⟩
  · rw [adjacent_ok (inRange_store hr _ _ _), store_cell hg.wellFormed.1 hu1 hv1]
    simp
  · intro hu
    rw [adjacent_ok (inRange_store (inRange_swap hr) _ _ _),
      store_cell hg.wellFormed.1 hu1 hv1]
    simp [hu]
  · intro hadj
    rw [adjacent_ok hr] at hadj
    have hz : g.cell u.toNat v.toNat = Float32.zero := by
      simpa using hadj
    apply store_zero_of_absent _ _ hz
    intro hu
    rw [← hg.wellFormed.2 hu u.toNat hu1 v.toNat hv1]
    exact hz

/-- C7 (instance): removing the absent edge `3 → 0` of the directed chain. -/
theorem removeEdge_spec_witness :
    Reachable chain4 ∧ chain4.InRange 3 0 ∧
    (chain4.removeEdge 3 0).1 = Except.ok () ∧
    (chain4.removeEdge 3 0).2.adjacent 3 0 = Except.ok false ∧
    (chain4.isDirected = false → (chain4.removeEdge 3 0).2.adjacent 0 3 = Except.ok false) ∧
    (chain4.adjacent 3 0 = Except.ok false → (chain4.removeEdge 3 0).2 = chain4) :=
  have hreach : Reachable chain4 :=
    Reachable.addEdge 2 3 Float32.one
      (Reachable.addEdge 1 2 Float32.one
        (Reachable.addEdge 0 1 Float32.one (Reachable.construct 4 true)))
  ⟨hreach, by decide, removeEdge_spec chain4 hreach 3 0 (by decide)⟩

/-- C8: each of `addEdge`, `removeEdge`, `adjacent`, `getEdgeWeight`, `setEdgeWeight` and
`getBFSPath` throws "Vertex index out of range." whenever one of its two vertex arguments
is negative or at least `vertexCount`, whatever the matrix holds; and when both
arguments are in `[0, vertexCount)` none of them throws it (`getBFSPath` then returns a
path and throws nothing at all). -/
theorem index_bound (g : MatrixGraph) (u v : Int) (w : Float32) :
    ((u < 0 ∨ (g.vertexCount : Int) ≤ u ∨ v < 0 ∨ (g.vertexCount : Int) ≤ v) →
      (g.addEdge u v w).1 = Except.error Exn.vertexIndexOutOfRange ∧
      (g.removeEdge u v).1 = Except.error Exn.vertexIndexOutOfRange ∧
      g.adjacent u v = Except.error Exn.vertexIndexOutOfRange ∧
      g.getEdgeWeight u v = Except.error Exn.vertexIndexOutOfRange ∧
      (g.setEdgeWeight u v w).1 = Except.error Exn.vertexIndexOutOfRange ∧
      g.getBFSPath u v = some (Except.error Exn.vertexIndexOutOfRange)) ∧
    ((0 ≤ u ∧ u < (g.vertexCount : Int) ∧ 0 ≤ v ∧ v < (g.vertexCount : Int)) →
      (g.addEdge u v w).1 ≠ Except.error Exn.vertexIndexOutOfRange ∧
      (g.removeEdge u v).1 ≠ Except.error Exn.vertexIndexOutOfRange ∧
      g.adjacent u v ≠ Except.error Exn.vertexIndexOutOfRange ∧
      g.getEdgeWeight u v ≠ Except.error Exn.vertexIndexOutOfRange ∧
      (g.setEdgeWeight u v w).1 ≠ Except.error Exn.vertexIndexOutOfRange ∧
      ∃ path, g.getBFSPath u v = some (Except.ok path)) := by
  constructor
  · intro hbad
    have hb : g.badIndex u v = true := by
      rw [badIndex_eq_true_iff]
      unfold MatrixGraph.InRange
      omega
    refine ⟨?_, ?_, ?_, ?_, ?_, ?_⟩
    · simp [MatrixGraph.addEdge, hb]
    · simp [MatrixGraph.removeEdge, hb]
    · simp [MatrixGraph.adjacent, hb]
    · simp [MatrixGraph.getEdgeWeight, hb]
    · simp [MatrixGraph.setEdgeWeight, hb]
    · simp [MatrixGraph.getBFSPath, MatrixGraph.getBFSPathWithin, hb]
  · intro hr
    have hr2 : g.InRange u v := hr
    have hb : g.badIndex u v = false := (badIndex_eq_false_iff g u v).2 hr2
    refine ⟨?_, ?_, ?_, ?_, ?_, ?_⟩
    · simp [MatrixGraph.addEdge, hb]
    · simp [MatrixGraph.removeEdge, hb]
    · simp [MatrixGraph.adjacent, hb]
    · rw [getEdgeWeight_ok hr2]
      split <;> simp
    · unfold MatrixGraph.setEdgeWeight
      rw [hb]
      simp only [Bool.false_eq_true, if_false]
      split <;> simp
    · obtain ⟨path, h, _⟩ := getBFSPath_spec g u v hr2
      exact ⟨path, h⟩

/-- C8 (instance): on the chain, index 4 and index -1 are rejected although the second
argument is valid, and the valid pair `(3, 0)`, which has no edge, is not. -/
theorem index_bound_witness :
    (chain4.getEdgeWeight 4 0 = Except.error Exn.vertexIndexOutOfRange ∧
      chain4.getBFSPath (-1) 0 = some (Except.error Exn.vertexIndexOutOfRange)) ∧
    (chain4.getEdgeWeight 3 0 ≠ Except.error Exn.vertexIndexOutOfRange ∧
      ∃ path, chain4.getBFSPath 3 0 = some (Except.ok path)) :=
  ⟨⟨((index_bound chain4 4 0 Float32.one).1 (by decide)).2.2.2.1,
      ((index_bound chain4 (-1) 0 Float32.one).1 (by decide)).2.2.2.2.2⟩,
    ⟨((index_bound chain4 3 0 Float32.one).2 (by decide)).2.2.2.1,
      ((index_bound chain4 3 0 Float32.one).2 (by decide)).2.2.2.2.2⟩⟩

/-- C9: whenever `addEdge`, `removeEdge` or `setEdgeWeight` throws, the graph after the
call is the graph before the call: no cell has been written. -/
theorem mutators_atomic (g : MatrixGraph) (u v : Int) (w : Float32) (e : Exn) :
    ((g.addEdge u v w).1 = Except.error e → (g.addEdge u v w).2 = g) ∧
    ((g.removeEdge u v).1 = Except.error e → (g.removeEdge u v).2 = g) ∧
    ((g.setEdgeWeight u v w).1 = Except.error e → (g.setEdgeWeight u v w).2 = g) := by
  refine ⟨?_, ?_, ?_⟩
  · unfold MatrixGraph.addEdge
    cases g.badIndex u v <;> simp
  · unfold MatrixGraph.removeEdge
    cases g.badIndex u v <;> simp
  · unfold MatrixGraph.setEdgeWeight
    cases g.badIndex u v
    · by_cases hz : g.cell u.toNat v.toNat = Float32.zero
      · simp [hz]
      · simp [hz]
    · simp

/-- C9 (instance): on the undirected graph with the single edge `0 - 1`, `setEdgeWeight`
on the absent edge `(1, 2)` throws and leaves the graph as it was. -/
theorem mutators_atomic_witness :
    (((MatrixGraph.construct 3 false).addEdge 0 1 Float32.one).2.setEdgeWeight 1 2
        (Float32.finite 4)).1 = Except.error Exn.edgeDoesNotExist ∧
    (((MatrixGraph.construct 3 false).addEdge 0 1 Float32.one).2.setEdgeWeight 1 2
        (Float32.finite 4)).2 = ((MatrixGraph.construct 3 false).addEdge 0 1 Float32.one).2 :=
  ⟨by decide,
    (mutators_atomic ((MatrixGraph.construct 3 false).addEdge 0 1 Float32.one).2 1 2
      (Float32.finite 4) Exn.edgeDoesNotExist).2.2 (by decide)⟩

/-- C10: for valid `(u, v)`, `getEdgeWeight(u, v)` throws "Edge does not exist." exactly
when the cell `(u, v)` is zero and otherwise returns the cell; equivalently it returns
exactly when `adjacent(u, v)` is true. -/
theorem getEdgeWeight_spec (g : MatrixGraph) (u v : Int) (hr : g.InRange u v) :
    (g.getEdgeWeight u v = Except.error Exn.edgeDoesNotExist ↔
      g.cell u.toNat v.toNat = Float32.zero) ∧
    (g.cell u.toNat v.toNat ≠ Float32.zero →
      g.getEdgeWeight u v = Except.ok (g.cell u.toNat v.toNat)) ∧
    ((∃ w, g.getEdgeWeight u v = Except.ok w) ↔ g.adjacent u v = Except.ok true) := by
  rw [getEdgeWeight_ok hr, adjacent_ok hr]
  by_cases hz : g.cell u.toNat v.toNat = Float32.zero
  · simp [hz]
  · simp [hz]

/-- C10 (instance): the edge `1 → 2` of the chain. -/
theorem getEdgeWeight_spec_witness :
    chain4.InRange 1 2 ∧
    (chain4.getEdgeWeight 1 2 = Except.error Exn.edgeDoesNotExist ↔
      chain4.cell (1 : Int).toNat (2 : Int).toNat = Float32.zero) ∧
    (chain4.cell (1 : Int).toNat (2 : Int).toNat ≠ Float32.zero →
      chain4.getEdgeWeight 1 2 = Except.ok (chain4.cell (1 : Int).toNat (2 : Int).toNat)) ∧
    ((∃ w, chain4.getEdgeWeight 1 2 = Except.ok w) ↔ chain4.adjacent 1 2 = Except.ok true) :=
  ⟨by decide, getEdgeWeight_spec chain4 1 2 (by decide)⟩

theorem setEdgeWeight_ok {g : MatrixGraph} {u v : Int} (hr : g.InRange u v) (w : Float32) :
    g.setEdgeWeight u v w =
      if g.cell u.toNat v.toNat = Float32.zero then (Except.error Exn.edgeDoesNotExist, g)
      else (Except.ok (), g.store u.toNat v.toNat w) := by
  unfold MatrixGraph.setEdgeWeight
  rw [(badIndex_eq_false_iff g u v).2 hr]
  rfl

theorem addEdge_vertexCount (g : MatrixGraph) (u v : Int) (w : Float32) :
    (g.addEdge u v w).2.vertexCount = g.vertexCount := by
  unfold MatrixGraph.addEdge
  cases g.badIndex u v <;> rfl

theorem removeEdge_vertexCount (g : MatrixGraph) (u v : Int) :
    (g.removeEdge u v).2.vertexCount = g.vertexCount := by
  unfold MatrixGraph.removeEdge
  cases g.badIndex u v <;> rfl

theorem setEdgeWeight_vertexCount (g : MatrixGraph) (u v : Int) (w : Float32) :
    (g.setEdgeWeight u v w).2.vertexCount = g.vertexCount := by
  unfold MatrixGraph.setEdgeWeight
  cases g.badIndex u v
  · by_cases hz : g.cell u.toNat v.toNat = Float32.zero
    · simp [hz]
    · simp [hz, MatrixGraph.store]
  · rfl

theorem afterCall_vertexCount (g : MatrixGraph) (c : Call) :
    (g.afterCall c).vertexCount = g.vertexCount := by
  cases c with
  | addEdge u v w => exact addEdge_vertexCount g u v w
  | removeEdge u v => exact removeEdge_vertexCount g u v
  | setEdgeWeight u v w => exact setEdgeWeight_vertexCount g u v w
  | adjacent _ _ => rfl
  | getEdgeWeight _ _ => rfl
  | getVertexCount => rfl
  | pathExists _ _ => rfl
  | getBFSPath _ _ => rfl

theorem afterCalls_vertexCount (calls : List Call) :
    ∀ g : MatrixGraph, (g.afterCalls calls).vertexCount = g.vertexCount := by
  induction calls with
  | nil => intro g; rfl
  | cons c calls ih =>
    intro g
    unfold MatrixGraph.afterCalls
    rw [List.foldl_cons]
    exact (ih (g.afterCall c)).trans (afterCall_vertexCount g c)

/-- C11: on a reachable graph and for valid `(u, v)`, `setEdgeWeight(u, v, w)` throws
"Edge does not exist." exactly when there is no edge at `(u, v)`, and then leaves the
graph as it was, so that no edge is created; it returns exactly when there is an edge,
and then the cell `(u, v)` holds `w`, and so does the cell `(v, u)` when the graph is
undirected. -/
theorem setEdgeWeight_spec (g : MatrixGraph) (hg : Reachable g) (u v : Int) (w : Float32)
    (hr : g.InRange u v) :
    ((g.setEdgeWeight u v w).1 = Except.error Exn.edgeDoesNotExist ↔
      g.adjacent u v = Except.ok false) ∧
    ((g.setEdgeWeight u v w).1 = Except.error Exn.edgeDoesNotExist →
      (g.setEdgeWeight u v w).2 = g ∧
      (g.setEdgeWeight u v w).2.adjacent u v = Except.ok false) ∧
    ((g.setEdgeWeight u v w).1 = Except.ok () ↔ g.adjacent u v = Except.ok true) ∧
    ((g.setEdgeWeight u v w).1 = Except.ok () →
      (g.setEdgeWeight u v w).2.cell u.toNat v.toNat = w ∧
      (g.isDirected = false → (g.setEdgeWeight u v w).2.cell v.toNat u.toNat = w)) := by
  obtain ⟨hu1, hv1⟩ := MatrixGraph.InRange.toNat_lt hr
  rw [setEdgeWeight_ok hr, adjacent_ok hr]
  by_cases hz : g.cell u.toNat v.toNat = Float32.zero
  · simp [hz, adjacent_ok hr]
  · simp only [hz, if_false]
    refine ⟨by simp [hz], by simp, by simp [hz], ?_⟩
    intro _
    constructor
    · rw [store_cell hg.wellFormed.1 hu1 hv1]
      simp
    · intro hu
      rw [store_cell hg.wellFormed.1 hu1 hv1]
      simp [hu]

/-- C11 (instance): updating the edge `1 → 2` of the chain to weight 9. -/
theorem setEdgeWeight_spec_witness :
    Reachable chain4 ∧ chain4.InRange 1 2 ∧
    (chain4.setEdgeWeight 1 2 (Float32.finite 9)).1 = Except.ok () ∧
    (chain4.setEdgeWeight 1 2 (Float32.finite 9)).2.cell 1 2 = Float32.finite 9 :=
  have hreach : Reachable chain4 :=
    Reachable.addEdge 2 3 Float32.one
      (Reachable.addEdge 1 2 Float32.one
        (Reachable.addEdge 0 1 Float32.one (Reachable.construct 4 true)))
  have h := setEdgeWeight_spec chain4 hreach 1 2 (Float32.finite 9) (by decide)
  ⟨hreach, by decide, h.2.2.1.2 (by decide), (h.2.2.2 (h.2.2.1.2 (by decide))).1⟩

/-- C12: for every graph and every valid `start`, `getBFSPath(start, start)` returns the
one-element sequence `[start]` and `pathExists(start, start)` returns true. -/
theorem getBFSPath_self (g : MatrixGraph) (start : Int) (hr : g.InRange start start) :
    g.getBFSPath start start = some (Except.ok [start]) ∧
    g.pathExists start start = some (Except.ok true) := by
  obtain ⟨path, h1, h2⟩ := getBFSPath_spec g start start hr
  have hp : path = [start] := by
    rcases h2 with ⟨_, hh, _, _, _, hmin⟩ | ⟨hn, _⟩
    · have hlen := hmin [start] rfl rfl (List.chain'_singleton _)
      cases path with
      | nil => simp at hh
      | cons a rest =>
        simp only [List.head?_cons, Option.some.injEq] at hh
        cases rest with
        | nil => rw [hh]
        | cons b rest => simp at hlen
    · exact absurd Relation.ReflTransGen.refl hn
  subst hp
  refine ⟨h1, ?_⟩
  unfold MatrixGraph.pathExists
  rw [h1]
  rfl

/-- C12 (instance): vertex 0 of the undirected graph with a self-loop at 0 and the edge
`0 - 1`. -/
theorem getBFSPath_self_witness :
    (((MatrixGraph.construct 2 false).addEdge 0 0 Float32.one).2.addEdge 0 1
        Float32.one).2.InRange 0 0 ∧
    (((MatrixGraph.construct 2 false).addEdge 0 0 Float32.one).2.addEdge 0 1
        Float32.one).2.getBFSPath 0 0 = some (Except.ok [0]) ∧
    (((MatrixGraph.construct 2 false).addEdge 0 0 Float32.one).2.addEdge 0 1
        Float32.one).2.pathExists 0 0 = some (Except.ok true) :=
  ⟨by decide, getBFSPath_self _ 0 (by decide)⟩

/-- C15: right after `MatrixGraph(n, directed)`, `getVertexCount` returns `n`, and for all
`u`, `v` in `[0, n)` `adjacent(u, v)` is false and `getEdgeWeight(u, v)` throws "Edge
does not exist."; and `getVertexCount` still returns `n` after any sequence of calls of
the public methods. -/
theorem construct_spec (n : Nat) (directed : Bool) :
    (MatrixGraph.construct n directed).getVertexCount = n ∧
    (∀ u v : Int, (MatrixGraph.construct n directed).InRange u v →
      (MatrixGraph.construct n directed).adjacent u v = Except.ok false ∧
      (MatrixGraph.construct n directed).getEdgeWeight u v =
        Except.error Exn.edgeDoesNotExist) ∧
    (∀ calls : List Call,
      ((MatrixGraph.construct n directed).afterCalls calls).getVertexCount = n) := by
  refine ⟨rfl, ?_, ?_⟩
  · intro u v hr
    rw [adjacent_ok hr, getEdgeWeight_ok hr, construct_cell]
    simp
  · intro calls
    exact afterCalls_vertexCount calls _

/-- C15 (instance): three vertices, undirected; the pair `(2, 1)`; a sequence of calls
of which one throws. -/
theorem construct_spec_witness :
    (MatrixGraph.construct 3 false).InRange 2 1 ∧
    (MatrixGraph.construct 3 false).adjacent 2 1 = Except.ok false ∧
    (MatrixGraph.construct 3 false).getEdgeWeight 2 1 = Except.error Exn.edgeDoesNotExist ∧
    ((MatrixGraph.construct 3 false).afterCalls
      [Call.addEdge 0 1 Float32.one, Call.setEdgeWeight 1 2 Float32.one,
        Call.getBFSPath 0 1, Call.removeEdge 1 0]).getVertexCount = 3 :=
  ⟨by decide, ((construct_spec 3 false).2.1 2 1 (by decide)).1,
    ((construct_spec 3 false).2.1 2 1 (by decide)).2, (construct_spec 3 false).2.2 _⟩

/-- C19: on a reachable graph and for valid `(u, v)`, each of `addEdge(u, v, w)`,
`removeEdge(u, v)` and `setEdgeWeight(u, v, w)` leaves every cell other than `(u, v)`
and, when the graph is undirected, `(v, u)` as it was, and leaves `vertexCount` and
`isDirected` as they were; on a directed graph with `u ≠ v` the cell `(v, u)` is left as
it was; and the queries `adjacent`, `getEdgeWeight`, `getVertexCount`, `pathExists` and
`getBFSPath` leave the whole graph as it was. -/
theorem mutators_frame (g : MatrixGraph) (hg : Reachable g) (u v : Int) (w : Float32)
    (hr : g.InRange u v) :
    (∀ a b : Nat, ¬ (a = u.toNat ∧ b = v.toNat) →
      ¬ (g.isDirected = false ∧ a = v.toNat ∧ b = u.toNat) →
      (g.afterCall (Call.addEdge u v w)).cell a b = g.cell a b ∧
      (g.afterCall (Call.removeEdge u v)).cell a b = g.cell a b ∧
      (g.afterCall (Call.setEdgeWeight u v w)).cell a b = g.cell a b) ∧
    (g.isDirected = true → u ≠ v →
      (g.afterCall (Call.addEdge u v w)).cell v.toNat u.toNat = g.cell v.toNat u.toNat ∧
      (g.afterCall (Call.removeEdge u v)).cell v.toNat u.toNat = g.cell v.toNat u.toNat ∧
      (g.afterCall (Call.setEdgeWeight u v w)).cell v.toNat u.toNat =
        g.cell v.toNat u.toNat) ∧
    (∀ c : Call, (g.afterCall c).vertexCount = g.vertexCount ∧
      (g.afterCall c).isDirected = g.isDirected) ∧
    (∀ a b : Int, g.afterCall (Call.adjacent a b) = g ∧
      g.afterCall (Call.getEdgeWeight a b) = g ∧ g.afterCall Call.getVertexCount = g ∧
      g.afterCall (Call.pathExists a b) = g ∧ g.afterCall (Call.getBFSPath a b) = g) := by
  obtain ⟨hu1, hv1⟩ := MatrixGraph.InRange.toNat_lt hr
  have hframe : ∀ (x : Float32) (a b : Nat), ¬ (a = u.toNat ∧ b = v.toNat) →
      ¬ (g.isDirected = false ∧ a = v.toNat ∧ b = u.toNat) →
      (g.store u.toNat v.toNat x).cell a b = g.cell a b := by
    intro x a b h1 h2
    rw [store_cell hg.wellFormed.1 hu1 hv1, if_neg]
    exact fun h => h.elim h1 h2
  have hall : ∀ a b : Nat, ¬ (a = u.toNat ∧ b = v.toNat) →
      ¬ (g.isDirected = false ∧ a = v.toNat ∧ b = u.toNat) →
      (g.afterCall (Call.addEdge u v w)).cell a b = g.cell a b ∧
      (g.afterCall (Call.removeEdge u v)).cell a b = g.cell a b ∧
      (g.afterCall (Call.setEdgeWeight u v w)).cell a b = g.cell a b := by
    intro a b h1 h2
    refine ⟨?_, ?_, ?_⟩
    · show (g.addEdge u v w).2.cell a b = g.cell a b
      rw [addEdge_ok hr]
      exact hframe w a b h1 h2
    · show (g.removeEdge u v).2.cell a b = g.cell a b
      rw [removeEdge_ok hr]
      exact hframe _ a b h1 h2
    · show (g.setEdgeWeight u v w).2.cell a b = g.cell a b
      rw [setEdgeWeight_ok hr]
      by_cases hz : g.cell u.toNat v.toNat = Float32.zero
      · simp [hz]
      · simp only [hz, if_false]
        exact hframe w a b h1 h2
  refine ⟨hall, ?_, ?_, fun _ _ => ⟨rfl, rfl, rfl, rfl, rfl⟩⟩
  · intro hd hne
    apply hall
    · intro h
      apply hne
      have h0 : 0 ≤ u := hr.1
      have h1 : 0 ≤ v := hr.2.2.1
      have := h.1
      omega
    · intro h
      rw [hd] at h
      exact absurd h.1 (by decide)
  · intro c
    refine ⟨afterCall_vertexCount g c, ?_⟩
    cases c with
    | addEdge a b x =>
      show (g.addEdge a b x).2.isDirected = g.isDirected
      unfold MatrixGraph.addEdge
      cases g.badIndex a b <;> rfl
    | removeEdge a b =>
      show (g.removeEdge a b).2.isDirected = g.isDirected
      unfold MatrixGraph.removeEdge
      cases g.badIndex a b <;> rfl
    | setEdgeWeight a b x =>
      show (g.setEdgeWeight a b x).2.isDirected = g.isDirected
      unfold MatrixGraph.setEdgeWeight
      cases g.badIndex a b
      · by_cases hz : g.cell a.toNat b.toNat = Float32.zero
        · simp [hz]
        · simp [hz, MatrixGraph.store]
      · rfl
    | adjacent _ _ => rfl
    | getEdgeWeight _ _ => rfl
    | getVertexCount => rfl
    | pathExists _ _ => rfl
    | getBFSPath _ _ => rfl

/-- C19 (instance): on the directed chain, `addEdge(3, 0, 5)` leaves the cells `(0, 3)`
and `(0, 1)` as they were. -/
theorem mutators_frame_witness :
    Reachable chain4 ∧ chain4.InRange 3 0 ∧
    (chain4.afterCall (Call.addEdge 3 0 (Float32.finite 5))).cell 0 3 = chain4.cell 0 3 ∧
    (chain4.afterCall (Call.addEdge 3 0 (Float32.finite 5))).cell 0 1 = chain4.cell 0 1 :=
  have hreach : Reachable chain4 :=
    Reachable.addEdge 2 3 Float32.one
      (Reachable.addEdge 1 2 Float32.one
        (Reachable.addEdge 0 1 Float32.one (Reachable.construct 4 true)))
  have h := mutators_frame chain4 hreach 3 0 (Float32.finite 5) (by decide)
  ⟨hreach, by decide, (h.2.1 rfl (by decide)).1, (h.1 0 1 (by decide) (by decide)).1⟩

/-- C20: on a reachable graph and for valid `(u, v)` with an edge at `(u, v)`,
`setEdgeWeight(u, v, 0.0f)` returns and leaves the graph that `removeEdge(u, v)` leaves;
afterwards `adjacent(u, v)` is false, and `getEdgeWeight(u, v)` and any further
`setEdgeWeight(u, v, w)` throw "Edge does not exist.". -/
theorem setEdgeWeight_zero_removes (g : MatrixGraph) (hg : Reachable g) (u v : Int)
    (hr : g.InRange u v) (hedge : g.adjacent u v = Except.ok true) (w : Float32) :
    (g.setEdgeWeight u v Float32.zero).1 = Except.ok () ∧
    (g.setEdgeWeight u v Float32.zero).2 = (g.removeEdge u v).2 ∧
    (g.setEdgeWeight u v Float32.zero).2.adjacent u v = Except.ok false ∧
    (g.setEdgeWeight u v Float32.zero).2.getEdgeWeight u v =
      Except.error Exn.edgeDoesNotExist ∧
    ((g.setEdgeWeight u v Float32.zero).2.setEdgeWeight u v w).1 =
      Except.error Exn.edgeDoesNotExist := by
  obtain ⟨hu1, hv1⟩ := MatrixGraph.InRange.toNat_lt hr
  have hz : g.cell u.toNat v.toNat ≠ Float32.zero := by
    rw [adjacent_ok hr] at hedge
    simpa using hedge
  have hcell : (g.store u.toNat v.toNat Float32.zero).cell u.toNat v.toNat = Float32.zero := by
    rw [store_cell hg.wellFormed.1 hu1 hv1]
    simp
  have hr2 : (g.store u.toNat v.toNat Float32.zero).InRange u v := hr
  rw [setEdgeWeight_ok hr, removeEdge_ok hr]
  simp only [hz, if_false]
  refine ⟨trivial, trivial, ?_, ?_, ?_⟩
  · rw [adjacent_ok hr2, hcell]
    simp
  · rw [getEdgeWeight_ok hr2, hcell]
    simp
  · rw [setEdgeWeight_ok hr2, hcell]
    simp

/-- C20 (instance): the edge `0 → 1` of the chain. -/
theorem setEdgeWeight_zero_removes_witness :
    Reachable chain4 ∧ chain4.InRange 0 1 ∧ chain4.adjacent 0 1 = Except.ok true ∧
    (chain4.setEdgeWeight 0 1 Float32.zero).1 = Except.ok () ∧
    (chain4.setEdgeWeight 0 1 Float32.zero).2 = (chain4.removeEdge 0 1).2 ∧
    (chain4.setEdgeWeight 0 1 Float32.zero).2.adjacent 0 1 = Except.ok false ∧
    (chain4.setEdgeWeight 0 1 Float32.zero).2.getEdgeWeight 0 1 =
      Except.error Exn.edgeDoesNotExist ∧
    ((chain4.setEdgeWeight 0 1 Float32.zero).2.setEdgeWeight 0 1 (Float32.finite 3)).1 =
      Except.error Exn.edgeDoesNotExist :=
  have hreach : Reachable chain4 :=
    Reachable.addEdge 2 3 Float32.one
      (Reachable.addEdge 1 2 Float32.one
        (Reachable.addEdge 0 1 Float32.one (Reachable.construct 4 true)))
  ⟨hreach, by decide, by decide,
    setEdgeWeight_zero_removes chain4 hreach 0 1 (by decide) (by decide) (Float32.finite 3)⟩

theorem queue_run_inv {α : Type} (ops : List (QueueOp α)) :
    ∀ (q : Queue α) (returned enq : List α), q.currentSize = q.nodes.length →
      returned ++ q.nodes = enq →
      (Queue.run (q, returned) ops).1.currentSize = (Queue.run (q, returned) ops).1.nodes.length ∧
      (Queue.run (q, returned) ops).2 ++ (Queue.run (q, returned) ops).1.nodes =
        enq ++ enqueuedItems ops := by
  induction ops with
  | nil =>
    intro q returned enq h1 h2
    simp [Queue.run, enqueuedItems, h1, h2]
  | cons op ops ih =>
    intro q returned enq h1 h2
    cases op with
    | enqueue item =>
      have := ih (q.enqueue item) returned (enq ++ [item])
        (by simp [Queue.enqueue, h1]) (by simp [Queue.enqueue, ← h2])
      simpa [Queue.run, enqueuedItems] using this
    | dequeue =>
      cases hq : q.nodes with
      | nil =>
        have hd : q.dequeue = Except.error Exn.queueIsEmpty := by
          simp [Queue.dequeue, hq]
        have := ih q returned enq h1 h2
        simpa [Queue.run, enqueuedItems, hd] using this
      | cons data rest =>
        have hd : q.dequeue = Except.ok (data, ⟨rest, q.currentSize - 1⟩) := by
          simp [Queue.dequeue, hq]
        have := ih ⟨rest, q.currentSize - 1⟩ (returned ++ [data]) enq
          (by simp [h1, hq]) (by simp [← h2, hq])
        simpa [Queue.run, enqueuedItems, hd] using this

/-- C14: after any sequence of `enqueue` and `dequeue` calls on an empty queue, the
values returned by the dequeues that returned are, in order, the first items that were
enqueued, and the queue holds the remaining ones in order; `size` is the number of
enqueues minus the number of dequeues that returned; `isEmpty` is true exactly when
`size` is 0; `dequeue` and `front` throw "Queue is empty" exactly when the queue is
empty; and `front` returns the item that the next `dequeue` returns. -/
theorem queue_fifo {α : Type} (ops : List (QueueOp α)) :
    (Queue.run (Queue.empty, []) ops).2 =
      (enqueuedItems ops).take (Queue.run (Queue.empty, []) ops).2.length ∧
    (Queue.run (Queue.empty, []) ops).1.nodes =
      (enqueuedItems ops).drop (Queue.run (Queue.empty, []) ops).2.length ∧
    (Queue.run (Queue.empty, []) ops).1.size + (Queue.run (Queue.empty, []) ops).2.length =
      (enqueuedItems ops).length ∧
    ((Queue.run (Queue.empty, []) ops).1.isEmpty = true ↔
      (Queue.run (Queue.empty, []) ops).1.size = 0) ∧
    ((Queue.run (Queue.empty, []) ops).1.dequeue = Except.error Exn.queueIsEmpty ↔
      (Queue.run (Queue.empty, []) ops).1.isEmpty = true) ∧
    ((Queue.run (Queue.empty, []) ops).1.front = Except.error Exn.queueIsEmpty ↔
      (Queue.run (Queue.empty, []) ops).1.isEmpty = true) ∧
    (∀ x, (Queue.run (Queue.empty, []) ops).1.front = Except.ok x ↔
      ∃ q', (Queue.run (Queue.empty, []) ops).1.dequeue = Except.ok (x, q')) := by
  obtain ⟨h1, h2⟩ := queue_run_inv ops (Queue.empty : Queue α) [] [] rfl rfl
  generalize Queue.run ((Queue.empty : Queue α), []) ops = r at h1 h2
  obtain ⟨q, returned⟩ := r
  simp only [List.nil_append] at h2
  simp only at h1
  refine ⟨?_, ?_, ?_, ?_, ?_, ?_, ?_⟩
  · simp [← h2]
  · simp [← h2]
  · simp only [Queue.size, h1, ← h2, List.length_append]
    omega
  · simp only [Queue.isEmpty, Queue.size, h1]
    cases q.nodes <;> simp
  · cases hq : q.nodes <;> simp [Queue.dequeue, Queue.isEmpty, hq]
  · cases hq : q.nodes <;> simp [Queue.front, Queue.isEmpty, hq]
  · intro x
    cases hq : q.nodes <;> simp [Queue.front, Queue.dequeue, hq]

/-- C14 (instance): enqueue 7, enqueue 8, dequeue, enqueue 9, then the failing and the
returning dequeues in turn. -/
theorem queue_fifo_witness :
    (Queue.run ((Queue.empty : Queue Nat), [])
      [QueueOp.dequeue, QueueOp.enqueue 7, QueueOp.enqueue 8, QueueOp.dequeue,
        QueueOp.enqueue 9]).2 = [7] ∧
    (Queue.run ((Queue.empty : Queue Nat), [])
      [QueueOp.dequeue, QueueOp.enqueue 7, QueueOp.enqueue 8, QueueOp.dequeue,
        QueueOp.enqueue 9]).1.size + 1 = 3 :=
  ⟨by decide,
    (queue_fifo [QueueOp.dequeue, QueueOp.enqueue 7, QueueOp.enqueue 8, QueueOp.dequeue,
      QueueOp.enqueue (9 : Nat)]).2.2.1⟩

theorem chainGraph_fold (n : Nat) :
    ∀ k, k + 1 ≤ n →
      ((List.range k).foldl
        (fun (g : MatrixGraph) (i : Nat) => (g.addEdge (i : Int) ((i : Int) + 1) Float32.one).2)
        (MatrixGraph.construct n true)).Sized ∧
      ((List.range k).foldl
        (fun (g : MatrixGraph) (i : Nat) => (g.addEdge (i : Int) ((i : Int) + 1) Float32.one).2)
        (MatrixGraph.construct n true)).vertexCount = n ∧
      ((List.range k).foldl
        (fun (g : MatrixGraph) (i : Nat) => (g.addEdge (i : Int) ((i : Int) + 1) Float32.one).2)
        (MatrixGraph.construct n true)).isDirected = true ∧
      ∀ a b : Nat, ((List.range k).foldl
        (fun (g : MatrixGraph) (i : Nat) => (g.addEdge (i : Int) ((i : Int) + 1) Float32.one).2)
        (MatrixGraph.construct n true)).cell a b =
          if b = a + 1 ∧ a < k then Float32.one else Float32.zero := by
  intro k
  induction k with
  | zero =>
    intro _
    refine ⟨construct_sized n true, rfl, rfl, ?_⟩
    intro a b
    simp [construct_cell]
  | succ k ih =>
    intro hk
    obtain ⟨h1, h2, h3, h4⟩ := ih (by omega)
    rw [List.range_succ, List.foldl_append]
    simp only [List.foldl_cons, List.foldl_nil]
    generalize (List.range k).foldl
      (fun (g : MatrixGraph) (i : Nat) => (g.addEdge (i : Int) ((i : Int) + 1) Float32.one).2)
      (MatrixGraph.construct n true) = g at h1 h2 h3 h4
    have hr : g.InRange (k : Int) ((k : Int) + 1) := by
      unfold MatrixGraph.InRange
      rw [h2]
      omega
    have hk1 : ((k : Int)).toNat = k := by simp
    have hk2 : ((k : Int) + 1).toNat = k + 1 := by omega
    rw [addEdge_ok hr, hk1, hk2]
    refine ⟨store_sized h1 _ _ _, h2, h3, ?_⟩
    intro a b
    rw [store_cell h1 (by rw [h2]; omega) (by rw [h2]; omega), h4, h3]
    by_cases hab : a = k ∧ b = k + 1
    · obtain ⟨rfl, rfl⟩ := hab
      simp
    · have h5 : ¬ ((a = k ∧ b = k + 1) ∨ (true = false ∧ a = k + 1 ∧ b = k)) := by
        simp [hab]
      rw [if_neg h5]
      by_cases hb : b = a + 1
      · have hak : a ≠ k := fun h => hab ⟨h, by omega⟩
        by_cases hlt : a < k
        · have : a < k + 1 := by omega
          simp [hb, hlt, this]
        · have : ¬ a < k + 1 := by omega
          simp [hb, hlt, this]
      · simp [hb]

theorem chainGraph_adj (n : Nat) (a b : Int) :
    (chainGraph n).Adj a b ↔ 0 ≤ a ∧ b = a + 1 ∧ b < (n : Int) := by
  by_cases hn : n = 0
  · subst hn
    rw [adj_iff]
    have hv : (chainGraph 0).vertexCount = 0 := rfl
    unfold MatrixGraph.InRange
    rw [hv]
    constructor
    · rintro ⟨⟨h1, h2, _⟩, _⟩
      omega
    · rintro ⟨h1, h2, h3⟩
      omega
  · obtain ⟨h1, h2, h3, h4⟩ := chainGraph_fold n (n - 1) (by omega)
    have hc : chainGraph n = (List.range (n - 1)).foldl
        (fun (g : MatrixGraph) (i : Nat) => (g.addEdge (i : Int) ((i : Int) + 1) Float32.one).2)
        (MatrixGraph.construct n true) := rfl
    rw [← hc] at h1 h2 h3 h4
    rw [adj_iff, h4]
    unfold MatrixGraph.InRange
    rw [h2]
    have hone : Float32.one ≠ Float32.zero := by decide
    constructor
    · rintro ⟨⟨ha0, ha1, hb0, hb1⟩, hcell⟩
      by_cases hcond : b.toNat = a.toNat + 1 ∧ a.toNat < n - 1
      · omega
      · rw [if_neg hcond] at hcell
        exact absurd rfl hcell
    · rintro ⟨ha0, hb, hb1⟩
      refine ⟨by omega, ?_⟩
      have hcond : b.toNat = a.toNat + 1 ∧ a.toNat < n - 1 := by omega
      rw [if_pos hcond]
      exact hone

theorem chain_eq_interval :
    ∀ (p : List Int) (i : Int), p.head? = some i →
      List.Chain' (fun a b : Int => b = a + 1) p →
      p = (List.range p.length).map (fun k : Nat => i + (k : Int)) := by
  intro p
  induction p with
  | nil =>
    intro i h
    simp at h
  | cons a rest ih =>
    intro i hh hc
    simp only [List.head?_cons, Option.some.injEq] at hh
    subst hh
    cases rest with
    | nil =>
      show [a] = [a + ((0 : Nat) : Int)]
      simp
    | cons b r =>
      rw [List.chain'_cons] at hc
      have := ih (a + 1) (by rw [hc.1]; rfl) hc.2
      rw [List.length_cons, List.range_succ_eq_map, List.map_cons, List.map_map]
      simp only [Nat.cast_zero, add_zero, List.cons.injEq, true_and]
      rw [this]
      simp only [List.length_map, List.length_range, List.map_map]
      apply List.map_congr_left
      intro k _
      simp only [Function.comp, Nat.cast_succ]
      omega

theorem chainGraph_reaches (n : Nat) (i : Int) (hi : 0 ≤ i) :
    ∀ k : Nat, i + (k : Int) < (n : Int) → (chainGraph n).Reaches i (i + (k : Int)) := by
  intro k
  induction k with
  | zero =>
    intro _
    simpa using (Relation.ReflTransGen.refl : (chainGraph n).Reaches i i)
  | succ k ih =>
    intro hk
    have h1 := ih (by push_cast at hk ⊢; omega)
    refine Relation.ReflTransGen.tail h1 ?_
    rw [chainGraph_adj]
    push_cast at hk ⊢
    omega

theorem chainGraph_reaches_le (n : Nat) {i j : Int} (h : (chainGraph n).Reaches i j) :
    i ≤ j := by
  induction h with
  | refl => exact le_refl _
  | tail _ hadj ih =>
    rw [chainGraph_adj] at hadj
    omega

/-- C13: on the directed chain with `n` vertices built by `addEdge(i, i + 1)` for
`0 ≤ i < n - 1`, `getBFSPath(i, j)` returns `[i, i + 1, ..., j]` for all
`0 ≤ i ≤ j < n`, and the empty sequence for all `0 ≤ j < i < n`. -/
theorem chainGraph_path (n : Nat) (i j : Int) (hi : 0 ≤ i) (hin : i < (n : Int))
    (hj : 0 ≤ j) (hjn : j < (n : Int)) :
    (i ≤ j → (chainGraph n).getBFSPath i j = some (Except.ok (interval i j))) ∧
    (j < i → (chainGraph n).getBFSPath i j = some (Except.ok [])) := by
  have hv : (chainGraph n).vertexCount = n := by
    obtain ⟨_, h2, _, _⟩ := chainGraph_fold n (n - 1) (by omega)
    exact h2
  have hr : (chainGraph n).InRange i j := by
    unfold MatrixGraph.InRange
    rw [hv]
    exact ⟨hi, hin, hj, hjn⟩
  obtain ⟨path, h1, h2⟩ := getBFSPath_spec (chainGraph n) i j hr
  rw [h1]
  constructor
  · intro hij
    rcases h2 with ⟨_, hh, hl, _, hc, _⟩ | ⟨hn, _⟩
    · have hc2 : List.Chain' (fun a b : Int => b = a + 1) path :=
        List.Chain'.imp (fun a b h => ((chainGraph_adj n a b).1 h).2.1) hc
      have hp := chain_eq_interval path i hh hc2
      have hlen : path.length = (j + 1 - i).toNat := by
        have hpos : 0 < path.length := by
          cases path with
          | nil => simp at hh
          | cons a l => simp
        rw [hp, List.getLast?_eq_getElem?] at hl
        simp only [List.length_map, List.length_range] at hl
        rw [List.getElem?_map, List.getElem?_range (by omega)] at hl
        simp only [Option.map_some', Option.some.injEq] at hl
        omega
      rw [hp, hlen]
      simp [interval]
    · exfalso
      apply hn
      have := chainGraph_reaches n i hi (j - i).toNat (by omega)
      have hcast : i + ((j - i).toNat : Int) = j := by omega
      rw [hcast] at this
      exact this
  · intro hji
    rcases h2 with ⟨hreach, _⟩ | ⟨_, hp⟩
    · have := chainGraph_reaches_le n hreach
      omega
    · rw [hp]

/-- C13 (instance): `n = 4`, which is the chain `0 → 1 → 2 → 3`: the paths from 0 to 3,
from 3 to 0 and from 2 to 2. -/
theorem chainGraph_path_witness :
    (chainGraph 4).getBFSPath 0 3 = some (Except.ok [0, 1, 2, 3]) ∧
    (chainGraph 4).getBFSPath 3 0 = some (Except.ok []) ∧
    (chainGraph 4).getBFSPath 2 2 = some (Except.ok [2]) :=
  ⟨(chainGraph_path 4 0 3 (by decide) (by decide) (by decide) (by decide)).1 (by decide),
    (chainGraph_path 4 3 0 (by decide) (by decide) (by decide) (by decide)).2 (by decide),
    (chainGraph_path 4 2 2 (by decide) (by decide) (by decide) (by decide)).1 (by decide)⟩

theorem bfsLoopLog_fst (g : MatrixGraph) (t : Nat) :
    ∀ (fuel : Nat) (st : BFSState) (log : List Nat),
      (bfsLoopLog g t fuel st log).map (fun r => r.map Prod.fst) = bfsLoop g t fuel st := by
  intro fuel
  induction fuel with
  | zero =>
    intro st log
    rfl
  | succ fuel ih =>
    intro st log
    cases hq : st.queue.nodes with
    | nil =>
      simp [bfsLoopLog, bfsLoop, Queue.isEmpty, hq]
      rfl
    | cons c rest =>
      by_cases hc : c = t
      · simp [bfsLoopLog, bfsLoop, Queue.isEmpty, Queue.dequeue, hq, hc]
        rfl
      · simp only [bfsLoopLog, bfsLoop, Queue.isEmpty, Queue.dequeue, hq, hc,
          List.isEmpty_cons, Bool.false_eq_true, if_false]
        exact ih _ _

theorem nodup_lt_length_le (l : List Nat) (n : Nat) (hnd : l.Nodup) (hlt : ∀ v ∈ l, v < n) :
    l.length ≤ n := by
  have hsub : l ⊆ List.range n := fun v hv => List.mem_range.2 (hlt v hv)
  have := (hnd.subperm hsub).length_le
  simpa using this

theorem bfsLoopLog_exit (g : MatrixGraph) (s t : Nat) :
    ∀ (fuel : Nat) (st : BFSState) (d : Nat → Nat) (log : List Nat), BFSInv g s st d →
      st.queue.nodes.length + st.unvisitedCount < fuel →
      (log ++ st.queue.nodes).Nodup → (∀ v ∈ log, st.vis v) →
      ∃ st' log', bfsLoopLog g t fuel st log = some (Except.ok (st', log')) ∧
        (log' ++ st'.queue.nodes).Nodup ∧
        (∀ v ∈ log' ++ st'.queue.nodes, v < g.vertexCount) := by
  intro fuel
  induction fuel with
  | zero =>
    intro st d log _ h
    omega
  | succ fuel ih =>
    intro st d log hinv hm hnd hlog
    have hlt : ∀ v, st.vis v → v < g.vertexCount := fun v hv => by
      have := vis_lt_length hv
      rw [hinv.vlen] at this
      exact this
    have hall : ∀ v ∈ log ++ st.queue.nodes, v < g.vertexCount := by
      intro v hv
      rcases List.mem_append.1 hv with h | h
      · exact hlt v (hlog v h)
      · exact hlt v (hinv.queue_vis v h)
    cases hq : st.queue.nodes with
    | nil =>
      refine ⟨st, log, ?_, hnd, hall⟩
      simp [bfsLoopLog, Queue.isEmpty, hq]
    | cons c rest =>
      have hnd2 : (log ++ [c] ++ rest).Nodup := by
        rw [hq] at hnd
        simpa using hnd
      by_cases hc : c = t
      · refine ⟨{ st with queue := ⟨rest, st.queue.currentSize - 1⟩ }, log ++ [c], ?_, hnd2, ?_⟩
        · simp [bfsLoopLog, Queue.isEmpty, Queue.dequeue, hq, hc]
        · intro v hv
          apply hall
          rw [hq]
          simpa using hv
      · obtain ⟨d', hinv', hm'⟩ :=
          bfsInv_step g s c rest (st.queue.currentSize - 1) st d hinv hq
        have F := scanRow_facts g c { st with queue := ⟨rest, st.queue.currentSize - 1⟩ }
          hinv.vlen hinv.plen
        have hcv : st.vis c := hinv.queue_vis c (by rw [hq]; exact List.mem_cons_self _ _)
        have hnews : ∀ v ∈ discovered g c { st with queue := ⟨rest, st.queue.currentSize - 1⟩ }
            (List.range g.vertexCount), ¬ st.vis v := fun v hv =>
          ((mem_discovered_range g c _ v).1 hv).2.2
        have hnd3 : (log ++ [c] ++ (scanRow g c
            { st with queue := ⟨rest, st.queue.currentSize - 1⟩ }).queue.nodes).Nodup := by
          rw [F.queue_eq]
          show (log ++ [c] ++ (rest ++ discovered g c _ (List.range g.vertexCount))).Nodup
          rw [← List.append_assoc]
          apply List.Nodup.append hnd2
          · exact (List.nodup_range _).filter _
          · intro v hv1 hv2
            apply hnews v hv2
            have hv3 : v ∈ log ++ st.queue.nodes := by
              rw [hq]
              simpa using hv1
            rcases List.mem_append.1 hv3 with h | h
            · exact hlog v h
            · exact hinv.queue_vis v h
        have hlog3 : ∀ v ∈ log ++ [c], (scanRow g c
            { st with queue := ⟨rest, st.queue.currentSize - 1⟩ }).vis v := by
          intro v hv
          rw [F.vis_iff]
          left
          rcases List.mem_append.1 hv with h | h
          · exact hlog v h
          · rw [List.mem_singleton] at h
            rw [h]
            exact hcv
        obtain ⟨st', log', h1, h2, h3⟩ := ih _ d' (log ++ [c]) hinv' (by omega) hnd3 hlog3
        refine ⟨st', log', ?_, h2, h3⟩
        rw [← h1]
        simp [bfsLoopLog, Queue.isEmpty, Queue.dequeue, hq, hc]

theorem walkBack_depth {g : MatrixGraph} {s : Nat} {st : BFSState} {d : Nat → Nat}
    (hinv : BFSInv g s st d) :
    ∀ k v, st.vis v → d v = k → ∀ fuel acc, k + 2 ≤ fuel →
      ∃ p : List Nat, walkBack st.prev fuel (v : Int) acc =
          some (acc ++ (p.map Int.ofNat).reverse) ∧
        p.length = k + 1 ∧ p.Pairwise (fun a b => d a < d b) ∧ ∀ x ∈ p, d x ≤ k := by
  intro k
  induction k with
  | zero =>
    intro v hv hd fuel acc hf
    have hvs : v = s := by
      by_contra hvs
      obtain ⟨u, _, _, _, h4⟩ := hinv.pred v hv hvs
      omega
    subst hvs
    obtain ⟨f, rfl⟩ : ∃ f, fuel = f + 2 := ⟨fuel - 2, by omega⟩
    refine ⟨[v], ?_, rfl, List.pairwise_singleton _ _, ?_⟩
    · rw [walkBack_push]
      have : st.prev.getD v (-1) = -1 := hinv.start_prv
      rw [this, walkBack_done]
      simp
    · intro x hx
      rw [List.mem_singleton] at hx
      rw [hx, hd]
  | succ k ih =>
    intro v hv hd fuel acc hf
    have hvs : v ≠ s := by
      intro h
      rw [h, hinv.start_dist] at hd
      omega
    obtain ⟨u, h1, h2, h3, h4⟩ := hinv.pred v hv hvs
    obtain ⟨f, rfl⟩ : ∃ f, fuel = f + 1 := ⟨fuel - 1, by omega⟩
    obtain ⟨pu, hw, hlen, hpw, hle⟩ := ih u h2 (by omega) f (acc ++ [(v : Int)]) (by omega)
    refine ⟨pu ++ [v], ?_, by simp [hlen], ?_, ?_⟩
    · rw [walkBack_push]
      have : st.prev.getD v (-1) = (u : Int) := h1
      rw [this, hw]
      simp
    · rw [List.pairwise_append]
      refine ⟨hpw, List.pairwise_singleton _ _, ?_⟩
      intro a ha b hb
      rw [List.mem_singleton] at hb
      rw [hb]
      have := hle a ha
      omega
    · intro x hx
      rcases List.mem_append.1 hx with h | h
      · have := hle x h
        omega
      · rw [List.mem_singleton] at h
        rw [h, hd]

/-- C17: for valid `start` and `goal`, the traversal loop of `getBFSPath` is left after
at most `vertexCount + 1` tests of its condition without `dequeue` having thrown; the
vertices it dequeued followed by those still queued, which are the vertices that were
enqueued, are pairwise different, and at most `vertexCount` were dequeued; the
predecessor walk from `goal` reaches -1 after at most `vertexCount` pushes; so
`getBFSPath` returns, with any larger budget the same result, and the returned path has
at most `vertexCount` elements, all different. -/
theorem getBFSPath_terminates (g : MatrixGraph) (start goal : Int)
    (hr : g.InRange start goal) :
    ∃ (st : BFSState) (dequeued : List Nat) (pushed path : List Int),
      bfsLoopLog g goal.toNat (g.vertexCount + 1) (bfsInit g start.toNat) [] =
        some (Except.ok (st, dequeued)) ∧
      bfsLoop g goal.toNat (g.vertexCount + 1) (bfsInit g start.toNat) =
        some (Except.ok st) ∧
      (dequeued ++ st.queue.nodes).Nodup ∧ dequeued.length ≤ g.vertexCount ∧
      walkBack st.prev (g.vertexCount + 1) goal [] = some pushed ∧
      pushed.length ≤ g.vertexCount ∧
      g.getBFSPath start goal = some (Except.ok path) ∧
      path.length ≤ g.vertexCount ∧ path.Nodup ∧
      ∀ fuel, g.vertexCount + 1 ≤ fuel →
        g.getBFSPathWithin fuel start goal = some (Except.ok path) := by
  have hbad : g.badIndex start goal = false := (badIndex_eq_false_iff g start goal).2 hr
  obtain ⟨hs, ht⟩ := MatrixGraph.InRange.toNat_lt hr
  have hsc : ((start.toNat : Nat) : Int) = start := Int.toNat_of_nonneg hr.1
  have htc : ((goal.toNat : Nat) : Int) = goal := Int.toNat_of_nonneg hr.2.2.1
  have hinit := bfsInit_inv g start.toNat hs
  have hq0 : (bfsInit g start.toNat).queue.nodes = [start.toNat] := rfl
  have hmeasure : (bfsInit g start.toNat).queue.nodes.length +
      (bfsInit g start.toNat).unvisitedCount < g.vertexCount + 1 := by
    have h1 := hinit.bound start.toNat hinit.start_vis
    rw [hq0]
    simp only [List.length_singleton]
    omega
  obtain ⟨st, log, hlog, hnd, hlt⟩ :=
    bfsLoopLog_exit g start.toNat goal.toNat (g.vertexCount + 1) _ _ [] hinit hmeasure
      (by rw [hq0]; simp) (by simp)
  have hloop : bfsLoop g goal.toNat (g.vertexCount + 1) (bfsInit g start.toNat) =
      some (Except.ok st) := by
    rw [← bfsLoopLog_fst g goal.toNat _ _ [], hlog]
    rfl
  obtain ⟨st0, d0, st', hloop', hinv, _, hprev, hexit⟩ :=
    bfsLoop_exit g start.toNat goal.toNat (g.vertexCount + 1) _ _ hinit hmeasure
  have hst : st' = st := by
    rw [hloop] at hloop'
    simpa using hloop'.symm
  rw [hst] at hprev
  have hdeq : log.length ≤ g.vertexCount := by
    have h1 := nodup_lt_length_le _ _ hnd hlt
    rw [List.length_append] at h1
    omega
  have hstable : ∀ (path : List Int), g.getBFSPath start goal = some (Except.ok path) →
      ∀ fuel, g.vertexCount + 1 ≤ fuel →
        g.getBFSPathWithin fuel start goal = some (Except.ok path) := by
    intro path hp fuel hf
    rw [getBFSPathWithin_stable g start goal fuel hf]
    exact hp
  by_cases hv : st0.vis goal.toNat
  · have hb := hinv.bound goal.toNat hv
    obtain ⟨p, hw, hlen, hpw, _⟩ :=
      walkBack_depth hinv (d0 goal.toNat) goal.toNat hv rfl (g.vertexCount + 1) [] (by omega)
    obtain ⟨p2, hw2, hpath2, _⟩ :=
      walkBack_visited hinv (d0 goal.toNat) goal.toNat hv rfl (g.vertexCount + 1) []
        (by omega)
    rw [htc, ← hprev] at hw hw2
    have hget : g.getBFSPath start goal = some (Except.ok (p.map Int.ofNat)) := by
      have hp2 : p2 = p := by
        rw [hw] at hw2
        simp only [List.nil_append, Option.some.injEq, List.reverse_inj] at hw2
        exact (List.map_injective_iff.2 Int.ofNat_injective hw2).symm
      subst hp2
      unfold MatrixGraph.getBFSPath MatrixGraph.getBFSPathWithin
      rw [hbad]
      simp only [Bool.false_eq_true, if_false, hloop, hw, List.nil_append,
        List.reverse_reverse]
      have hhead : (p2.map Int.ofNat).head? = some start := by
        rw [List.head?_map, hpath2.1]
        simp [hsc]
      have hne : (p2.map Int.ofNat).isEmpty = false := by
        cases p2 with
        | nil => simp at hlen
        | cons a l => rfl
      simp [hhead, hne]
    refine ⟨st, log, ([] ++ (p.map Int.ofNat).reverse), p.map Int.ofNat, hlog, hloop, hnd,
      hdeq, hw, ?_, hget, ?_, ?_, hstable _ hget⟩
    · simp only [List.nil_append, List.length_reverse, List.length_map]
      omega
    · rw [List.length_map]
      omega
    · apply List.Nodup.map Int.ofNat_injective
      exact hpw.imp (fun h => by
        intro heq
        rw [heq] at h
        exact lt_irrefl _ h)
  · have hts : goal ≠ start := by
      intro h
      apply hv
      rw [h]
      exact hinv.start_vis
    have hn : 1 ≤ g.vertexCount := by omega
    obtain ⟨f, hf⟩ : ∃ f, g.vertexCount + 1 = f + 2 := ⟨g.vertexCount - 1, by omega⟩
    have hw : walkBack st.prev (g.vertexCount + 1) goal [] = some [goal] := by
      rw [hf, ← htc, walkBack_push, hprev]
      have : st0.prev.getD goal.toNat (-1) = -1 := hinv.unvis_prv goal.toNat hv
      rw [this, walkBack_done]
      rfl
    have hget : g.getBFSPath start goal = some (Except.ok []) := by
      unfold MatrixGraph.getBFSPath MatrixGraph.getBFSPathWithin
      rw [hbad]
      simp only [Bool.false_eq_true, if_false, hloop, hw]
      simp [hts]
    refine ⟨st, log, [goal], [], hlog, hloop, hnd, hdeq, hw, by simpa using hn, hget,
      by simp, List.nodup_nil, hstable _ hget⟩

/-- C17 (instance): from 0 to 3 on the directed chain `0 → 1 → 2 → 3`. -/
theorem getBFSPath_terminates_witness :
    chain4.InRange 0 3 ∧
    ∃ (st : BFSState) (dequeued : List Nat) (pushed path : List Int),
      bfsLoopLog chain4 (3 : Int).toNat (chain4.vertexCount + 1)
        (bfsInit chain4 (0 : Int).toNat) [] = some (Except.ok (st, dequeued)) ∧
      bfsLoop chain4 (3 : Int).toNat (chain4.vertexCount + 1)
        (bfsInit chain4 (0 : Int).toNat) = some (Except.ok st) ∧
      (dequeued ++ st.queue.nodes).Nodup ∧ dequeued.length ≤ chain4.vertexCount ∧
      walkBack st.prev (chain4.vertexCount + 1) 3 [] = some pushed ∧
      pushed.length ≤ chain4.vertexCount ∧
      chain4.getBFSPath 0 3 = some (Except.ok path) ∧
      path.length ≤ chain4.vertexCount ∧ path.Nodup ∧
      ∀ fuel, chain4.vertexCount + 1 ≤ fuel →
        chain4.getBFSPathWithin fuel 0 3 = some (Except.ok path) :=
  ⟨by decide, getBFSPath_terminates chain4 0 3 (by decide)⟩

theorem lexLE_refl (p : List Nat) : lexLE p p := by
  induction p with
  | nil => trivial
  | cons a p ih => exact Or.inr ⟨rfl, ih⟩

theorem lexLE_trans : ∀ (p q r : List Nat), lexLE p q → lexLE q r → lexLE p r := by
  intro p
  induction p with
  | nil => intro q r _ _; trivial
  | cons a p ih =>
    intro q r h1 h2
    cases q with
    | nil => exact absurd h1 (by simp [lexLE])
    | cons b q =>
      cases r with
      | nil => exact absurd h2 (by simp [lexLE])
      | cons c r =>
        simp only [lexLE] at h1 h2 ⊢
        rcases h1 with h1 | ⟨h1, h1'⟩
        · rcases h2 with h2 | ⟨h2, _⟩
          · left; omega
          · left; omega
        · rcases h2 with h2 | ⟨h2, h2'⟩
          · left; omega
          · right
            exact ⟨by omega, ih q r h1' h2'⟩

theorem lexLE_snoc : ∀ (p q : List Nat) (a b : Nat), p.length = q.length → lexLE p q →
    (p = q → a ≤ b) → lexLE (p ++ [a]) (q ++ [b]) := by
  intro p
  induction p with
  | nil =>
    intro q a b hlen _ hab
    cases q with
    | nil =>
      show a < b ∨ (a = b ∧ lexLE ([] : List Nat) [])
      rcases Nat.lt_or_eq_of_le (hab rfl) with h | h
      · exact Or.inl h
      · exact Or.inr ⟨h, trivial⟩
    | cons c q => simp at hlen
  | cons x p ih =>
    intro q a b hlen hle hab
    cases q with
    | nil => simp at hlen
    | cons y q =>
      simp only [List.cons_append, lexLE] at hle ⊢
      rcases hle with h | ⟨h1, h2⟩
      · exact Or.inl h
      · right
        refine ⟨h1, ih q a b (by simpa using hlen) h2 ?_⟩
        intro hpq
        exact hab (by rw [h1, hpq])

theorem lexLE_map_ofNat : ∀ (p q : List Nat), lexLE p q →
    lexLE (p.map Int.ofNat) (q.map Int.ofNat) := by
  intro p
  induction p with
  | nil => intro q _; trivial
  | cons a p ih =>
    intro q h
    cases q with
    | nil => exact absurd h (by simp [lexLE])
    | cons b q =>
      simp only [List.map_cons, lexLE] at h ⊢
      rcases h with h | ⟨h1, h2⟩
      · left
        exact Int.ofNat_lt.2 h
      · right
        exact ⟨by rw [h1], ih q h2⟩

theorem BFSInv.congr {g : MatrixGraph} {s : Nat} {st : BFSState} {d d' : Nat → Nat}
    (h : BFSInv g s st d) (heq : ∀ v, st.vis v → d' v = d v) : BFSInv g s st d' := by
  refine ⟨h.vlen, h.plen, h.start_vis, ?_, h.start_prv, ?_, h.unvis_prv, h.queue_vis,
    h.queue_nodup, ?_, ?_, ?_, ?_⟩
  · rw [heq s h.start_vis]
    exact h.start_dist
  · intro v hv hne
    obtain ⟨u, h1, h2, h3, h4⟩ := h.pred v hv hne
    exact ⟨u, h1, h2, h3, by rw [heq v hv, heq u h2]; exact h4⟩
  · apply List.Pairwise.imp_of_mem _ h.queue_sorted
    intro a b ha hb hab
    rw [heq a (h.queue_vis a ha), heq b (h.queue_vis b hb)]
    exact hab
  · intro v hv x hx
    rw [heq v hv, heq x (h.queue_vis x (List.mem_of_mem_head? hx))]
    exact h.near v hv x hx
  · intro x hx hxq w hw
    obtain ⟨h1, h2⟩ := h.closed x hx hxq w hw
    exact ⟨h1, by rw [heq w h1, heq x hx]; exact h2⟩
  · intro v hv
    rw [heq v hv]
    exact h.bound v hv

theorem BFSInv.unique {g : MatrixGraph} {s : Nat} {st : BFSState} {d d' : Nat → Nat}
    (h : BFSInv g s st d) (h0 : d' s = 0)
    (hrec : ∀ v, st.vis v → v ≠ s → ∀ u : Nat, st.prv v = (u : Int) → d' v = d' u + 1) :
    ∀ k v, st.vis v → d v = k → d' v = d v := by
  intro k
  induction k with
  | zero =>
    intro v hv hd
    by_cases hvs : v = s
    · rw [hvs, h0, h.start_dist]
    · obtain ⟨u, _, _, _, h4⟩ := h.pred v hv hvs
      omega
  | succ k ih =>
    intro v hv hd
    have hvs : v ≠ s := by
      intro hh
      rw [hh, h.start_dist] at hd
      omega
    obtain ⟨u, h1, h2, _, h4⟩ := h.pred v hv hvs
    rw [hrec v hv hvs u h1, ih u h2 (by omega), h4]

theorem LexInv.path_last {g : MatrixGraph} {s : Nat} {st : BFSState} {P : Nat → List Nat}
    (h : LexInv g s st P) {v : Nat} (hv : st.vis v) : (P v).getLast? = some v := by
  by_cases hvs : v = s
  · rw [hvs, h.start_path]
    rfl
  · obtain ⟨u, _, _, _, h4⟩ := h.pred_path v hv hvs
    rw [h4]
    simp

theorem LexInv.path_pos {g : MatrixGraph} {s : Nat} {st : BFSState} {P : Nat → List Nat}
    (h : LexInv g s st P) {v : Nat} (hv : st.vis v) : 0 < (P v).length := by
  have := h.path_last hv
  cases hp : P v with
  | nil => rw [hp] at this; simp at this
  | cons a l => simp

theorem walk_vis_of_le {g : MatrixGraph} {s : Nat} {st : BFSState} {d : Nat → Nat}
    (hinv : BFSInv g s st d) (D : Nat) (hD : ∀ y ∈ st.queue.nodes, D ≤ d y) :
    ∀ x k, g.Walk s x k → k ≤ D → st.vis x ∧ d x ≤ k := by
  intro x k hw
  induction hw with
  | nil =>
    intro _
    exact ⟨hinv.start_vis, by rw [hinv.start_dist]⟩
  | @snoc y w k _ he ih =>
    intro hk
    obtain ⟨hy, hdy⟩ := ih (by omega)
    have hyq : y ∉ st.queue.nodes := by
      intro hq
      have := hD y hq
      omega
    obtain ⟨h1, h2⟩ := hinv.closed y hy hyq w he
    exact ⟨h1, by omega⟩

theorem walk_of_chain_nat {g : MatrixGraph} {s t : Nat} {p : List Nat}
    (h1 : p.head? = some s) (h2 : p.getLast? = some t) (h3 : List.Chain' g.Edge p) :
    g.Walk s t (p.length - 1) := by
  have hc : List.Chain' g.Adj (p.map Int.ofNat) := by
    rw [List.chain'_map]
    exact List.Chain'.imp (fun _ _ he => adj_of_edge he) h3
  have := walk_of_chain g (t : Int) (p.map Int.ofNat) (s : Int)
    (by rw [List.head?_map, h1]; rfl) (by rw [List.getLast?_map, h2]; rfl) hc
  simpa using this

theorem lexInit (g : MatrixGraph) (s : Nat) (hs : s < g.vertexCount) :
    LexInv g s (bfsInit g s) (fun _ => [s]) := by
  have hbase := bfsInit_inv g s hs
  have hq : (bfsInit g s).queue.nodes = [s] := rfl
  have hvis : ∀ v, (bfsInit g s).vis v → v = s := by
    intro v hv
    by_contra hne
    obtain ⟨u, _, _, _, h4⟩ := hbase.pred v hv hne
    omega
  refine ⟨hbase, rfl, ?_, ?_, ?_, ?_⟩
  · intro v hv hne
    exact absurd (hvis v hv) hne
  · rw [hq]
    exact List.pairwise_singleton _ _
  · intro a ha hna
    rw [hq, hvis a ha] at hna
    simp at hna
  · intro v hv Q h1 h2 h3 h4
    have hQ : Q = [s] := by
      cases Q with
      | nil => simp at h1
      | cons a l =>
        simp only [List.head?_cons, Option.some.injEq] at h1
        cases l with
        | nil => rw [h1]
        | cons b l => simp at h4
    rw [hQ]
    exact lexLE_refl _

theorem lexInv_step (g : MatrixGraph) (s c : Nat) (rest : List Nat) (sz : Nat)
    (st : BFSState) (P : Nat → List Nat) (hinv : LexInv g s st P)
    (hq : st.queue.nodes = c :: rest) :
    ∃ P', LexInv g s (scanRow g c { st with queue := ⟨rest, sz⟩ }) P' := by
  have base := hinv.inv
  obtain ⟨d', hinv', _⟩ := bfsInv_step g s c rest sz st _ base hq
  set stp : BFSState := { st with queue := ⟨rest, sz⟩ } with hstp
  have F := scanRow_facts g c stp base.vlen base.plen
  set st2 := scanRow g c stp with hst2
  set news := discovered g c stp (List.range g.vertexCount) with hnewsdef
  have hnews : ∀ v, v ∈ news ↔ v < g.vertexCount ∧ g.cell c v ≠ Float32.zero ∧ ¬ st.vis v :=
    fun v => mem_discovered_range g c stp v
  have hvis2 : ∀ v, st2.vis v ↔ st.vis v ∨ v ∈ news := F.vis_iff
  have hprv2 : ∀ v, st2.prv v = if v ∈ news then (c : Int) else st.prv v := F.prv_eq
  have hq2 : st2.queue.nodes = rest ++ news := F.queue_eq
  have hlt : ∀ v, st.vis v → v < g.vertexCount := fun v hv => by
    have := vis_lt_length hv
    rw [base.vlen] at this
    exact this
  have hcq : c ∈ st.queue.nodes := by rw [hq]; exact List.mem_cons_self _ _
  have hcvis : st.vis c := base.queue_vis c hcq
  have hold : ∀ v, st.vis v → v ∉ news := fun v hv hm => ((hnews v).1 hm).2.2 hv
  have hrestvis : ∀ v ∈ rest, st.vis v := fun v hv =>
    base.queue_vis v (by rw [hq]; exact List.mem_cons_of_mem _ hv)
  have hnd := base.queue_nodup
  rw [hq, List.nodup_cons] at hnd
  have hsorted := base.queue_sorted
  rw [hq, List.pairwise_cons] at hsorted
  have hqlex := hinv.queue_lex
  rw [hq, List.pairwise_cons] at hqlex
  have hpos : ∀ v, st.vis v → 0 < (P v).length := fun v hv => hinv.path_pos hv
  have hlenc : ∀ v ∈ rest, (P c).length ≤ (P v).length := by
    intro v hv
    have h1 := hsorted.1 v hv
    have h2 := hpos v (hrestvis v hv)
    have h3 := hpos c hcvis
    simp only at h1
    omega
  have hnewslt : news.Pairwise (fun a b => a < b) :=
    (List.pairwise_lt_range g.vertexCount).filter _
  refine ⟨fun v => if v ∈ news then P c ++ [v] else P v, ?_⟩
  have hPold : ∀ v, st.vis v → (if v ∈ news then P c ++ [v] else P v) = P v := fun v hv => by
    rw [if_neg (hold v hv)]
  have hPnew : ∀ v, v ∈ news → (if v ∈ news then P c ++ [v] else P v) = P c ++ [v] :=
    fun v hv => by rw [if_pos hv]
  have hpred2 : ∀ v, st2.vis v → v ≠ s →
      ∃ u : Nat, st2.prv v = (u : Int) ∧ st2.vis u ∧ u ∉ st2.queue.nodes ∧
        (if v ∈ news then P c ++ [v] else P v) =
          (if u ∈ news then P c ++ [u] else P u) ++ [v] := by
    intro v hv hne
    by_cases hm : v ∈ news
    · refine ⟨c, by rw [hprv2, if_pos hm], (hvis2 c).2 (Or.inl hcvis), ?_, ?_⟩
      · rw [hq2, List.mem_append]
        exact fun h => h.elim hnd.1 (hold c hcvis)
      · rw [hPnew v hm, hPold c hcvis]
    · have hvo : st.vis v := ((hvis2 v).1 hv).resolve_right hm
      obtain ⟨u, hu1, hu2, hu3, hu4⟩ := hinv.pred_path v hvo hne
      refine ⟨u, by rw [hprv2, if_neg hm]; exact hu1, (hvis2 u).2 (Or.inl hu2), ?_, ?_⟩
      · rw [hq2, List.mem_append]
        rw [hq] at hu3
        exact fun h => h.elim (fun h1 => hu3 (List.mem_cons_of_mem _ h1)) (hold u hu2)
      · rw [hPold v hvo, hPold u hu2]
        exact hu4
  have hpos2 : ∀ v, st2.vis v → 0 < (if v ∈ news then P c ++ [v] else P v).length := by
    intro v hv
    by_cases hm : v ∈ news
    · rw [hPnew v hm]
      simp
    · rw [if_neg hm]
      exact hpos v (((hvis2 v).1 hv).resolve_right hm)
  have inv2 : BFSInv g s st2 (fun v => (if v ∈ news then P c ++ [v] else P v).length - 1) := by
    apply hinv'.congr
    intro v hv
    refine @BFSInv.unique g s st2 d'
      (fun v => (if v ∈ news then P c ++ [v] else P v).length - 1) hinv' ?_ ?_ (d' v) v hv rfl
    · show (if s ∈ news then P c ++ [s] else P s).length - 1 = 0
      rw [hPold s base.start_vis, hinv.start_path]
      rfl
    · intro x hx hxs u hu
      obtain ⟨u', h1, h2, _, h4⟩ := hpred2 x hx hxs
      have huu : u' = u := by
        rw [h1] at hu
        exact Int.ofNat_inj.1 hu
      subst huu
      show (if x ∈ news then P c ++ [x] else P x).length - 1 =
        (if u' ∈ news then P c ++ [u'] else P u').length - 1 + 1
      rw [h4, List.length_append, List.length_singleton]
      have := hpos2 u' h2
      omega
  refine ⟨inv2, ?_, hpred2, ?_, ?_, ?_⟩
  · show (if s ∈ news then P c ++ [s] else P s) = [s]
    rw [hPold s base.start_vis]
    exact hinv.start_path
  · rw [hq2, List.pairwise_append]
    refine ⟨?_, ?_, ?_⟩
    · apply List.Pairwise.imp_of_mem _ hqlex.2
      intro a b ha hb hab
      show (if a ∈ news then P c ++ [a] else P a).length =
          (if b ∈ news then P c ++ [b] else P b).length →
        lexLE (if a ∈ news then P c ++ [a] else P a) (if b ∈ news then P c ++ [b] else P b)
      rw [hPold a (hrestvis a ha), hPold b (hrestvis b hb)]
      exact hab
    · apply List.Pairwise.imp_of_mem _ hnewslt
      intro a b ha hb hab _
      show lexLE (if a ∈ news then P c ++ [a] else P a) (if b ∈ news then P c ++ [b] else P b)
      rw [hPnew a ha, hPnew b hb]
      exact lexLE_snoc _ _ a b rfl (lexLE_refl _) (fun _ => Nat.le_of_lt hab)
    · intro a ha b hb
      show (if a ∈ news then P c ++ [a] else P a).length =
          (if b ∈ news then P c ++ [b] else P b).length →
        lexLE (if a ∈ news then P c ++ [a] else P a) (if b ∈ news then P c ++ [b] else P b)
      rw [hPold a (hrestvis a ha), hPnew b hb]
      intro hlen
      rw [List.length_append, List.length_singleton] at hlen
      have hav := hrestvis a ha
      have has : a ≠ s := by
        intro h
        rw [h, hinv.start_path] at hlen
        have := hpos c hcvis
        simp only [List.length_singleton] at hlen
        omega
      obtain ⟨u, _, hu2, hu3, hu4⟩ := hinv.pred_path a hav has
      have hulen : (P u).length = (P c).length := by
        rw [hu4, List.length_append, List.length_singleton] at hlen
        omega
      have hule := (hinv.done_lex u hu2 hu3 c hcq).2 hulen
      rw [hu4]
      apply lexLE_snoc _ _ a b hulen hule
      intro hPeq
      exfalso
      have h1 := hinv.path_last hu2
      have h2 := hinv.path_last hcvis
      rw [hPeq, h2] at h1
      have : c = u := by simpa using h1
      exact hu3 (this ▸ hcq)
  · intro a ha haq b hb
    show (if a ∈ news then P c ++ [a] else P a).length ≤
        (if b ∈ news then P c ++ [b] else P b).length ∧
      ((if a ∈ news then P c ++ [a] else P a).length =
          (if b ∈ news then P c ++ [b] else P b).length →
        lexLE (if a ∈ news then P c ++ [a] else P a) (if b ∈ news then P c ++ [b] else P b))
    rw [hq2, List.mem_append] at haq hb
    have han : a ∉ news := fun h => haq (Or.inr h)
    have har : a ∉ rest := fun h => haq (Or.inl h)
    have hao : st.vis a := ((hvis2 a).1 ha).resolve_right han
    rw [hPold a hao]
    have halec : (P a).length ≤ (P c).length ∧
        ((P a).length = (P c).length → lexLE (P a) (P c)) := by
      by_cases hac : a = c
      · rw [hac]
        exact ⟨le_refl _, fun _ => lexLE_refl _⟩
      · have haq0 : a ∉ st.queue.nodes := by
          rw [hq, List.mem_cons]
          exact fun h => h.elim hac har
        exact hinv.done_lex a hao haq0 c hcq
    rcases hb with hb | hb
    · rw [hPold b (hrestvis b hb)]
      by_cases hac : a = c
      · rw [hac]
        exact ⟨hlenc b hb, hqlex.1 b hb⟩
      · have haq0 : a ∉ st.queue.nodes := by
          rw [hq, List.mem_cons]
          exact fun h => h.elim hac har
        exact hinv.done_lex a hao haq0 b (by rw [hq]; exact List.mem_cons_of_mem _ hb)
    · rw [hPnew b hb, List.length_append, List.length_singleton]
      constructor
      · omega
      · intro h
        omega
  · intro v hv Q h1 h2 h3 h4
    show lexLE (if v ∈ news then P c ++ [v] else P v) Q
    by_cases hm : v ∈ news
    · rw [hPnew v hm]
      rw [hPnew v hm, List.length_append, List.length_singleton] at h4
      have hcpos := hpos c hcvis
      rcases List.eq_nil_or_concat Q with hnil | ⟨L, b, hL⟩
      · rw [hnil] at h4
        simp only [List.length_nil] at h4
        omega
      · rw [List.concat_eq_append] at hL
        subst hL
        have hb : b = v := by simpa using h2
        subst hb
        have hLlen : L.length = (P c).length := by
          simp only [List.length_append, List.length_singleton] at h4
          omega
        have hLne : L ≠ [] := by
          intro h
          rw [h] at hLlen
          simp at hLlen
          omega
        have hLhead : L.head? = some s := by
          cases L with
          | nil => exact absurd rfl hLne
          | cons a l => simpa using h1
        rw [List.chain'_append] at h3
        obtain ⟨x, hx⟩ : ∃ x, L.getLast? = some x := by
          cases hgl : L.getLast? with
          | none => exact absurd (List.getLast?_eq_none_iff.1 hgl) hLne
          | some x => exact ⟨x, rfl⟩
        have hedge : g.Edge x b := h3.2.2 x hx b rfl
        have hwalk := walk_of_chain_nat hLhead hx h3.1
        have hD : ∀ y ∈ st.queue.nodes, (P c).length - 1 ≤ (P y).length - 1 := by
          intro y hy
          rw [hq, List.mem_cons] at hy
          rcases hy with hy | hy
          · rw [hy]
          · have := hlenc y hy
            omega
        obtain ⟨hxv, hxd⟩ := walk_vis_of_le base ((P c).length - 1) hD x _ hwalk
          (by rw [hLlen])
        have hxq : x ∈ st.queue.nodes := by
          by_contra hxq
          exact ((hnews b).1 hm).2.2 (base.closed x hxv hxq b hedge).1
        have hxlen : (P x).length = (P c).length := by
          have h5 := hD x hxq
          have h6 := hpos x hxv
          omega
        have hcx : lexLE (P c) (P x) := by
          rw [hq, List.mem_cons] at hxq
          rcases hxq with hxq | hxq
          · rw [hxq]
            exact lexLE_refl _
          · exact hqlex.1 x hxq hxlen.symm
        have hxL : lexLE (P x) L := hinv.minimal x hxv L hLhead hx h3.1 (by omega)
        exact lexLE_snoc _ _ b b hLlen.symm (lexLE_trans _ _ _ hcx hxL) (fun _ => le_refl _)
    · rw [if_neg hm] at h4 ⊢
      exact hinv.minimal v (((hvis2 v).1 hv).resolve_right hm) Q h1 h2 h3 h4

theorem bfsLoop_exit_lex (g : MatrixGraph) (s t : Nat) :
    ∀ (fuel : Nat) (st : BFSState) (P : Nat → List Nat), LexInv g s st P →
      st.queue.nodes.length + st.unvisitedCount < fuel →
      ∃ st0 P0 st', bfsLoop g t fuel st = some (Except.ok st') ∧ LexInv g s st0 P0 ∧
        st'.prev = st0.prev ∧
        (st0.queue.nodes = [] ∨ st0.queue.nodes.head? = some t) := by
  intro fuel
  induction fuel with
  | zero =>
    intro st P _ h
    omega
  | succ fuel ih =>
    intro st P hinv hm
    cases hq : st.queue.nodes with
    | nil =>
      refine ⟨st, P, st, ?_, hinv, rfl, Or.inl hq⟩
      simp [bfsLoop, Queue.isEmpty, hq]
    | cons c rest =>
      by_cases hc : c = t
      · refine ⟨st, P, { st with queue := ⟨rest, st.queue.currentSize - 1⟩ }, ?_, hinv, rfl,
          Or.inr (by rw [hq, hc]; rfl)⟩
        simp [bfsLoop, Queue.isEmpty, Queue.dequeue, hq, hc]
      · obtain ⟨_, _, hm'⟩ :=
          bfsInv_step g s c rest (st.queue.currentSize - 1) st _ hinv.inv hq
        obtain ⟨P', hinv'⟩ := lexInv_step g s c rest (st.queue.currentSize - 1) st P hinv hq
        obtain ⟨st0, P0, st', h1, h2, h3, h4⟩ := ih _ P' hinv' (by omega)
        refine ⟨st0, P0, st', ?_, h2, h3, h4⟩
        rw [← h1]
        simp [bfsLoop, Queue.isEmpty, Queue.dequeue, hq, hc]

theorem walkBack_eq {g : MatrixGraph} {s : Nat} {st : BFSState} {P : Nat → List Nat}
    (hinv : LexInv g s st P) :
    ∀ k v, st.vis v → (P v).length = k + 1 → ∀ fuel acc, k + 2 ≤ fuel →
      walkBack st.prev fuel (v : Int) acc = some (acc ++ ((P v).map Int.ofNat).reverse) := by
  intro k
  induction k with
  | zero =>
    intro v hv hlen fuel acc hf
    have hvs : v = s := by
      by_contra hvs
      obtain ⟨u, _, h2, _, h4⟩ := hinv.pred_path v hv hvs
      rw [h4, List.length_append, List.length_singleton] at hlen
      have := hinv.path_pos h2
      omega
    subst hvs
    obtain ⟨f, rfl⟩ : ∃ f, fuel = f + 2 := ⟨fuel - 2, by omega⟩
    rw [walkBack_push]
    have : st.prev.getD v (-1) = -1 := hinv.inv.start_prv
    rw [this, walkBack_done, hinv.start_path]
    rfl
  | succ k ih =>
    intro v hv hlen fuel acc hf
    have hvs : v ≠ s := by
      intro h
      rw [h, hinv.start_path] at hlen
      simp at hlen
    obtain ⟨u, h1, h2, _, h4⟩ := hinv.pred_path v hv hvs
    obtain ⟨f, rfl⟩ : ∃ f, fuel = f + 1 := ⟨fuel - 1, by omega⟩
    have hulen : (P u).length = k + 1 := by
      rw [h4, List.length_append, List.length_singleton] at hlen
      omega
    rw [walkBack_push]
    have : st.prev.getD v (-1) = (u : Int) := h1
    rw [this, ih u h2 hulen f _ (by omega), h4]
    simp

theorem chain_nonneg (g : MatrixGraph) :
    ∀ (q : List Int) (a : Int), q.head? = some a → 0 ≤ a → List.Chain' g.Adj q →
      ∀ x ∈ q, 0 ≤ x := by
  intro q
  induction q with
  | nil =>
    intro a h
    simp at h
  | cons b q ih =>
    intro a hh ha hc x hx
    simp only [List.head?_cons, Option.some.injEq] at hh
    subst hh
    rcases List.mem_cons.1 hx with h | h
    · rw [h]
      exact ha
    · cases q with
      | nil => simp at h
      | cons c r =>
        rw [List.chain'_cons] at hc
        have hc0 : 0 ≤ c := ((adj_iff g b c).1 hc.1).1.2.2.1
        exact ih c rfl hc0 hc.2 x h

theorem map_toNat_ofNat (q : List Int) (h : ∀ x ∈ q, 0 ≤ x) :
    (q.map Int.toNat).map Int.ofNat = q := by
  rw [List.map_map]
  conv_rhs => rw [← List.map_id q]
  apply List.map_congr_left
  intro x hx
  simp only [Function.comp, id]
  exact Int.toNat_of_nonneg (h x hx)

/-- C18: for valid `start` and `goal` with `goal` reachable, the path returned by
`getBFSPath` is a sequence from `start` to `goal` with consecutive vertices adjacent,
and it is before or equal to, position by position, every such sequence that is not
longer (every minimum-hop path). -/
theorem getBFSPath_lex_least (g : MatrixGraph) (start goal : Int)
    (hr : g.InRange start goal) (hreach : g.Reaches start goal) :
    ∃ path, g.getBFSPath start goal = some (Except.ok path) ∧
      path.head? = some start ∧ path.getLast? = some goal ∧
      List.Chain' (fun a b => g.adjacent a b = Except.ok true) path ∧
      ∀ q : List Int, q.head? = some start → q.getLast? = some goal →
        List.Chain' (fun a b => g.adjacent a b = Except.ok true) q →
        q.length ≤ path.length → lexLE path q := by
  have hbad : g.badIndex start goal = false := (badIndex_eq_false_iff g start goal).2 hr
  obtain ⟨hs, ht⟩ := MatrixGraph.InRange.toNat_lt hr
  have hsc : ((start.toNat : Nat) : Int) = start := Int.toNat_of_nonneg hr.1
  have htc : ((goal.toNat : Nat) : Int) = goal := Int.toNat_of_nonneg hr.2.2.1
  have hinit := lexInit g start.toNat hs
  have hmeasure : (bfsInit g start.toNat).queue.nodes.length +
      (bfsInit g start.toNat).unvisitedCount < g.vertexCount + 1 := by
    have h1 := hinit.inv.bound start.toNat hinit.inv.start_vis
    have h2 : (bfsInit g start.toNat).queue.nodes.length = 1 := rfl
    simp only at h1
    omega
  obtain ⟨st0, P0, st', hloop, hinv, hprev, hexit⟩ :=
    bfsLoop_exit_lex g start.toNat goal.toNat (g.vertexCount + 1) _ _ hinit hmeasure
  obtain ⟨k, hk⟩ := walk_of_reaches hreach
  have hv : st0.vis goal.toNat := (bfs_final hinv.inv hexit k hk).1
  have hpos := hinv.path_pos hv
  have hb := hinv.inv.bound goal.toNat hv
  simp only at hb
  have hw := walkBack_eq hinv ((P0 goal.toNat).length - 1) goal.toNat hv (by omega)
    (g.vertexCount + 1) [] (by omega)
  rw [htc, ← hprev] at hw
  obtain ⟨path, h1, h2⟩ := getBFSPath_spec g start goal hr
  rcases h2 with ⟨_, hh, hl, _, hc, hmin⟩ | ⟨hn, _⟩
  · have hpath : path = (P0 goal.toNat).map Int.ofNat := by
      have h3 := h1
      unfold MatrixGraph.getBFSPath MatrixGraph.getBFSPathWithin at h3
      rw [hbad] at h3
      simp only [Bool.false_eq_true, if_false, hloop, hw, List.nil_append,
        List.reverse_reverse] at h3
      split at h3
      · simpa using h3.symm
      · rename_i hcond
        have : path = [] := by simpa using h3.symm
        rw [this] at hh
        simp at hh
    refine ⟨path, h1, hh, hl, hc, ?_⟩
    intro q hq1 hq2 hq3 hq4
    have hqlen : q.length = path.length := le_antisymm hq4 (hmin q hq1 hq2 hq3)
    have hq0 := chain_nonneg g q start hq1 hr.1 hq3
    have hqmap := map_toNat_ofNat q hq0
    have hQc : List.Chain' g.Edge (q.map Int.toNat) := by
      rw [List.chain'_map]
      exact List.Chain'.imp (fun _ _ h => edge_of_adj h) hq3
    have hle := hinv.minimal goal.toNat hv (q.map Int.toNat)
      (by rw [List.head?_map, hq1]; rfl) (by rw [List.getLast?_map, hq2]; rfl) hQc
      (by rw [List.length_map, hqlen, hpath, List.length_map])
    have := lexLE_map_ofNat _ _ hle
    rw [hqmap, ← hpath] at this
    exact this
  · exact absurd hreach hn

/-- C18 (instance): on the graph with the edges `0 → 1`, `0 → 2`, `1 → 3` and `2 → 3`
the path from 0 to 3 is `[0, 1, 3]`, which is before `[0, 2, 3]`. -/
theorem getBFSPath_lex_least_witness :
    diamond.InRange 0 3 ∧ diamond.Reaches 0 3 ∧
    diamond.getBFSPath 0 3 = some (Except.ok [0, 1, 3]) ∧
    ∃ path, diamond.getBFSPath 0 3 = some (Except.ok path) ∧
      path.head? = some 0 ∧ path.getLast? = some 3 ∧
      List.Chain' (fun a b => diamond.adjacent a b = Except.ok true) path ∧
      ∀ q : List Int, q.head? = some 0 → q.getLast? = some 3 →
        List.Chain' (fun a b => diamond.adjacent a b = Except.ok true) q →
        q.length ≤ path.length → lexLE path q :=
  have hreach : diamond.Reaches 0 3 :=
    Relation.ReflTransGen.tail
      (Relation.ReflTransGen.tail Relation.ReflTransGen.refl (show diamond.Adj 0 2 by decide))
      (show diamond.Adj 2 3 by decide)
  ⟨by decide, hreach, by decide, getBFSPath_lex_least diamond 0 3 (by decide) hreach⟩

theorem adjacent_nat {g : MatrixGraph} {i j : Nat} (hi : i < g.vertexCount)
    (hj : j < g.vertexCount) :
    g.adjacent (i : Int) (j : Int) = Except.ok (decide (g.cell i j ≠ Float32.zero)) := by
  have hr : g.InRange (i : Int) (j : Int) := by
    unfold MatrixGraph.InRange
    omega
  rw [adjacent_ok hr]
  simp

theorem getEdgeWeight_nat {g : MatrixGraph} {i j : Nat} (hi : i < g.vertexCount)
    (hj : j < g.vertexCount) (h : g.cell i j ≠ Float32.zero) :
    g.getEdgeWeight (i : Int) (j : Int) = Except.ok (g.cell i j) := by
  have hr : g.InRange (i : Int) (j : Int) := by
    unfold MatrixGraph.InRange
    omega
  rw [getEdgeWeight_ok hr]
  simp [h]

theorem writeLines_eq (g : MatrixGraph) :
    ∀ L : List (Nat × Nat), (∀ p ∈ L, p.1 < g.vertexCount ∧ p.2 < g.vertexCount) →
      writeLines g L = Except.ok (L.filterMap (lineOf g)) := by
  intro L
  induction L with
  | nil => intro _; rfl
  | cons p L ih =>
    intro h
    obtain ⟨i, j⟩ := p
    have hij := h (i, j) (List.mem_cons_self _ _)
    have ih2 := ih (fun p hp => h p (List.mem_cons_of_mem _ hp))
    by_cases hz : g.cell i j ≠ Float32.zero
    · simp [writeLines, adjacent_nat hij.1 hij.2, getEdgeWeight_nat hij.1 hij.2 hz, ih2,
        lineOf, hz]
    · simp [writeLines, adjacent_nat hij.1 hij.2, ih2, lineOf, hz]

theorem wrapInt32_eq {x : Int} (h1 : -2147483648 ≤ x) (h2 : x ≤ 2147483647) :
    wrapInt32 x = x := by
  unfold wrapInt32
  omega

theorem readInt_eq {x : Int} (h1 : -2147483648 ≤ x) (h2 : x ≤ 2147483647) :
    readInt x = (x, false) := by
  unfold readInt
  rw [if_neg (by omega), if_neg (by omega)]

theorem countEdges_eq (g : MatrixGraph) :
    ∀ (L : List (Nat × Nat)) (k : Int),
      (∀ p ∈ L, p.1 < g.vertexCount ∧ p.2 < g.vertexCount) →
      -2147483648 ≤ k → k + ((L.filterMap (lineOf g)).length : Int) ≤ 2147483647 →
      countEdges g L k = Except.ok (k + ((L.filterMap (lineOf g)).length : Int)) := by
  intro L
  induction L with
  | nil =>
    intro k _ _ _
    simp [countEdges]
  | cons p L ih =>
    intro k h hk1 hk2
    obtain ⟨i, j⟩ := p
    have hij := h (i, j) (List.mem_cons_self _ _)
    have ih2 := fun k => ih k (fun p hp => h p (List.mem_cons_of_mem _ hp))
    by_cases hz : g.cell i j ≠ Float32.zero
    · have hl : (i, j) :: L = [(i, j)] ++ L := rfl
      have hf : ((i, j) :: L).filterMap (lineOf g) =
          ⟨(i : Int) + 1, (j : Int) + 1, writeWeight (g.cell i j)⟩ :: L.filterMap (lineOf g) := by
        simp [List.filterMap_cons, lineOf, hz]
      rw [hf] at hk2 ⊢
      rw [List.length_cons] at hk2 ⊢
      push_cast at hk2 ⊢
      have hw : wrapInt32 (k + 1) = k + 1 := wrapInt32_eq (by omega) (by omega)
      have hdec : decide (g.cell i j ≠ Float32.zero) = true := by simp [hz]
      simp only [countEdges, adjacent_nat hij.1 hij.2, hdec, hw]
      rw [ih2 (k + 1) (by omega) (by omega)]
      congr 1
      omega
    · have hf : ((i, j) :: L).filterMap (lineOf g) = L.filterMap (lineOf g) := by
        simp [List.filterMap_cons, lineOf, hz]
      rw [hf] at hk2 ⊢
      have hdec : decide (g.cell i j ≠ Float32.zero) = false := by simp [hz]
      simp only [countEdges, adjacent_nat hij.1 hij.2, hdec]
      exact ih2 k hk1 hk2

theorem mem_allPairs (n : Nat) (p : Nat × Nat) : p ∈ allPairs n ↔ p.1 < n ∧ p.2 < n := by
  unfold allPairs
  simp only [List.mem_flatMap, List.mem_map, List.mem_range]
  constructor
  · rintro ⟨i, hi, j, hj, rfl⟩
    exact ⟨hi, hj⟩
  · rintro ⟨h1, h2⟩
    exact ⟨p.1, h1, p.2, h2, rfl⟩

theorem length_filterMap_lineOf (g : MatrixGraph) :
    ∀ L : List (Nat × Nat), (∀ p ∈ L, p.1 < g.vertexCount ∧ p.2 < g.vertexCount) →
      (L.filterMap (lineOf g)).length =
        L.countP (fun p : Nat × Nat => decide (g.Adj (p.1 : Int) (p.2 : Int))) := by
  intro L
  induction L with
  | nil => intro _; rfl
  | cons p L ih =>
    intro h
    obtain ⟨i, j⟩ := p
    have hij := h (i, j) (List.mem_cons_self _ _)
    have ih2 := ih (fun p hp => h p (List.mem_cons_of_mem _ hp))
    have hadj : g.Adj (i : Int) (j : Int) ↔ g.cell i j ≠ Float32.zero := by
      unfold MatrixGraph.Adj
      rw [adjacent_nat hij.1 hij.2]
      simp
    by_cases hz : g.cell i j ≠ Float32.zero
    · have hf : ((i, j) :: L).filterMap (lineOf g) =
          ⟨(i : Int) + 1, (j : Int) + 1, writeWeight (g.cell i j)⟩ :: L.filterMap (lineOf g) := by
        simp [List.filterMap_cons, lineOf, hz]
      rw [hf, List.length_cons, ih2, List.countP_cons_of_pos]
      simpa using hadj.2 hz
    · have hf : ((i, j) :: L).filterMap (lineOf g) = L.filterMap (lineOf g) := by
        simp [List.filterMap_cons, lineOf, hz]
      rw [hf, ih2, List.countP_cons_of_neg]
      simpa using fun h => hz (hadj.1 h)

theorem edgeCount_eq (g : MatrixGraph) :
    g.edgeCount = ((allPairs g.vertexCount).filterMap (lineOf g)).length :=
  (length_filterMap_lineOf g _ (fun p hp => (mem_allPairs _ p).1 hp)).symm

theorem exportGraph_eq (g : MatrixGraph)
    (hcount : ((allPairs g.vertexCount).filterMap (lineOf g)).length ≤ 2147483647) :
    exportGraph g = Except.ok ⟨g.vertexCount,
      (((allPairs g.vertexCount).filterMap (lineOf g)).length : Int),
      (allPairs g.vertexCount).filterMap (lineOf g)⟩ := by
  have hp : ∀ p ∈ allPairs g.vertexCount, p.1 < g.vertexCount ∧ p.2 < g.vertexCount :=
    fun p hp => (mem_allPairs _ p).1 hp
  unfold exportGraph MatrixGraph.getVertexCount
  rw [countEdges_eq g _ 0 hp (by omega) (by omega), writeLines_eq g _ hp]
  simp

theorem readWeight_of_readBack {w : Float32} (h : readBack w = some w) :
    readWeight (writeWeight w) = (w, false) := by
  unfold readBack at h
  rcases hr : readWeight (writeWeight w) with ⟨x, b⟩
  rw [hr] at h
  cases b
  · simp only [Option.some.injEq] at h
    rw [h]
  · simp at h

theorem loadEdges_spec (g : MatrixGraph) (hn : g.vertexCount ≤ 2147483647)
    (hsym : g.isDirected = false → g.Symmetric)
    (hback : ∀ i j, i < g.vertexCount → j < g.vertexCount → g.cell i j ≠ Float32.zero →
      readBack (g.cell i j) = some (g.cell i j)) :
    ∀ (lines : List EdgeLine),
      (∀ l ∈ lines, ∃ i j : Nat, i < g.vertexCount ∧ j < g.vertexCount ∧
        g.cell i j ≠ Float32.zero ∧ l = ⟨(i : Int) + 1, (j : Int) + 1,
          writeWeight (g.cell i j)⟩) →
      ∀ (u v : Option Int) (weight : Option Float32) (h : MatrixGraph), LoadInv g h →
        ∃ h', loadEdges lines.length ⟨lines, false, u, v, weight⟩ h = some (Except.ok h') ∧
          LoadInv g h' ∧
          (∀ a b, h.cell a b = g.cell a b → h'.cell a b = g.cell a b) ∧
          (∀ l ∈ lines, ∀ i j : Nat, l.u = (i : Int) + 1 → l.v = (j : Int) + 1 →
            h'.cell i j = g.cell i j) := by
  intro lines
  induction lines with
  | nil =>
    intro _ u v weight h hinv
    exact ⟨h, rfl, hinv, fun _ _ hab => hab, fun l hl => absurd hl (List.not_mem_nil l)⟩
  | cons line rest ih =>
    intro hgood u v weight h hinv
    obtain ⟨i, j, hi, hj, hz, hline⟩ := hgood line (List.mem_cons_self _ _)
    have hrw := readWeight_of_readBack (hback i j hi hj hz)
    have hlu : line.u = (i : Int) + 1 := by rw [hline]
    have hlv : line.v = (j : Int) + 1 := by rw [hline]
    have hlw : line.weight = writeWeight (g.cell i j) := by rw [hline]
    have hru : readInt line.u = ((i : Int) + 1, false) := by
      rw [hlu]
      exact readInt_eq (by omega) (by omega)
    have hrv : readInt line.v = ((j : Int) + 1, false) := by
      rw [hlv]
      exact readInt_eq (by omega) (by omega)
    have hread : readEdge ⟨line :: rest, false, u, v, weight⟩ =
        ⟨rest, false, some ((i : Int) + 1), some ((j : Int) + 1), some (g.cell i j)⟩ := by
      simp [readEdge, hru, hrv, hlw, hrw]
    have hwu : wrapInt32 ((i : Int) + 1 - 1) = (i : Int) := by
      rw [wrapInt32_eq (by omega) (by omega)]
      omega
    have hwv : wrapInt32 ((j : Int) + 1 - 1) = (j : Int) := by
      rw [wrapInt32_eq (by omega) (by omega)]
      omega
    have hr : h.InRange (i : Int) (j : Int) := by
      unfold MatrixGraph.InRange
      rw [hinv.count]
      omega
    have hu : ((i : Int)).toNat = i := by simp
    have hv : ((j : Int)).toNat = j := by simp
    have hi' : i < h.vertexCount := by rw [hinv.count]; exact hi
    have hj' : j < h.vertexCount := by rw [hinv.count]; exact hj
    have hstore : ∀ a b, (h.store i j (g.cell i j)).cell a b =
        if (a = i ∧ b = j) ∨ (h.isDirected = false ∧ a = j ∧ b = i) then g.cell i j
        else h.cell a b := fun a b => store_cell hinv.sized hi' hj' _ a b
    have hwrite : ∀ a b, (a = i ∧ b = j) ∨ (h.isDirected = false ∧ a = j ∧ b = i) →
        g.cell i j = g.cell a b := by
      intro a b hab
      rcases hab with ⟨ha, hb⟩ | ⟨hd, ha, hb⟩
      · rw [ha, hb]
      · rw [hinv.directed] at hd
        rw [ha, hb]
        exact hsym hd i hi j hj
    have hinv1 : LoadInv g (h.store i j (g.cell i j)) := by
      refine ⟨store_sized hinv.sized _ _ _, hinv.count, hinv.directed, ?_⟩
      intro a b
      rw [hstore]
      by_cases hab : (a = i ∧ b = j) ∨ (h.isDirected = false ∧ a = j ∧ b = i)
      · rw [if_pos hab]
        exact Or.inl (hwrite a b hab)
      · rw [if_neg hab]
        exact hinv.cells a b
    have hkeep : ∀ a b, h.cell a b = g.cell a b →
        (h.store i j (g.cell i j)).cell a b = g.cell a b := by
      intro a b hab
      rw [hstore]
      by_cases hc : (a = i ∧ b = j) ∨ (h.isDirected = false ∧ a = j ∧ b = i)
      · rw [if_pos hc]
        exact hwrite a b hc
      · rw [if_neg hc]
        exact hab
    obtain ⟨h', h1, h2, h3, h4⟩ := ih (fun l hl => hgood l (List.mem_cons_of_mem _ hl))
      (some ((i : Int) + 1)) (some ((j : Int) + 1)) (some (g.cell i j))
      (h.store i j (g.cell i j)) hinv1
    refine ⟨h', ?_, h2, fun a b hab => h3 a b (hkeep a b hab), ?_⟩
    · simp only [List.length_cons, loadEdges, hread, hwu, hwv, addEdge_ok hr, hu, hv]
      exact h1
    · intro l hl a b hla hlb
      rcases List.mem_cons.1 hl with hl | hl
      · rw [hl, hline] at hla hlb
        simp only at hla hlb
        have ha : a = i := by omega
        have hb : b = j := by omega
        rw [ha, hb]
        apply h3
        rw [hstore]
        simp
      · exact h4 l hl a b hla hlb

theorem construct_loadInv (g : MatrixGraph) :
    LoadInv g (MatrixGraph.construct g.vertexCount g.isDirected) :=
  ⟨construct_sized _ _, rfl, rfl, fun a b => Or.inr (construct_cell _ _ a b)⟩

theorem reload_spec (g : MatrixGraph) (hg : Reachable g) (hn : g.vertexCount ≤ 2147483647)
    (hcount : g.edgeCount ≤ 2147483647)
    (hback : ∀ i j, i < g.vertexCount → j < g.vertexCount → g.cell i j ≠ Float32.zero →
      readBack (g.cell i j) = some (g.cell i j)) :
    ∃ g', reload g = some (Except.ok g') ∧ g'.vertexCount = g.vertexCount ∧
      g'.isDirected = g.isDirected ∧
      ∀ i j, i < g.vertexCount → j < g.vertexCount → g'.cell i j = g.cell i j := by
  have hgood : ∀ l ∈ (allPairs g.vertexCount).filterMap (lineOf g),
      ∃ i j : Nat, i < g.vertexCount ∧ j < g.vertexCount ∧
        g.cell i j ≠ Float32.zero ∧ l = ⟨(i : Int) + 1, (j : Int) + 1,
          writeWeight (g.cell i j)⟩ := by
    intro l hl
    obtain ⟨p, hp, hpl⟩ := List.mem_filterMap.1 hl
    have hlt := (mem_allPairs _ p).1 hp
    unfold lineOf at hpl
    by_cases hz : g.cell p.1 p.2 ≠ Float32.zero
    · rw [if_pos hz] at hpl
      exact ⟨p.1, p.2, hlt.1, hlt.2, hz, (Option.some.inj hpl).symm⟩
    · rw [if_neg hz] at hpl
      exact absurd hpl (by simp)
  have hlen : ((allPairs g.vertexCount).filterMap (lineOf g)).length ≤ 2147483647 := by
    rw [← edgeCount_eq]
    exact hcount
  obtain ⟨g', h1, h2, _, h4⟩ := loadEdges_spec g hn hg.wellFormed.2 hback _ hgood none none none
    _ (construct_loadInv g)
  refine ⟨g', ?_, h2.count, h2.directed, ?_⟩
  · unfold reload
    rw [exportGraph_eq g hlen]
    have hri : readInt ((((allPairs g.vertexCount).filterMap (lineOf g)).length : Nat) : Int) =
        (((((allPairs g.vertexCount).filterMap (lineOf g)).length : Nat) : Int), false) :=
      readInt_eq (by omega) (by omega)
    simp only [loadGraphFromFile, hri, Int.toNat_ofNat]
    rw [if_neg (by omega)]
    exact h1
  · intro i j hi hj
    by_cases hz : g.cell i j ≠ Float32.zero
    · have hmem : (⟨(i : Int) + 1, (j : Int) + 1, writeWeight (g.cell i j)⟩ : EdgeLine) ∈
          (allPairs g.vertexCount).filterMap (lineOf g) := by
        rw [List.mem_filterMap]
        refine ⟨(i, j), (mem_allPairs _ _).2 ⟨hi, hj⟩, ?_⟩
        unfold lineOf
        rw [if_pos hz]
      exact h4 _ hmem i j rfl rfl
    · have hz2 : g.cell i j = Float32.zero := by
        by_contra h
        exact hz h
      rcases h2.cells i j with h | h
      · exact h
      · rw [h, hz2]

theorem queries_of_cells {g g' : MatrixGraph} (hn : g'.vertexCount = g.vertexCount)
    (hc : ∀ i j, i < g.vertexCount → j < g.vertexCount → g'.cell i j = g.cell i j)
    (u v : Int) :
    g'.adjacent u v = g.adjacent u v ∧ g'.getEdgeWeight u v = g.getEdgeWeight u v := by
  have hbad : g'.badIndex u v = g.badIndex u v := by
    unfold MatrixGraph.badIndex
    rw [hn]
  unfold MatrixGraph.adjacent MatrixGraph.getEdgeWeight
  rw [hbad]
  cases hb : g.badIndex u v
  · obtain ⟨h1, h2⟩ := MatrixGraph.InRange.toNat_lt ((badIndex_eq_false_iff g u v).1 hb)
    rw [hc _ _ h1 h2]
    simp
  · simp

theorem roundHalfEven_intCast (n : Int) : roundHalfEven (n : ℚ) = n := by
  unfold roundHalfEven
  simp

theorem writeWeight_tiny : writeWeight tinyWeight = some 0 := by
  have hf : ⌊(1 / 16777216 * 1000000 : ℚ)⌋ = 0 := by
    rw [Int.floor_eq_iff]
    constructor <;> norm_num
  have hr : roundHalfEven (1 / 16777216 * 1000000) = 0 := by
    unfold roundHalfEven
    rw [hf]
    norm_num
  show some ((roundHalfEven (1 / 16777216 * 1000000) : ℚ) / 1000000) = some 0
  rw [hr]
  simp

theorem tinyWeight_ne_zero : tinyWeight ≠ Float32.zero := by
  unfold tinyWeight Float32.zero
  intro h
  have := Float32.finite.inj h
  norm_num at this

theorem nearestFloat_one : nearestFloat 1 = Float32.one := by
  have h2 : roundHalfEven ((8388608 : ℚ)) = 8388608 := by
    have := roundHalfEven_intCast 8388608
    simpa using this
  have hlog : Int.log 2 |(1 : ℚ)| = 0 := by simp
  unfold nearestFloat Float32.one
  simp only [hlog]
  norm_num
  rw [h2]
  norm_num

theorem readBack_one : readBack Float32.one = some Float32.one := by
  have h1 : roundHalfEven ((1 : ℚ) * 1000000) = 1000000 := by
    have := roundHalfEven_intCast 1000000
    simpa using this
  have hw : writeWeight Float32.one = some 1 := by
    unfold writeWeight Float32.one
    simp only [h1]
    norm_num
  unfold readBack
  rw [hw]
  simp only [readWeight, nearestFloat_one]
  rfl

theorem tinyGraph_lines :
    (allPairs tinyGraph.vertexCount).filterMap (lineOf tinyGraph) = [⟨1, 2, some 0⟩] := by
  have h00 : tinyGraph.cell 0 0 = Float32.zero := rfl
  have h01 : tinyGraph.cell 0 1 = tinyWeight := rfl
  have h10 : tinyGraph.cell 1 0 = Float32.zero := rfl
  have h11 : tinyGraph.cell 1 1 = Float32.zero := rfl
  have hp : allPairs tinyGraph.vertexCount = [(0, 0), (0, 1), (1, 0), (1, 1)] := rfl
  rw [hp]
  simp [List.filterMap_cons, lineOf, h00, h01, h10, h11, tinyWeight_ne_zero, writeWeight_tiny]

/-- C16 (counterexample): the directed graph on two vertices with the edge `0 → 1` of
weight `2 ^ (-24)` has `adjacent(0, 1)` true; its weight is written as `0.000000`, so the
graph loaded from the text is the graph without edges, where `adjacent(0, 1)` is false. -/
theorem roundTrip_loses_tiny_edge :
    Reachable tinyGraph ∧ tinyGraph.adjacent 0 1 = Except.ok true ∧
    reload tinyGraph = some (Except.ok (MatrixGraph.construct 2 true)) ∧
    (MatrixGraph.construct 2 true).adjacent 0 1 = Except.ok false := by
  refine ⟨Reachable.addEdge 0 1 _ (Reachable.construct 2 true), ?_, ?_, by decide⟩
  · have h01 : tinyGraph.cell 0 1 = tinyWeight := rfl
    have hr : tinyGraph.InRange 0 1 := by decide
    rw [adjacent_ok hr]
    show Except.ok (decide (tinyGraph.cell 0 1 ≠ Float32.zero)) = Except.ok true
    rw [h01]
    simp [tinyWeight_ne_zero]
  · unfold reload
    rw [exportGraph_eq tinyGraph (by rw [tinyGraph_lines]; decide), tinyGraph_lines]
    decide

/-- C16 (amended): on a reachable graph with at most `INT_MAX` vertices and at most
`INT_MAX` ordered pairs `(i, j)` with `adjacent(i, j)`, whose non-zero weights are all
finite and are each read back unchanged from the text written for them, writing the
graph as menu case 3 does and loading the text with the same directedness returns a
graph with the same vertex count and directedness on which `adjacent` and
`getEdgeWeight` give, for all arguments, what they give on the original. -/
theorem roundTrip (g : MatrixGraph) (hg : Reachable g) (hn : g.getVertexCount ≤ 2147483647)
    (hcount : g.edgeCount ≤ 2147483647)
    (hback : ∀ i j, i < g.vertexCount → j < g.vertexCount → g.cell i j ≠ Float32.zero →
      readBack (g.cell i j) = some (g.cell i j)) :
    ∃ g', reload g = some (Except.ok g') ∧ g'.getVertexCount = g.getVertexCount ∧
      g'.isDirected = g.isDirected ∧
      ∀ u v : Int, g'.adjacent u v = g.adjacent u v ∧
        g'.getEdgeWeight u v = g.getEdgeWeight u v := by
  obtain ⟨g', h1, h2, h3, h4⟩ := reload_spec g hg hn hcount hback
  exact ⟨g', h1, h2, h3, fun u v => queries_of_cells h2 h4 u v⟩

/-- C16 (instance): the directed chain `0 → 1 → 2 → 3`, whose weights are all `1.0f`. -/
theorem roundTrip_witness :
    Reachable chain4 ∧ chain4.getVertexCount ≤ 2147483647 ∧ chain4.edgeCount ≤ 2147483647 ∧
    (∀ i j, i < chain4.vertexCount → j < chain4.vertexCount →
      chain4.cell i j ≠ Float32.zero → readBack (chain4.cell i j) = some (chain4.cell i j)) ∧
    ∃ g', reload chain4 = some (Except.ok g') ∧ g'.getVertexCount = chain4.getVertexCount ∧
      g'.isDirected = chain4.isDirected ∧
      ∀ u v : Int, g'.adjacent u v = chain4.adjacent u v ∧
        g'.getEdgeWeight u v = chain4.getEdgeWeight u v :=
  have hreach : Reachable chain4 :=
    Reachable.addEdge 2 3 Float32.one
      (Reachable.addEdge 1 2 Float32.one
        (Reachable.addEdge 0 1 Float32.one (Reachable.construct 4 true)))
  have hcells : ∀ i, i < 4 → ∀ j, j < 4 →
      chain4.cell i j = Float32.zero ∨ chain4.cell i j = Float32.one := by decide
  have hback : ∀ i j, i < chain4.vertexCount → j < chain4.vertexCount →
      chain4.cell i j ≠ Float32.zero →
      readBack (chain4.cell i j) = some (chain4.cell i j) := fun i j hi hj hz =>
    (hcells i hi j hj).elim (fun h => absurd h hz) (fun h => by rw [h]; exact readBack_one)
  ⟨hreach, by decide, by decide, hback, roundTrip chain4 hreach (by decide) (by decide) hback⟩

theorem visitNeighbor_congr {g1 g2 : MatrixGraph} {c i : Nat}
    (h : g1.cell c i ≠ Float32.zero ↔ g2.cell c i ≠ Float32.zero) (st : BFSState) :
    visitNeighbor g1 c st i = visitNeighbor g2 c st i := by
  unfold visitNeighbor
  by_cases h1 : g1.cell c i ≠ Float32.zero ∧ st.visited.getD i false = false
  · have h2 : g2.cell c i ≠ Float32.zero ∧ st.visited.getD i false = false :=
      ⟨h.1 h1.1, h1.2⟩
    rw [if_pos h1, if_pos h2]
  · have h2 : ¬ (g2.cell c i ≠ Float32.zero ∧ st.visited.getD i false = false) :=
      fun hh => h1 ⟨h.2 hh.1, hh.2⟩
    rw [if_neg h1, if_neg h2]

theorem foldl_visitNeighbor_congr {g1 g2 : MatrixGraph} {c : Nat} (cols : List Nat)
    (h : ∀ i ∈ cols, (g1.cell c i ≠ Float32.zero ↔ g2.cell c i ≠ Float32.zero)) :
    ∀ st : BFSState,
      cols.foldl (visitNeighbor g1 c) st = cols.foldl (visitNeighbor g2 c) st := by
  induction cols with
  | nil => intro st; rfl
  | cons i cols ih =>
    intro st
    rw [List.foldl_cons, List.foldl_cons,
      visitNeighbor_congr (h i (List.mem_cons_self _ _)) st]
    exact ih (fun k hk => h k (List.mem_cons_of_mem _ hk)) _

theorem scanRow_congr {g1 g2 : MatrixGraph} (hn : g1.vertexCount = g2.vertexCount)
    (hcells : ∀ i j, i < g1.vertexCount → j < g1.vertexCount →
      (g1.cell i j ≠ Float32.zero ↔ g2.cell i j ≠ Float32.zero))
    {c : Nat} (hc : c < g1.vertexCount) (st : BFSState) :
    scanRow g1 c st = scanRow g2 c st := by
  unfold scanRow
  rw [← hn]
  exact foldl_visitNeighbor_congr _
    (fun i hi => hcells c i hc (List.mem_range.1 hi)) st

theorem bfsLoop_congr {g1 g2 : MatrixGraph} (hn : g1.vertexCount = g2.vertexCount)
    (hcells : ∀ i j, i < g1.vertexCount → j < g1.vertexCount →
      (g1.cell i j ≠ Float32.zero ↔ g2.cell i j ≠ Float32.zero)) (t : Nat) :
    ∀ (fuel : Nat) (st : BFSState), st.visited.length = g1.vertexCount →
      st.prev.length = g1.vertexCount → (∀ v ∈ st.queue.nodes, v < g1.vertexCount) →
      bfsLoop g1 t fuel st = bfsLoop g2 t fuel st := by
  intro fuel
  induction fuel with
  | zero => intro st _ _ _; rfl
  | succ fuel ih =>
    intro st hv hp hq
    cases hnodes : st.queue.nodes with
    | nil => simp [bfsLoop, Queue.isEmpty, hnodes]
    | cons c rest =>
      have hc : c < g1.vertexCount := hq c (by rw [hnodes]; exact List.mem_cons_self _ _)
      by_cases hct : c = t
      · simp [bfsLoop, Queue.isEmpty, Queue.dequeue, hnodes, hct]
      · simp only [bfsLoop, Queue.isEmpty, Queue.dequeue, hnodes, hct, List.isEmpty_cons,
          Bool.false_eq_true, if_false]
        have F := scanRow_facts g1 c
          { st with queue := ⟨rest, st.queue.currentSize - 1⟩ } hv hp
        rw [← scanRow_congr hn hcells hc]
        apply ih
        · exact F.vlen.trans hv
        · exact F.plen.trans hp
        · intro v hv2
          rw [F.queue_eq] at hv2
          rcases List.mem_append.1 hv2 with h | h
          · exact hq v (by rw [hnodes]; exact List.mem_cons_of_mem _ h)
          · exact ((mem_discovered_range g1 c _ v).1 h).1

theorem getBFSPathWithin_congr {g1 g2 : MatrixGraph}
    (hn : g1.vertexCount = g2.vertexCount)
    (hcells : ∀ i j, i < g1.vertexCount → j < g1.vertexCount →
      (g1.cell i j ≠ Float32.zero ↔ g2.cell i j ≠ Float32.zero))
    (fuel : Nat) (start goal : Int) :
    g1.getBFSPathWithin fuel start goal = g2.getBFSPathWithin fuel start goal := by
  have hbad : g2.badIndex start goal = g1.badIndex start goal := by
    unfold MatrixGraph.badIndex
    rw [hn]
  have hinit : bfsInit g2 start.toNat = bfsInit g1 start.toNat := by
    unfold bfsInit
    rw [hn]
  unfold MatrixGraph.getBFSPathWithin
  rw [hbad, hinit]
  cases hb : g1.badIndex start goal
  · obtain ⟨hs, _⟩ := MatrixGraph.InRange.toNat_lt ((badIndex_eq_false_iff g1 start goal).1 hb)
    have hloop := bfsLoop_congr hn hcells goal.toNat fuel (bfsInit g1 start.toNat)
      (by simp [bfsInit]) (by simp [bfsInit])
      (by
        intro v hv
        have hq : (bfsInit g1 start.toNat).queue.nodes = [start.toNat] := rfl
        rw [hq, List.mem_singleton] at hv
        rw [hv]
        exact hs)
    rw [hloop]
  · rfl

/-- C21: for two graphs with the same vertex count whose matrices are non-zero at the
same cells, `getBFSPath` (and so `pathExists`) gives the same outcome on both for all
arguments, whatever the weights are; and a second call on the graph that the first call
leaves gives the outcome of the first. -/
theorem getBFSPath_weight_independent (g1 g2 : MatrixGraph)
    (hn : g1.vertexCount = g2.vertexCount)
    (hcells : ∀ i j, i < g1.vertexCount → j < g1.vertexCount →
      (g1.cell i j ≠ Float32.zero ↔ g2.cell i j ≠ Float32.zero))
    (start goal : Int) :
    g1.getBFSPath start goal = g2.getBFSPath start goal ∧
    g1.pathExists start goal = g2.pathExists start goal ∧
    (g1.afterCall (Call.getBFSPath start goal)).getBFSPath start goal =
      g1.getBFSPath start goal := by
  have h : g1.getBFSPath start goal = g2.getBFSPath start goal := by
    unfold MatrixGraph.getBFSPath
    rw [← hn]
    exact getBFSPathWithin_congr hn hcells _ start goal
  refine ⟨h, ?_, rfl⟩
  unfold MatrixGraph.pathExists
  rw [h]

/-- C21 (instance): the chain `0 → 1 → 2 → 3` with the weights 1, 1, 1 and with the
weights -3, 7, NaN: the same path from 0 to 3. -/
theorem getBFSPath_weight_independent_witness :
    chain4.vertexCount = chain4Reweighted.vertexCount ∧
    (∀ i j, i < chain4.vertexCount → j < chain4.vertexCount →
      (chain4.cell i j ≠ Float32.zero ↔ chain4Reweighted.cell i j ≠ Float32.zero)) ∧
    chain4Reweighted.getBFSPath 0 3 = some (Except.ok [0, 1, 2, 3]) ∧
    chain4.getBFSPath 0 3 = chain4Reweighted.getBFSPath 0 3 ∧
    chain4.pathExists 0 3 = chain4Reweighted.pathExists 0 3 ∧
    (chain4.afterCall (Call.getBFSPath 0 3)).getBFSPath 0 3 = chain4.getBFSPath 0 3 :=
  have hcells : ∀ i, i < 4 → ∀ j, j < 4 →
      (chain4.cell i j ≠ Float32.zero ↔ chain4Reweighted.cell i j ≠ Float32.zero) := by
    decide
  ⟨rfl, fun i j hi hj => hcells i hi j hj, by decide,
    getBFSPath_weight_independent chain4 chain4Reweighted rfl
      (fun i j hi hj => hcells i hi j hj) 0 3⟩

end MatrixBFS
